import Mathlib

/-!
Verification development for the formula-engine repository.

The development shallowly embeds the TypeScript sources — lexer, parser,
evaluator, dependency extractor, dependency graph and the FormulaEngine
façade — as executable Lean definitions, and proves or refutes the frozen
specification claims against them.  Definitions follow the source files
(src/lexer.ts, the Parser class, src/evaluator.ts, src/functions.ts,
src/dependency-extractor.ts, src/dependency-graph.ts, src/formula-engine.ts);
the arbitrary-precision decimal primitive is an external collaborator of the
repository (the decimal.js library) and is modelled from the spec's §6.3
contract.
-/

namespace FE

/-! ## Decimal values

Modelled from the spec: the decimal primitive is an external collaborator
(§6.3 of the spec); the repository only wraps it in `DecimalUtils`
(src/decimal-utils.ts).  A decimal is an immutable arbitrary-precision
signed decimal number; we represent the value `m / 10^s` by the pair
`(m, s)`.  Addition, subtraction and multiplication are exact; division
and rounding round at an explicit scale with an explicit rounding mode,
as required by the contract.  (decimal.js additionally limits results to
a significand of `precision` digits, default 20; no computation in this
development comes near that limit, so the exact model agrees with it.)
-/

structure Dec where
  m : Int
  s : Nat
  deriving DecidableEq, Repr

namespace Dec

/-- Rational value denoted by a decimal. -/
def val (d : Dec) : ℚ := (d.m : ℚ) / (10 : ℚ) ^ d.s

/-- Value equality (`Decimal.equals` compares values, not representations). -/
def eqv (a b : Dec) : Bool := a.m * (10 : Int) ^ b.s == b.m * (10 : Int) ^ a.s

/-- Comparison (`Decimal.comparedTo`): negative, zero or positive. -/
def cmp (a b : Dec) : Ordering := compare (a.m * (10 : Int) ^ b.s) (b.m * (10 : Int) ^ a.s)

def lt (a b : Dec) : Bool := a.cmp b == .lt

def le (a b : Dec) : Bool := a.cmp b != .gt

def ofInt (n : Int) : Dec := ⟨n, 0⟩

def isZero (d : Dec) : Bool := d.m == 0

def neg (d : Dec) : Dec := ⟨-d.m, d.s⟩

def abs (d : Dec) : Dec := ⟨d.m.natAbs, d.s⟩

/-- Exact addition (`Decimal.plus`). -/
def add (a b : Dec) : Dec :=
  if a.s ≤ b.s then ⟨a.m * (10 : Int) ^ (b.s - a.s) + b.m, b.s⟩
  else ⟨a.m + b.m * (10 : Int) ^ (a.s - b.s), a.s⟩

/-- Exact subtraction (`Decimal.minus`). -/
def sub (a b : Dec) : Dec := a.add b.neg

/-- Exact multiplication (`Decimal.times`). -/
def mul (a b : Dec) : Dec := ⟨a.m * b.m, a.s + b.s⟩

/-- Rounding modes of the decimal collaborator (§6.3): CEIL, FLOOR, DOWN
(toward zero), UP (away from zero), HALF_UP, HALF_DOWN, HALF_EVEN and
HALF_CEIL (the image of HALF_ODD under `ROUNDING_MODE_MAP` in
src/decimal-utils.ts, which maps HALF_ODD to HALF_CEIL because decimal.js
lacks HALF_ODD). -/
inductive RMode
  | ceil | floor | down | up | halfUp | halfDown | halfEven | halfCeil
  deriving DecidableEq, Repr

/-- Rounded integer division `n / d` for positive `d`, by rounding mode. -/
def divRoundPos (n d : Int) (mode : RMode) : Int :=
  let q := Int.fdiv n d
  let r := n - q * d
  if r = 0 then q
  else
    match mode with
    | .floor => q
    | .ceil => q + 1
    | .down => if n < 0 then q + 1 else q
    | .up => if n < 0 then q else q + 1
    | .halfUp =>
        if 2 * r > d then q + 1 else if 2 * r < d then q
        else if n ≥ 0 then q + 1 else q
    | .halfDown =>
        if 2 * r > d then q + 1 else if 2 * r < d then q
        else if n ≥ 0 then q else q + 1
    | .halfEven =>
        if 2 * r > d then q + 1 else if 2 * r < d then q
        else if q % 2 = 0 then q else q + 1
    | .halfCeil =>
        if 2 * r > d then q + 1 else if 2 * r < d then q else q + 1

/-- Rounded integer division, any nonzero denominator. -/
def divRound (n d : Int) (mode : RMode) : Int :=
  if d < 0 then divRoundPos (-n) (-d) mode else divRoundPos n d mode

/-- Round to `scale` decimal places (`Decimal.toDecimalPlaces`).  A value
whose scale already fits is returned unchanged. -/
def toDecimalPlaces (d : Dec) (scale : Nat) (mode : RMode) : Dec :=
  if d.s ≤ scale then d
  else ⟨divRoundPos d.m ((10 : Int) ^ (d.s - scale)) mode, scale⟩

/-- Division rounded at `scale` decimal places with `mode`
(`Decimal.dividedBy` followed by `toDecimalPlaces`, as `DecimalUtils.divide`
performs). -/
def div (a b : Dec) (scale : Nat) (mode : RMode) : Dec :=
  ⟨divRound (a.m * (10 : Int) ^ (b.s + scale)) (b.m * (10 : Int) ^ a.s) mode, scale⟩

/-- Modulo (`Decimal.modulo`, truncated remainder with the sign of the
dividend, matching decimal.js ROUND_DOWN modulo). -/
def mod (a b : Dec) : Dec :=
  let s := max a.s b.s
  let am := a.m * (10 : Int) ^ (s - a.s)
  let bm := b.m * (10 : Int) ^ (s - b.s)
  ⟨am - bm * (Int.tdiv am bm), s⟩

/-- Digits of a natural number, most significant first. -/
def natDigits (n : Nat) : List Char :=
  (Nat.toDigits 10 n)

/-- Canonical decimal text (`Decimal.toString`): sign, integer part, and a
fractional part with trailing zeros removed (`preserveTrailingZeros` is
false by default).  Exponential display, which decimal.js uses only past
10^1000, is not reached by any computation here. -/
def decToString (d : Dec) : String :=
  let a := d.m.natAbs
  let sign := if d.m < 0 ∧ a ≠ 0 then "-" else ""
  let digits := natDigits a
  let digits := List.replicate (d.s + 1 - digits.length) '0' ++ digits
  let intPart := digits.take (digits.length - d.s)
  let fracPart := (digits.drop (digits.length - d.s)).reverse.dropWhile (· = '0') |>.reverse
  if fracPart.isEmpty then sign ++ String.mk intPart
  else sign ++ String.mk intPart ++ "." ++ String.mk fracPart

/-- Decimal text parsing (`new Decimal(string)`), for the literal forms the
engine feeds it: optional sign, digits, optional point and fraction digits. -/
def ofString (text : String) : Option Dec :=
  let cs := text.toList
  let (sign, cs) :=
    match cs with
    | '-' :: rest => ((-1 : Int), rest)
    | '+' :: rest => ((1 : Int), rest)
    | _ => ((1 : Int), cs)
  let intDigits := cs.takeWhile (·.isDigit)
  let rest := cs.dropWhile (·.isDigit)
  match rest with
  | [] =>
      if intDigits.isEmpty then none
      else some ⟨sign * (intDigits.foldl (fun acc c => acc * 10 + (c.toNat - 48)) 0 : Nat), 0⟩
  | '.' :: fracRest =>
      let fracDigits := fracRest.takeWhile (·.isDigit)
      if fracRest.dropWhile (·.isDigit) ≠ [] then none
      else if intDigits.isEmpty ∧ fracDigits.isEmpty then none
      else
        some ⟨sign * (((intDigits ++ fracDigits).foldl
          (fun acc c => acc * 10 + (c.toNat - 48)) 0 : Nat)), fracDigits.length⟩
  | _ => none

end Dec

/-! ## Errors (src/errors.ts)

One inductive for the engine's error taxonomy; each constructor carries the
structured fields of the corresponding error class that the claims rely on.
`jsError` stands for a plain JavaScript `Error` thrown by internal guards
(for example "SUM first argument must be an array"); `fuelExhausted` is an
artefact of the embedding: recursion fuel, unreachable whenever enough fuel
is supplied. -/

inductive Err
  | syntaxError (msg : String) (position line column : Nat)
  | unexpectedToken (token : String) (expected : List String) (position : Nat)
  | unterminatedString (position : Nat)
  | invalidNumber (text : String) (position : Nat)
  | undefinedVariable (name ctx : String)
  | undefinedFunction (name : String)
  | divisionByZero
  | invalidOperation (op : String) (operandTypes : List String)
  | propertyAccess (prop : String) (objectType : String)
  | indexAccess (index : String) (objectType : String)
  | argumentCount (fn : String) (minA : Nat) (maxA : Int) (actual : Nat)
  | maxIterations (limit : Nat)
  | maxRecursion (limit : Nat)
  | typeMismatch (expected actual location : String)
  | invalidDecimal (text : String)
  | decimalDivisionByZero
  | circularDependency (cycle involved : List String)
  | duplicateFormula (id : String)
  | maxExpressionLength (length maxLength : Nat)
  | generalError (msg : String)
  | jsError (msg : String)
  | fuelExhausted
  deriving DecidableEq, Repr

/-! ## Tokens and lexer (src/lexer.ts) -/

inductive TokType
  | number | string | boolean | null
  | identifier | variable | contextVar
  | plus | minus | multiply | divide | modulo | power
  | eq | neq | lt | gt | lte | gte
  | and | or | not
  | lparen | rparen | lbracket | rbracket | comma | dot | question | colon
  | eof
  deriving DecidableEq, Repr

/-- Token payload: `string | number | boolean | null` in the source.  A
JavaScript number (produced only for float literals) is carried as its
exact decimal value; IEEE-754 rounding of `parseFloat` is not modelled
(no claim involves float literals). -/
inductive TokVal
  | vstr (s : String)
  | vfloat (d : Dec)
  | vbool (b : Bool)
  | vnull
  deriving DecidableEq, Repr

structure Tok where
  type : TokType
  value : TokVal
  position : Nat
  line : Nat
  column : Nat
  deriving DecidableEq, Repr

namespace Lexer

/-- Position bookkeeping of `Lexer.advance`: newline resets the column. -/
def adv1 (c : Char) : Nat × Nat × Nat → Nat × Nat × Nat
  | (p, l, cl) => (p + 1, if c = '\n' then (l + 1, 1) else (l, cl + 1))

def advMany (cs : List Char) (st : Nat × Nat × Nat) : Nat × Nat × Nat :=
  cs.foldl (fun st c => adv1 c st) st

def isDigit (c : Char) : Bool := '0' ≤ c ∧ c ≤ '9'

def isAlpha (c : Char) : Bool :=
  ('a' ≤ c ∧ c ≤ 'z') ∨ ('A' ≤ c ∧ c ≤ 'Z') ∨ c = '_'

def isAlphaNumeric (c : Char) : Bool := isAlpha c ∨ isDigit c

/-- String-literal body scanner (the `while` loop of `Lexer.scanString`).
Returns the decoded value and the state after the closing quote. -/
def scanStringGo (quote : Char) (startPos : Nat) :
    List Char → Nat × Nat × Nat → List Char →
    Except Err (String × List Char × (Nat × Nat × Nat))
  | [], _, _ => .error (.unterminatedString startPos)
  | c :: rest, st, acc =>
    if c = quote then
      .ok (String.mk acc.reverse, rest, adv1 c st)
    else if c = '\\' then
      match rest with
      | [] => .error (.unterminatedString startPos)
      | e :: rest2 =>
        let decoded :=
          if e = 'n' then '\n' else if e = 't' then '\t'
          else if e = 'r' then '\r' else e
        scanStringGo quote startPos rest2 (adv1 e (adv1 c st)) (decoded :: acc)
    else
      scanStringGo quote startPos rest (adv1 c st) (c :: acc)

/-- Float literal text (`parseFloat`): mantissa with optional exponent,
modelled by its exact decimal value. -/
def parseFloatText (text : String) : Option Dec :=
  let cs := text.toList
  let mantissa := cs.takeWhile (fun c => isDigit c ∨ c = '.')
  let expPart := cs.dropWhile (fun c => isDigit c ∨ c = '.')
  match Dec.ofString (String.mk mantissa) with
  | none => none
  | some d =>
    match expPart with
    | [] => some d
    | _ :: expRest =>
      let (sgn, digits) :=
        match expRest with
        | '+' :: ds => (1, ds)
        | '-' :: ds => (-1, ds)
        | ds => (1, ds)
      let e : Nat := digits.foldl (fun acc c => acc * 10 + (c.toNat - 48)) 0
      if sgn = (1 : Int) then some ⟨d.m * (10 : Int) ^ e, d.s⟩
      else some ⟨d.m, d.s + e⟩

/-- Number scanner (`Lexer.scanNumber`); `firstChar` has been consumed and
`st` is the state after it.  Decimal numbers keep their textual form;
scientific notation or an `f`/`F` suffix makes the token a float, a
trailing `d`/`D` forces decimal. -/
def scanNumber (firstChar : Char) (startPos : Nat) (cs : List Char)
    (st : Nat × Nat × Nat) :
    Except Err (Tok × List Char × (Nat × Nat × Nat)) := do
  let intPart := cs.takeWhile isDigit
  let rest := cs.dropWhile isDigit
  let st := advMany intPart st
  let numStr := firstChar :: intPart
  let (numStr, rest, st) :=
    match rest with
    | '.' :: d :: fracRest =>
      if isDigit d then
        let frac := (d :: fracRest).takeWhile isDigit
        (numStr ++ '.' :: frac, (d :: fracRest).dropWhile isDigit,
          advMany frac (adv1 '.' st))
      else (numStr, rest, st)
    | _ => (numStr, rest, st)
  let (numStr, rest, st, isFloat) ← do
    match rest with
    | e :: expRest =>
      if e = 'e' ∨ e = 'E' then do
        let st := adv1 e st
        let (sgnChars, expRest, st) :=
          match expRest with
          | sc :: more =>
            if sc = '+' ∨ sc = '-' then ([sc], more, adv1 sc st) else ([], expRest, st)
          | [] => ([], expRest, st)
        match expRest with
        | [] => .error (.invalidNumber (String.mk (numStr ++ e :: sgnChars)) startPos)
        | d :: _ =>
          if isDigit d then
            let expDigits := expRest.takeWhile isDigit
            .ok (numStr ++ e :: sgnChars ++ expDigits, expRest.dropWhile isDigit,
              advMany expDigits st, true)
          else .error (.invalidNumber (String.mk (numStr ++ e :: sgnChars)) startPos)
      else .ok (numStr, rest, st, false)
    | [] => .ok (numStr, rest, st, false)
  let (rest, st, isFloat) :=
    match rest with
    | f :: more =>
      if f = 'f' ∨ f = 'F' then (more, adv1 f st, true) else (rest, st, isFloat)
    | [] => (rest, st, isFloat)
  let (rest, st, isFloat) :=
    match rest with
    | d :: more =>
      if d = 'd' ∨ d = 'D' then (more, adv1 d st, false) else (rest, st, isFloat)
    | [] => (rest, st, isFloat)
  let text := String.mk numStr
  if isFloat then
    match parseFloatText text with
    | none => .error (.invalidNumber text startPos)
    | some v => .ok (⟨.number, .vfloat v, st.1, st.2.1, st.2.2⟩, rest, st)
  else
    .ok (⟨.number, .vstr text, st.1, st.2.1, st.2.2⟩, rest, st)

/-- Identifier / keyword scanner (`Lexer.scanIdentifier`).  Keyword lookup is
`KEYWORDS[name] || KEYWORDS[name.toUpperCase()]`, so `true`/`false`/`null`
are recognized only in lower case while AND/OR/NOT are case-insensitive. -/
def scanIdentifier (firstChar : Char) (cs : List Char) (st : Nat × Nat × Nat) :
    Tok × List Char × (Nat × Nat × Nat) :=
  let restName := cs.takeWhile isAlphaNumeric
  let rest := cs.dropWhile isAlphaNumeric
  let st := advMany restName st
  let name := String.mk (firstChar :: restName)
  let upper := name.toUpper
  let mk (t : TokType) (v : TokVal) : Tok := ⟨t, v, st.1, st.2.1, st.2.2⟩
  if name = "true" then (mk .boolean (.vbool true), rest, st)
  else if name = "false" then (mk .boolean (.vbool false), rest, st)
  else if name = "null" then (mk .null .vnull, rest, st)
  else if name = "AND" ∨ upper = "AND" then (mk .and (.vstr "AND"), rest, st)
  else if name = "OR" ∨ upper = "OR" then (mk .or (.vstr "OR"), rest, st)
  else if name = "NOT" ∨ upper = "NOT" then (mk .not (.vstr "NOT"), rest, st)
  else (mk .identifier (.vstr name), rest, st)

/-- One token (`Lexer.scanToken`); `cs` is nonempty when called. -/
def scanToken (cs : List Char) (st : Nat × Nat × Nat) :
    Except Err (Tok × List Char × (Nat × Nat × Nat)) :=
  match cs with
  | [] => .error .fuelExhausted
  | c :: rest =>
    let startPos := st.1
    let startLine := st.2.1
    let startCol := st.2.2
    let st1 := adv1 c st
    let one (t : TokType) (v : String) : Except Err (Tok × List Char × (Nat × Nat × Nat)) :=
      .ok (⟨t, .vstr v, st1.1, st1.2.1, st1.2.2⟩, rest, st1)
    let two (t : TokType) (v : String) (c2 : Char) (rest2 : List Char) :
        Except Err (Tok × List Char × (Nat × Nat × Nat)) :=
      let st2 := adv1 c2 st1
      .ok (⟨t, .vstr v, st2.1, st2.2.1, st2.2.2⟩, rest2, st2)
    if c = '(' then one .lparen "("
    else if c = ')' then one .rparen ")"
    else if c = '[' then one .lbracket "["
    else if c = ']' then one .rbracket "]"
    else if c = ',' then one .comma ","
    else if c = '.' then one .dot "."
    else if c = '?' then one .question "?"
    else if c = ':' then one .colon ":"
    else if c = '+' then one .plus "+"
    else if c = '-' then one .minus "-"
    else if c = '*' then one .multiply "*"
    else if c = '/' then one .divide "/"
    else if c = '%' then one .modulo "%"
    else if c = '^' then one .power "^"
    else if c = '=' then
      match rest with
      | '=' :: rest2 => two .eq "==" '=' rest2
      | _ => .error (.syntaxError "Unexpected character '='" startPos startLine startCol)
    else if c = '!' then
      match rest with
      | '=' :: rest2 => two .neq "!=" '=' rest2
      | _ => one .not "!"
    else if c = '<' then
      match rest with
      | '=' :: rest2 => two .lte "<=" '=' rest2
      | _ => one .lt "<"
    else if c = '>' then
      match rest with
      | '=' :: rest2 => two .gte ">=" '=' rest2
      | _ => one .gt ">"
    else if c = '&' then
      match rest with
      | '&' :: rest2 => two .and "&&" '&' rest2
      | _ => .error (.syntaxError "Unexpected character '&'" startPos startLine startCol)
    else if c = '|' then
      match rest with
      | '|' :: rest2 => two .or "||" '|' rest2
      | _ => .error (.syntaxError "Unexpected character '|'" startPos startLine startCol)
    else if c = '$' then
      let nameChars := rest.takeWhile isAlphaNumeric
      let rest2 := rest.dropWhile isAlphaNumeric
      let st2 := advMany nameChars st1
      if nameChars.isEmpty then
        .error (.syntaxError "Expected variable name after $" st2.1 st2.2.1 st2.2.2)
      else .ok (⟨.variable, .vstr (String.mk nameChars), st2.1, st2.2.1, st2.2.2⟩, rest2, st2)
    else if c = '@' then
      let nameChars := rest.takeWhile isAlphaNumeric
      let rest2 := rest.dropWhile isAlphaNumeric
      let st2 := advMany nameChars st1
      if nameChars.isEmpty then
        .error (.syntaxError "Expected variable name after @" st2.1 st2.2.1 st2.2.2)
      else .ok (⟨.contextVar, .vstr (String.mk nameChars), st2.1, st2.2.1, st2.2.2⟩, rest2, st2)
    else if c = '"' ∨ c = '\'' then
      match scanStringGo c startPos rest st1 [] with
      | .error e => .error e
      | .ok (value, rest2, st2) =>
        .ok (⟨.string, .vstr value, st2.1, st2.2.1, st2.2.2⟩, rest2, st2)
    else if isDigit c then scanNumber c startPos rest st1
    else if isAlpha c then .ok (scanIdentifier c rest st1)
    else
      .error (.syntaxError ("Unexpected character '" ++ String.mk [c] ++ "'")
        startPos startLine startCol)

/-- Main loop of `Lexer.tokenize`: skip whitespace, scan a token, repeat;
finally append EOF.  Fuel bounds the iteration count (each round consumes at
least one character, so `input.length + 1` is always enough). -/
def tokenizeGo : Nat → List Char → Nat × Nat × Nat → List Tok → Except Err (List Tok)
  | 0, _, _, _ => .error .fuelExhausted
  | _ + 1, [], st, acc =>
    .ok (acc.reverse ++ [⟨.eof, .vnull, st.1, st.2.1, st.2.2⟩])
  | fuel + 1, cs, st, acc =>
    let ws := cs.takeWhile (fun c => c = ' ' ∨ c = '\t' ∨ c = '\r' ∨ c = '\n')
    let cs2 := cs.dropWhile (fun c => c = ' ' ∨ c = '\t' ∨ c = '\r' ∨ c = '\n')
    let st2 := advMany ws st
    match cs2 with
    | [] => .ok (acc.reverse ++ [⟨.eof, .vnull, st2.1, st2.2.1, st2.2.2⟩])
    | cs2 =>
      match scanToken cs2 st2 with
      | .error e => .error e
      | .ok (tok, rest, st3) => tokenizeGo fuel rest st3 (tok :: acc)

/-- The lexer entry point (`Lexer.tokenize`). -/
def tokenize (input : String) : Except Err (List Tok) :=
  tokenizeGo (input.length + 1) input.toList (0, 1, 1) []

end Lexer

/-! ## AST (src/types.ts) -/

inductive AST
  | decimalLit (value raw : String)
  | numberLit (value : Dec)
  | stringLit (value : String)
  | boolLit (value : Bool)
  | nullLit
  | arrayLit (elements : List AST)
  | varRef (pfx : Char) (name : String)
  | binOp (operator : String) (left right : AST)
  | unOp (operator : String) (operand : AST)
  | condExpr (condition consequent alternate : AST)
  | funcCall (name : String) (args : List AST)
  | memberAccess (object : AST) (property : String)
  | indexAccess (object : AST) (index : AST)
  deriving Repr, Inhabited

/-! ## Parser (Pratt parser of the Parser class) -/

namespace Parser

/-- Operator precedence levels (the `PRECEDENCE` table). -/
def LOWEST : Nat := 1
def TERNARY : Nat := 2
def OR : Nat := 3
def AND : Nat := 4
def EQUALITY : Nat := 5
def COMPARISON : Nat := 6
def TERM : Nat := 7
def FACTOR : Nat := 8
def POWER : Nat := 9
def UNARY : Nat := 10
def MEMBER : Nat := 12

/-- Precedence of an infix token (`Parser.getTokenPrecedence`). -/
def getTokenPrecedence : TokType → Nat
  | .or => OR
  | .and => AND
  | .eq | .neq => EQUALITY
  | .lt | .gt | .lte | .gte => COMPARISON
  | .plus | .minus => TERM
  | .multiply | .divide | .modulo => FACTOR
  | .power => POWER
  | .dot | .lbracket => MEMBER
  | .question => TERNARY
  | _ => LOWEST

/-- Operator spelling (`Parser.getOperatorSymbol`). -/
def getOperatorSymbol : TokType → String
  | .plus => "+"
  | .minus => "-"
  | .multiply => "*"
  | .divide => "/"
  | .modulo => "%"
  | .power => "^"
  | .eq => "=="
  | .neq => "!="
  | .lt => "<"
  | .gt => ">"
  | .lte => "<="
  | .gte => ">="
  | .and => "&&"
  | .or => "||"
  | .not => "!"
  | _ => ""

/-- JavaScript `String(token.value)` on a token payload. -/
def TokVal.display : TokVal → String
  | .vstr s => s
  | .vfloat d => Dec.decToString d
  | .vbool b => if b then "true" else "false"
  | .vnull => "null"

/-- Fallback token for out-of-range reads; the token array always ends with
EOF, so in-source reads never go past it. -/
def eofTok : Tok := ⟨.eof, .vnull, 0, 0, 0⟩

/-- The token at the cursor (`Parser.peek`). -/
def peek (toks : List Tok) (cur : Nat) : Tok := toks.getD cur eofTok

def isAtEnd (toks : List Tok) (cur : Nat) : Bool := (peek toks cur).type == .eof

/-- Cursor after `Parser.advance` (which does not move past EOF). -/
def advCur (toks : List Tok) (cur : Nat) : Nat := if isAtEnd toks cur then cur else cur + 1

/-- Token expectation (`Parser.expect`). -/
def expect (toks : List Tok) (t : TokType) (expected : String) (cur : Nat) : Except Err Nat :=
  if (peek toks cur).type == t then .ok (advCur toks cur)
  else .error (.unexpectedToken (TokVal.display (peek toks cur).value) [expected]
    (peek toks cur).position)

/-- Parse request: one constructor per recursive method of the Parser class
(`parseExpression`, its while loop, `parsePrefixExpression`,
`parseInfixExpression`, the `do/while` argument-or-element loop,
`parseFunctionCall` after its name, `parseMemberAccess`, and
`parseIndexAccess`).  The methods are mutually recursive; they are merged
into the single fuel-indexed `parseGo` (one branch per method) so that the
definition is structurally recursive on the fuel and therefore computable
by the kernel. -/
inductive PReq
  | expr (prec : Nat)
  | infixLoop (prec : Nat) (left : AST)
  | prefixE
  | infixE (left : AST)
  | listLoop
  | fnCall (name : String)
  | memberA (left : AST)
  | indexA (left : AST)

/-- Parse result: an expression node or an argument list, with the cursor
after it. -/
inductive PRes
  | one (a : AST) (cur : Nat)
  | many (args : List AST) (cur : Nat)

/-- Projection to an expression result.  Expression requests never produce
the list alternative; the error is a fuel-style artefact of the merge. -/
def PRes.asOne : PRes → Except Err (AST × Nat)
  | .one a cur => .ok (a, cur)
  | .many _ _ => .error .fuelExhausted

/-- Projection to a list result (same remark as `PRes.asOne`). -/
def PRes.asMany : PRes → Except Err (List AST × Nat)
  | .many args cur => .ok (args, cur)
  | .one _ _ => .error .fuelExhausted

def parseGo (toks : List Tok) : Nat → PReq → Nat → Except Err PRes
  | 0, _, _ => .error .fuelExhausted
  -- `Parser.parseExpression`
  | fuel + 1, .expr prec, cur => do
    let (left, cur) ← (← parseGo toks fuel .prefixE cur).asOne
    parseGo toks fuel (.infixLoop prec left) cur
  -- the `while` loop inside `parseExpression`
  | fuel + 1, .infixLoop prec left, cur =>
    if ¬ isAtEnd toks cur ∧ prec < getTokenPrecedence (peek toks cur).type then do
      let (left, cur) ← (← parseGo toks fuel (.infixE left) cur).asOne
      parseGo toks fuel (.infixLoop prec left) cur
    else .ok (.one left cur)
  -- `Parser.parsePrefixExpression`
  | fuel + 1, .prefixE, cur =>
    let token := peek toks cur
    match token.type with
    | .number =>
      match token.value with
      | .vfloat v => .ok (.one (.numberLit v) (advCur toks cur))
      | v => .ok (.one (.decimalLit (TokVal.display v) (TokVal.display v)) (advCur toks cur))
    | .string => .ok (.one (.stringLit (TokVal.display token.value)) (advCur toks cur))
    | .boolean => .ok (.one (.boolLit (token.value == .vbool true)) (advCur toks cur))
    | .null => .ok (.one .nullLit (advCur toks cur))
    | .variable => .ok (.one (.varRef '$' (TokVal.display token.value)) (advCur toks cur))
    | .contextVar => .ok (.one (.varRef '@' (TokVal.display token.value)) (advCur toks cur))
    | .identifier =>
      let cur := advCur toks cur
      let name := TokVal.display token.value
      if (peek toks cur).type == .lparen then parseGo toks fuel (.fnCall name) cur
      else
        let upperName := name.toUpper
        if upperName = "AND" ∨ upperName = "OR" then
          .error (.syntaxError ("'" ++ name ++ "' cannot be used as an identifier")
            token.position token.line token.column)
        else
          .error (.syntaxError
            ("Unknown identifier '" ++ name ++ "'. Variables must be prefixed with $ or @")
            token.position token.line token.column)
    | .lparen => do
      let cur := advCur toks cur
      let (expr, cur) ← (← parseGo toks fuel (.expr LOWEST) cur).asOne
      let cur ← expect toks .rparen ")" cur
      .ok (.one expr cur)
    | .lbracket => do
      let cur := advCur toks cur
      if (peek toks cur).type == .rbracket then do
        let cur ← expect toks .rbracket "]" cur
        .ok (.one (.arrayLit []) cur)
      else do
        let (elements, cur) ← (← parseGo toks fuel .listLoop cur).asMany
        let cur ← expect toks .rbracket "]" cur
        .ok (.one (.arrayLit elements) cur)
    | .minus => do
      let cur := advCur toks cur
      let (operand, cur) ← (← parseGo toks fuel (.expr UNARY) cur).asOne
      .ok (.one (.unOp (getOperatorSymbol .minus) operand) cur)
    | .not => do
      let cur := advCur toks cur
      let (operand, cur) ← (← parseGo toks fuel (.expr UNARY) cur).asOne
      .ok (.one (.unOp (getOperatorSymbol .not) operand) cur)
    | _ =>
      .error (.unexpectedToken (TokVal.display token.value)
        ["number", "string", "boolean", "null", "variable", "identifier", "(", "[", "-", "!"]
        token.position)
  -- `Parser.parseInfixExpression`
  | fuel + 1, .infixE left, cur =>
    let token := peek toks cur
    match token.type with
    | .plus | .minus | .multiply | .divide | .modulo | .power
    | .eq | .neq | .lt | .gt | .lte | .gte | .and | .or => do
      let cur := advCur toks cur
      let op := getOperatorSymbol token.type
      let prec := getTokenPrecedence token.type
      let nextPrec := if token.type == .power then prec - 1 else prec
      let (right, cur) ← (← parseGo toks fuel (.expr nextPrec) cur).asOne
      .ok (.one (.binOp op left right) cur)
    | .question => do
      let cur := advCur toks cur
      let (consequent, cur) ← (← parseGo toks fuel (.expr LOWEST) cur).asOne
      let cur ← expect toks .colon ":" cur
      let (alternate, cur) ← (← parseGo toks fuel (.expr (TERNARY - 1)) cur).asOne
      .ok (.one (.condExpr left consequent alternate) cur)
    | .dot => parseGo toks fuel (.memberA left) cur
    | .lbracket => parseGo toks fuel (.indexA left) cur
    | _ => .ok (.one left cur)
  -- the `do … while (peek == COMMA)` loops of `parseFunctionCall` and
  -- `parseArrayLiteral` (the loop body also skips a leading comma)
  | fuel + 1, .listLoop, cur => do
    let cur := if (peek toks cur).type == .comma then advCur toks cur else cur
    let (arg, cur) ← (← parseGo toks fuel (.expr LOWEST) cur).asOne
    if (peek toks cur).type == .comma then do
      let (args, cur) ← (← parseGo toks fuel .listLoop cur).asMany
      .ok (.many (arg :: args) cur)
    else .ok (.many [arg] cur)
  -- `Parser.parseFunctionCall` (the name has been consumed); the call name
  -- is upper-cased
  | fuel + 1, .fnCall name, cur => do
    let cur := advCur toks cur
    if (peek toks cur).type == .rparen then do
      let cur ← expect toks .rparen ")" cur
      .ok (.one (.funcCall name.toUpper []) cur)
    else do
      let (args, cur) ← (← parseGo toks fuel .listLoop cur).asMany
      let cur ← expect toks .rparen ")" cur
      .ok (.one (.funcCall name.toUpper args) cur)
  -- `Parser.parseMemberAccess`, with chaining
  | fuel + 1, .memberA object, cur =>
    let cur := advCur toks cur
    let token := peek toks cur
    if token.type == .identifier ∨ token.type == .variable then
      let cur := advCur toks cur
      let node := AST.memberAccess object (TokVal.display token.value)
      if (peek toks cur).type == .dot then parseGo toks fuel (.memberA node) cur
      else if (peek toks cur).type == .lbracket then parseGo toks fuel (.indexA node) cur
      else .ok (.one node cur)
    else .error (.unexpectedToken (TokVal.display token.value) ["identifier"] token.position)
  -- `Parser.parseIndexAccess`, with chaining
  | fuel + 1, .indexA object, cur => do
    let cur := advCur toks cur
    let (index, cur) ← (← parseGo toks fuel (.expr LOWEST) cur).asOne
    let cur ← expect toks .rbracket "]" cur
    let node := AST.indexAccess object index
    if (peek toks cur).type == .dot then parseGo toks fuel (.memberA node) cur
    else if (peek toks cur).type == .lbracket then parseGo toks fuel (.indexA node) cur
    else .ok (.one node cur)

/-- Parser entry point (`Parser.parse`): tokenize, parse one expression at
lowest precedence, and reject surplus tokens. -/
def parse (expression : String) : Except Err AST := do
  let toks ← Lexer.tokenize expression
  let fuel := 8 * (toks.length + 1)
  let (ast, cur) ← (← parseGo toks fuel (.expr LOWEST) 0).asOne
  if ¬ isAtEnd toks cur then
    .error (.unexpectedToken (TokVal.display (peek toks cur).value) ["end of expression"]
      (peek toks cur).position)
  else
    .ok ast

end Parser

/-! ## Runtime values

The source is untyped JavaScript; `Value` is the tagged variant of the
values evaluation produces and contexts contain: Decimal instances, native
numbers, strings, booleans, `null`, `undefined`, arrays and plain objects.
A native JavaScript number is carried as its exact decimal value (every
IEEE-754 double is a finite decimal); the binary rounding of float
arithmetic is not modelled — no claim performs float arithmetic. -/

inductive Value
  | dec (d : Dec)
  | num (d : Dec)
  | str (s : String)
  | bool (b : Bool)
  | null
  | undef
  | arr (elements : List Value)
  | obj (fields : List (String × Value))
  deriving Repr, Inhabited

namespace Value

/-- JavaScript string object keys are unique and insertion-ordered; lookup
of the first (only) binding. -/
def getKey (fields : List (String × Value)) (k : String) : Option Value :=
  match fields.find? (fun p => p.1 == k) with
  | some p => some p.2
  | none => none

/-- JavaScript object key assignment: an existing key keeps its position,
a new key is appended. -/
def setKey (fields : List (String × Value)) (k : String) (v : Value) :
    List (String × Value) :=
  if (fields.find? (fun p => p.1 == k)).isSome then
    fields.map (fun p => if p.1 == k then (p.1, v) else p)
  else fields ++ [(k, v)]

def hasKey (fields : List (String × Value)) (k : String) : Bool :=
  (fields.find? (fun p => p.1 == k)).isSome

/-- Dominating fuel for the fuel-indexed traversals of values and ASTs: it
exceeds the nesting depth of any value a JavaScript program can build, so
the zero-fuel alternatives of those traversals are unreachable. -/
def bigFuel : Nat := 2 ^ 64

/-- JavaScript `String(value)`, fuel-indexed so the recursion through array
elements is structural (fuel bounds the nesting depth; `jsDisplay` supplies
`bigFuel`, which dominates it).  Arrays display as comma-joined elements and
plain objects as "[object Object]". -/
def jsDisplayF : Nat → Value → String
  | _, .str s => s
  | _, .dec d => Dec.decToString d
  | _, .num d => Dec.decToString d
  | _, .bool b => if b then "true" else "false"
  | _, .null => "null"
  | _, .undef => "undefined"
  | fuel + 1, .arr xs => String.intercalate "," (xs.map (jsDisplayF fuel))
  | 0, .arr _ => ""
  | _, .obj _ => "[object Object]"

/-- JavaScript `String(value)`. -/
def jsDisplay (v : Value) : String := jsDisplayF bigFuel v

/-- JavaScript strict equality on the values the evaluator compares with
`===` (primitives by value; arrays and objects by reference identity, which
distinct instances never satisfy — no claim compares a value with itself by
reference). -/
def jsStrictEq : Value → Value → Bool
  | .str a, .str b => a == b
  | .bool a, .bool b => a == b
  | .null, .null => true
  | .undef, .undef => true
  | .num a, .num b => a.eqv b
  | _, _ => false

end Value

/-! ## Configuration (src/types.ts) -/

/-- Rounding modes of `RoundingConfig` in src/types.ts. -/
inductive RoundMode
  | halfUp | halfDown | floor | ceil | rnone
  deriving DecidableEq, Repr

/-- `RoundingConfig`. -/
structure RoundingCfg where
  mode : RoundMode
  precision : Nat
  deriving Repr

/-- `DecimalRoundingMode` (the eight-mode enum of src/types.ts). -/
inductive DRMode
  | ceil | floor | down | up | halfUp | halfDown | halfEven | halfOdd
  deriving DecidableEq, Repr

/-- `ROUNDING_MODE_MAP` of src/decimal-utils.ts: HALF_ODD is mapped to
decimal.js ROUND_HALF_CEIL because the library lacks HALF_ODD. -/
def mapDRMode : DRMode → Dec.RMode
  | .ceil => .ceil
  | .floor => .floor
  | .down => .down
  | .up => .up
  | .halfUp => .halfUp
  | .halfDown => .halfDown
  | .halfEven => .halfEven
  | .halfOdd => .halfCeil

/-- `DecimalConfig`. -/
structure DecimalCfg where
  precision : Option Nat := none
  roundingMode : Option DRMode := none
  divisionScale : Option Nat := none
  preserveTrailingZeros : Option Bool := none
  autoConvertFloats : Option Bool := none
  maxExponent : Option Int := none
  minExponent : Option Int := none
  deriving Repr

/-- `SecurityConfig` (allowed/blocked function lists are unused by the
engine code and omitted). -/
structure SecurityCfg where
  maxExpressionLength : Option Nat := none
  maxRecursionDepth : Option Nat := none
  maxIterations : Option Nat := none
  maxExecutionTime : Option Nat := none
  deriving Repr

/-- `ErrorBehavior.type`. -/
inductive EbType
  | throwE | nullE | zeroE | defaultE | skipE
  deriving DecidableEq, Repr

structure ErrorBehavior where
  type : EbType
  defaultValue : Option Value := none
  deriving Repr

/-- `FormulaDefinition` (metadata is unused by the engine and omitted). -/
structure Formula where
  id : String
  expression : String
  dependencies : Option (List String) := none
  onError : Option ErrorBehavior := none
  defaultValue : Option Value := none
  rounding : Option RoundingCfg := none
  deriving Repr

/-- `FormulaEngineConfig` (custom operators and functions as well as
`defaultErrorBehavior` are never read by the engine code under src/ and are
omitted). -/
structure EngineCfg where
  enableCache : Option Bool := none
  maxCacheSize : Option Nat := none
  strictMode : Option Bool := none
  defaultRounding : Option RoundingCfg := none
  decimal : Option DecimalCfg := none
  security : Option SecurityCfg := none
  deriving Repr

/-- `EvaluationContext`: the `variables` map (called `vars` here because
`variables` is a Lean keyword) and the `extra` map (`collections` is unused
by the evaluator and omitted). -/
structure EvalCtx where
  vars : List (String × Value)
  extra : List (String × Value) := []
  deriving Repr

/-! ## DecimalUtils (src/decimal-utils.ts) -/

/-- The configured part of `DecimalUtils` that its operations read:
division scale and default rounding mode (defaults 10 and HALF_UP). -/
structure DecUtils where
  divisionScale : Nat
  roundingMode : Dec.RMode
  deriving Repr

def mkDecUtils (cfg : Option DecimalCfg) : DecUtils :=
  { divisionScale := (cfg.bind (·.divisionScale)).getD 10
    roundingMode := mapDRMode ((cfg.bind (·.roundingMode)).getD .halfUp) }

namespace DecUtils

/-- `DecimalUtils.from` on a string (`new Decimal(text)`; invalid text raises
`InvalidDecimalError`). -/
def fromString (text : String) : Except Err Dec :=
  match Dec.ofString text with
  | some d => .ok d
  | none => .error (.invalidDecimal text)

/-- `DecimalUtils.divide` without an explicit scale: quotient rounded to
`divisionScale` places with the configured rounding mode. -/
def divide (u : DecUtils) (a b : Dec) : Except Err Dec :=
  if b.isZero then .error .decimalDivisionByZero
  else .ok (Dec.div a b u.divisionScale u.roundingMode)

/-- `DecimalUtils.round`: `toDecimalPlaces` with an explicit mode, or the
configured default. -/
def round (u : DecUtils) (value : Dec) (scale : Nat) (mode : Option Dec.RMode) : Dec :=
  value.toDecimalPlaces scale (mode.getD u.roundingMode)

/-- `Decimal.pow` with a native-number exponent.  The §6.3 contract requires
integer powers; a nonnegative integer exponent is exact, a negative integer
is division rounded at 20 places, and fractional exponents (which no engine
path produces from claim inputs) are not modelled. -/
def power (b : Dec) (e : Dec) : Except Err Dec :=
  let denom : Int := (10 : Int) ^ e.s
  if e.m % denom = 0 then
    let k : Int := e.m / denom
    if k ≥ 0 then .ok ⟨b.m ^ k.toNat, b.s * k.toNat⟩
    else .ok (Dec.div ⟨1, 0⟩ ⟨b.m ^ k.natAbs, b.s * k.natAbs⟩ 20 .halfUp)
  else .error (.jsError "non-integer exponent")

end DecUtils

/-! ## Built-in function library (src/functions.ts)

Only the library members that a claim can reach are ported: SUM, FILTER and
MAP (whose map entries carry the arities the evaluator checks before it
special-cases them) and LOOKUP.  No claim's expression calls any other
built-in, and an uncalled entry is observable only through its name. -/

structure FuncDef where
  name : String
  minArgs : Nat
  maxArgs : Int
  impl : List Value → Except Err Value

/-- JavaScript `typeof value` (note `typeof null` is "object" and a Decimal
instance is an "object"). -/
def jsTypeof : Value → String
  | .dec _ => "object"
  | .num _ => "number"
  | .str _ => "string"
  | .bool _ => "boolean"
  | .null => "object"
  | .undef => "undefined"
  | .arr _ => "object"
  | .obj _ => "object"

/-- Helper `toDecimal` of src/functions.ts. -/
def fnToDecimal (v : Value) : Except Err Dec :=
  match v with
  | .dec d => .ok d
  | .num d => .ok d
  | .str s => DecUtils.fromString s
  | v => .error (.typeMismatch "number" (jsTypeof v) "numeric conversion")

/-- SUM's eager implementation (the one-argument form; the two-argument form
is intercepted by the evaluator before this runs). -/
def sumImpl (args : List Value) : Except Err Value := do
  match args with
  | arrV :: restArgs =>
    match arrV with
    | .arr xs =>
      if restArgs.isEmpty then do
        let ds ← xs.mapM fnToDecimal
        .ok (.dec (ds.foldl Dec.add ⟨0, 0⟩))
      else .error (.jsError "SUM with expression must be handled by evaluator")
    | v => .error (.typeMismatch "array" (jsTypeof v) "SUM")
  | _ => .error (.jsError "SUM: missing argument")

def filterImpl (_ : List Value) : Except Err Value :=
  .error (.jsError "FILTER must be handled by evaluator")

def mapImpl (_ : List Value) : Except Err Value :=
  .error (.jsError "MAP must be handled by evaluator")

/-- Row matching of LOOKUP: every criteria key must equal the row's field,
comparing Decimal-Decimal and Decimal-number numerically and
Decimal-string by canonical text, everything else with `===`. -/
def lookupPairEq (rowVal criterion : Value) : Bool :=
  match rowVal, criterion with
  | .dec a, .dec b => a.eqv b
  | .dec a, .num b => a.eqv b
  | .dec a, .str s => Dec.decToString a == s
  | .dec _, _ => false
  | .num a, .dec b => b.eqv a
  | .str s, .dec b => Dec.decToString b == s
  | _, .dec _ => false
  | a, b => Value.jsStrictEq a b

/-- A JavaScript array's own property at a string key is an element exactly
when the key is the canonical decimal form of an in-range index. -/
def arrKeyIndex (k : String) : Option Nat :=
  match k.toNat? with
  | some i => if Nat.repr i = k then some i else none
  | none => none

/-- The read `rowObj[key]` that LOOKUP performs on a row that passed its
object guard.  Plain objects read their field; arrays expose `length` and
their elements at canonical index keys; on a Decimal instance the §6.3
contract exposes operations only, so reads of the library's internal
instance slots are outside the modelled value domain and yield Undefined
(no claim depends on them).  Other shapes never pass the guard. -/
def rowGet (row : Value) (key : String) : Value :=
  match row with
  | .obj fields => (Value.getKey fields key).getD .undef
  | .arr xs =>
    if key = "length" then .num ⟨xs.length, 0⟩
    else match arrKeyIndex key with
      | some i => if i < xs.length then xs.getD i .undef else .undef
      | none => .undef
  | _ => .undef

def rowMatches (criteria : List (String × Value)) (row : Value) : Bool :=
  criteria.all (fun p => lookupPairEq (rowGet row p.1) p.2)

/-- The row guard of LOOKUP's scan: `typeof row === 'object' && row !== null`
(plain objects, arrays and Decimal instances all pass). -/
def isRowObject (row : Value) : Bool :=
  jsTypeof row == "object" && !(row matches .null)

/-- The scan loop of LOOKUP: rows failing the object guard are skipped; the
first matching row wins and its `returnField` read (or the number 0 when
that read is undefined) is returned; no match yields the number 0. -/
def lookupScan (criteria : List (String × Value)) (returnField : String) :
    List Value → Value
  | [] => .num ⟨0, 0⟩
  | row :: rest =>
    if isRowObject row then
      if rowMatches criteria row then
        match rowGet row returnField with
        | .undef => .num ⟨0, 0⟩
        | v => v
      else lookupScan criteria returnField rest
    else lookupScan criteria returnField rest

/-- LOOKUP (src/functions.ts): multi-criteria exact-match lookup over an
array of objects.  A `null` table and a missed lookup return the plain
number 0. -/
def lookupImpl (args : List Value) : Except Err Value :=
  match args with
  | [table, criteria, returnField] =>
    match table with
    | .null | .undef => .ok (.num ⟨0, 0⟩)
    | .arr rows =>
      match criteria with
      | .obj cfields =>
        match returnField with
        | .str rf => .ok (lookupScan cfields rf rows)
        | v => .error (.typeMismatch "string" (jsTypeof v) "LOOKUP returnField")
      | .arr _ => .error (.typeMismatch "object" "object" "LOOKUP criteria")
      | .null => .error (.typeMismatch "object" "object" "LOOKUP criteria")
      | v => .error (.typeMismatch "object" (jsTypeof v) "LOOKUP criteria")
    | table => .error (.typeMismatch "array" (jsTypeof table) "LOOKUP")
  | _ => .error (.jsError "LOOKUP: wrong arity")

/-- The portion of `createBuiltInFunctions` that claims can reach. -/
def builtinFunctions : List (String × FuncDef) :=
  [ ("SUM", ⟨"SUM", 1, 2, sumImpl⟩)
  , ("FILTER", ⟨"FILTER", 2, 2, filterImpl⟩)
  , ("MAP", ⟨"MAP", 2, 2, mapImpl⟩)
  , ("LOOKUP", ⟨"LOOKUP", 3, 3, lookupImpl⟩) ]

/-! ## Evaluator (src/evaluator.ts)

The evaluator's per-call mutable frame (`recursionDepth`, `iterationCount`,
`accessedVariables`) is threaded explicitly.  Recursion in `evaluateNode`
is modelled with fuel counting JavaScript call-stack depth; because
`checkRecursionLimit` increments a cumulative counter and aborts beyond
`maxRecursionDepth`, nesting never exceeds `maxRecursionDepth + 1`, so the
fuel chosen by `Evaluator.evaluate` can never run out. -/

structure EvalSt where
  recursionDepth : Nat := 0
  iterationCount : Nat := 0
  accessed : List String := []
  deriving Repr

structure Evaluator where
  decu : DecUtils
  functions : List (String × FuncDef)
  strictMode : Bool
  securityConfig : SecurityCfg

/-- The `Evaluator` constructor: `strictMode` defaults to true and the
security config to empty. -/
def Evaluator.ofConfig (functions : List (String × FuncDef)) (cfg : EngineCfg) : Evaluator :=
  { decu := mkDecUtils cfg.decimal
    functions := functions
    strictMode := cfg.strictMode.getD true
    securityConfig := cfg.security.getD {} }

/-- `Evaluator.checkRecursionLimit`: increment the cumulative dispatch
counter, fail past the limit (default 100). -/
def checkRecursionLimit (E : Evaluator) (st : EvalSt) : Except Err EvalSt :=
  let d := st.recursionDepth + 1
  let limit := E.securityConfig.maxRecursionDepth.getD 100
  if d > limit then .error (.maxRecursion limit)
  else .ok { st with recursionDepth := d }

/-- `Evaluator.checkIterationLimit` (default 10000). -/
def checkIterationLimit (E : Evaluator) (st : EvalSt) : Except Err EvalSt :=
  let i := st.iterationCount + 1
  let limit := E.securityConfig.maxIterations.getD 10000
  if i > limit then .error (.maxIterations limit)
  else .ok { st with iterationCount := i }

/-- `accessedVariables` is a JavaScript Set: insertion-ordered, no
duplicates. -/
def addAccess (st : EvalSt) (name : String) : EvalSt :=
  if name ∈ st.accessed then st else { st with accessed := st.accessed ++ [name] }

/-- `Evaluator.typeOf`. -/
def evTypeOf : Value → String
  | .null => "null"
  | .dec _ => "decimal"
  | .arr _ => "array"
  | v => jsTypeof v

/-- `Evaluator.toBool` (truthiness). -/
def toBool : Value → Bool
  | .dec d => ¬ d.isZero
  | .bool b => b
  | .null => false
  | .undef => false
  | .num d => ¬ d.isZero
  | .str s => s.length > 0
  | .arr xs => ¬ xs.isEmpty
  | _ => true

/-- `Evaluator.isNumeric`. -/
def isNumericV : Value → Bool
  | .dec _ => true
  | .num _ => true
  | _ => false

/-- `Evaluator.toDecimal`. -/
def evToDecimal : Value → Except Err Dec
  | .dec d => .ok d
  | .num d => .ok d
  | .str s => DecUtils.fromString s
  | v => .error (.invalidOperation "toDecimal" [evTypeOf v])

/-- `Evaluator.toNumber`; `parseFloat` of a non-numeric string gives NaN,
whose propagation is not modelled (no claim reaches it). -/
def evToNumber : Value → Except Err Dec
  | .dec d => .ok d
  | .num d => .ok d
  | .str s =>
    match Lexer.parseFloatText s with
    | some d => .ok d
    | none => .error (.jsError "NaN")
  | v => .error (.invalidOperation "toNumber" [evTypeOf v])

/-- `Evaluator.maybeConvertToDecimal`: native numbers become Decimal. -/
def maybeConvertToDecimal : Value → Value
  | .num d => .dec d
  | v => v

/-- `Evaluator.add`: string concatenation when either side is a string,
otherwise Decimal addition. -/
def addV (left right : Value) : Except Err Value :=
  if (left matches .str _) ∨ (right matches .str _) then
    .ok (.str (Value.jsDisplay left ++ Value.jsDisplay right))
  else if isNumericV left ∧ isNumericV right then do
    let a ← evToDecimal left
    let b ← evToDecimal right
    .ok (.dec (Dec.add a b))
  else .error (.invalidOperation "+" [evTypeOf left, evTypeOf right])

def subtractV (left right : Value) : Except Err Value :=
  if ¬ (isNumericV left ∧ isNumericV right) then
    .error (.invalidOperation "-" [evTypeOf left, evTypeOf right])
  else do
    let a ← evToDecimal left
    let b ← evToDecimal right
    .ok (.dec (Dec.sub a b))

def multiplyV (left right : Value) : Except Err Value :=
  if ¬ (isNumericV left ∧ isNumericV right) then
    .error (.invalidOperation "*" [evTypeOf left, evTypeOf right])
  else do
    let a ← evToDecimal left
    let b ← evToDecimal right
    .ok (.dec (Dec.mul a b))

def divideV (E : Evaluator) (left right : Value) : Except Err Value :=
  if ¬ (isNumericV left ∧ isNumericV right) then
    .error (.invalidOperation "/" [evTypeOf left, evTypeOf right])
  else do
    let divisor ← evToDecimal right
    if divisor.isZero then .error .divisionByZero
    else do
      let a ← evToDecimal left
      let q ← E.decu.divide a divisor
      .ok (.dec q)

def moduloV (left right : Value) : Except Err Value :=
  if ¬ (isNumericV left ∧ isNumericV right) then
    .error (.invalidOperation "%" [evTypeOf left, evTypeOf right])
  else do
    let divisor ← evToDecimal right
    if divisor.isZero then .error .divisionByZero
    else do
      let a ← evToDecimal left
      .ok (.dec (Dec.mod a divisor))

def powerV (left right : Value) : Except Err Value :=
  if ¬ (isNumericV left ∧ isNumericV right) then
    .error (.invalidOperation "^" [evTypeOf left, evTypeOf right])
  else do
    let a ← evToDecimal left
    let e ← evToNumber right
    let r ← DecUtils.power a e
    .ok (.dec r)

def negateV (v : Value) : Except Err Value :=
  if ¬ isNumericV v then .error (.invalidOperation "-" [evTypeOf v])
  else do
    let a ← evToDecimal v
    .ok (.dec (Dec.neg a))

/-- `Evaluator.equals`: Decimal-Decimal and Decimal-number numerically,
everything else by `===`. -/
def equalsV : Value → Value → Bool
  | .dec a, .dec b => a.eqv b
  | .dec a, .num b => a.eqv b
  | .num a, .dec b => a.eqv b
  | a, b => Value.jsStrictEq a b

def lessThanV (left right : Value) : Except Err Value :=
  if isNumericV left ∧ isNumericV right then do
    let a ← evToDecimal left
    let b ← evToDecimal right
    .ok (.bool (Dec.lt a b))
  else
    match left, right with
    | .str a, .str b => .ok (.bool (a < b))
    | _, _ => .error (.invalidOperation "<" [evTypeOf left, evTypeOf right])

def greaterThanV (left right : Value) : Except Err Value :=
  if isNumericV left ∧ isNumericV right then do
    let a ← evToDecimal left
    let b ← evToDecimal right
    .ok (.bool (Dec.lt b a))
  else
    match left, right with
    | .str a, .str b => .ok (.bool (b < a))
    | _, _ => .error (.invalidOperation ">" [evTypeOf left, evTypeOf right])

def lessThanOrEqualV (left right : Value) : Except Err Value :=
  if isNumericV left ∧ isNumericV right then do
    let a ← evToDecimal left
    let b ← evToDecimal right
    .ok (.bool (Dec.le a b))
  else
    match left, right with
    | .str a, .str b => .ok (.bool (a ≤ b))
    | _, _ => .error (.invalidOperation "<=" [evTypeOf left, evTypeOf right])

def greaterThanOrEqualV (left right : Value) : Except Err Value :=
  if isNumericV left ∧ isNumericV right then do
    let a ← evToDecimal left
    let b ← evToDecimal right
    .ok (.bool (Dec.le b a))
  else
    match left, right with
    | .str a, .str b => .ok (.bool (b ≤ a))
    | _, _ => .error (.invalidOperation ">=" [evTypeOf left, evTypeOf right])

/-- Non-short-circuit binary dispatch of
`Evaluator.evaluateBinaryOperation`. -/
def applyBinary (E : Evaluator) (op : String) (left right : Value) : Except Err Value :=
  if op = "+" then addV left right
  else if op = "-" then subtractV left right
  else if op = "*" then multiplyV left right
  else if op = "/" then divideV E left right
  else if op = "%" then moduloV left right
  else if op = "^" then powerV left right
  else if op = "==" then .ok (.bool (equalsV left right))
  else if op = "!=" then .ok (.bool (¬ equalsV left right))
  else if op = "<" then lessThanV left right
  else if op = ">" then greaterThanV left right
  else if op = "<=" then lessThanOrEqualV left right
  else if op = ">=" then greaterThanOrEqualV left right
  else .error (.invalidOperation op [evTypeOf left, evTypeOf right])

/-- `Evaluator.evaluateVariable`: record the access, resolve `$` against
`variables` (with auto-Decimal on native numbers and the special `it`
binding) and `@` against `extra` (as-is). -/
def evaluateVariable (E : Evaluator) (pfx : Char) (name : String) (ctx : EvalCtx)
    (st : EvalSt) : Except Err (Value × EvalSt) :=
  let st := addAccess st name
  if pfx = '$' then
    match Value.getKey ctx.vars name with
    | some v => .ok (maybeConvertToDecimal v, st)
    | none =>
      if name = "it" ∧ Value.hasKey ctx.extra "_currentItem" then
        .ok ((Value.getKey ctx.extra "_currentItem").getD .undef, st)
      else if E.strictMode then .error (.undefinedVariable name "")
      else .ok (.null, st)
  else
    match Value.getKey ctx.extra name with
    | some v => .ok (v, st)
    | none =>
      if E.strictMode then .error (.undefinedVariable ("@" ++ name) "")
      else .ok (.null, st)

/-- Child context of SUM/FILTER/MAP iteration: spread copies with `it` on
`variables` and `_currentItem` on `extra`. -/
def iterCtx (ctx : EvalCtx) (item : Value) : EvalCtx :=
  { vars := Value.setKey ctx.vars "it" item
    extra := Value.setKey ctx.extra "_currentItem" item }

/-- `Evaluator.evaluateNode`: node dispatch.  Every entry runs
`checkRecursionLimit` first.  Fuel counts JavaScript call-stack depth and
decreases exactly at nested `evaluateNode` calls; the iteration loops of
`evaluateSumWithExpression` / `evaluateFilter` / `evaluateMap` and the
left-to-right evaluation of array elements and call arguments are folds at
the current depth, as in the source. -/
def evalNode (E : Evaluator) : Nat → AST → EvalCtx → EvalSt → Except Err (Value × EvalSt)
  | 0, _, _, _ => .error .fuelExhausted
  | fuel + 1, node, ctx, st => do
    let st ← checkRecursionLimit E st
    match node with
    | .decimalLit value _ => do
      let d ← DecUtils.fromString value
      .ok (.dec d, st)
    | .numberLit value => .ok (.num value, st)
    | .stringLit value => .ok (.str value, st)
    | .boolLit value => .ok (.bool value, st)
    | .nullLit => .ok (.null, st)
    | .arrayLit elements => do
      let (vs, st) ← elements.foldlM
        (fun acc el => do
          let (v, st) ← evalNode E fuel el ctx acc.2
          pure (acc.1 ++ [v], st))
        (([] : List Value), st)
      .ok (.arr vs, st)
    | .varRef pfx name => evaluateVariable E pfx name ctx st
    | .binOp op left right =>
      if op = "&&" then do
        let (lv, st) ← evalNode E fuel left ctx st
        if ¬ toBool lv then .ok (.bool false, st)
        else do
          let (rv, st) ← evalNode E fuel right ctx st
          .ok (.bool (toBool rv), st)
      else if op = "||" then do
        let (lv, st) ← evalNode E fuel left ctx st
        if toBool lv then .ok (.bool true, st)
        else do
          let (rv, st) ← evalNode E fuel right ctx st
          .ok (.bool (toBool rv), st)
      else do
        let (lv, st) ← evalNode E fuel left ctx st
        let (rv, st) ← evalNode E fuel right ctx st
        let v ← applyBinary E op lv rv
        .ok (v, st)
    | .unOp op operand => do
      let (v, st) ← evalNode E fuel operand ctx st
      if op = "-" then do
        let r ← negateV v
        .ok (r, st)
      else if op = "!" then .ok (.bool (¬ toBool v), st)
      else .error (.invalidOperation op [evTypeOf v])
    | .condExpr c t e => do
      let (cv, st) ← evalNode E fuel c ctx st
      if toBool cv then evalNode E fuel t ctx st
      else evalNode E fuel e ctx st
    | .funcCall name args => do
      let fnName := name.toUpper
      match E.functions.find? (fun p => p.1 == fnName) with
      | none => .error (.undefinedFunction fnName)
      | some p =>
        let fn := p.2
        if args.length < fn.minArgs then
          .error (.argumentCount fnName fn.minArgs fn.maxArgs args.length)
        else if fn.maxArgs ≠ -1 ∧ (args.length : Int) > fn.maxArgs then
          .error (.argumentCount fnName fn.minArgs fn.maxArgs args.length)
        else if fnName = "SUM" ∧ args.length = 2 then
          -- `Evaluator.evaluateSumWithExpression`
          match args with
          | [arrExpr, expression] => do
            let (arrV, st) ← evalNode E fuel arrExpr ctx st
            match arrV with
            | .arr items => do
              let (sum, st) ← items.foldlM
                (fun acc item => do
                  let st ← checkIterationLimit E acc.2
                  let (v, st) ← evalNode E fuel expression (iterCtx ctx item) st
                  if isNumericV v then do
                    let d ← evToDecimal v
                    pure (Dec.add acc.1 d, st)
                  else pure (acc.1, st))
                ((⟨0, 0⟩ : Dec), st)
              .ok (.dec sum, st)
            | _ => .error (.jsError "SUM first argument must be an array")
          | _ => .error (.jsError "SUM: wrong arity")
        else if fnName = "FILTER" then
          -- `Evaluator.evaluateFilter`
          match args with
          | [arrExpr, condition] => do
            let (arrV, st) ← evalNode E fuel arrExpr ctx st
            match arrV with
            | .arr items => do
              let (kept, st) ← items.foldlM
                (fun acc item => do
                  let st ← checkIterationLimit E acc.2
                  let (keep, st) ← evalNode E fuel condition (iterCtx ctx item) st
                  if toBool keep then pure (acc.1 ++ [item], st)
                  else pure (acc.1, st))
                (([] : List Value), st)
              .ok (.arr kept, st)
            | _ => .error (.jsError "FILTER first argument must be an array")
          | _ => .error (.jsError "FILTER: wrong arity")
        else if fnName = "MAP" then
          -- `Evaluator.evaluateMap`
          match args with
          | [arrExpr, expression] => do
            let (arrV, st) ← evalNode E fuel arrExpr ctx st
            match arrV with
            | .arr items => do
              let (out, st) ← items.foldlM
                (fun acc item => do
                  let st ← checkIterationLimit E acc.2
                  let (v, st) ← evalNode E fuel expression (iterCtx ctx item) st
                  pure (acc.1 ++ [v], st))
                (([] : List Value), st)
              .ok (.arr out, st)
            | _ => .error (.jsError "MAP first argument must be an array")
          | _ => .error (.jsError "MAP: wrong arity")
        else do
          let (argVals, st) ← args.foldlM
            (fun acc arg => do
              let (v, st) ← evalNode E fuel arg ctx acc.2
              pure (acc.1 ++ [v], st))
            (([] : List Value), st)
          let v ← fn.impl argVals
          .ok (v, st)
    | .memberAccess object property => do
      let (ov, st) ← evalNode E fuel object ctx st
      match ov with
      | .null | .undef =>
        if E.strictMode then .error (.propertyAccess property "null")
        else .ok (.null, st)
      | .obj fields =>
        .ok (maybeConvertToDecimal ((Value.getKey fields property).getD .undef), st)
      | .arr xs =>
        -- arrays are "object" to typeof; named properties hit the built-in
        -- length, everything else is undefined
        if property = "length" then .ok (maybeConvertToDecimal (.num ⟨xs.length, 0⟩), st)
        else .ok (.undef, st)
      | .dec _ =>
        -- a Decimal instance is an object with no own data properties
        .ok (.undef, st)
      | v => .error (.propertyAccess property (jsTypeof v))
    | .indexAccess object index => do
      let (ov, st) ← evalNode E fuel object ctx st
      let (iv, st) ← evalNode E fuel index ctx st
      match ov with
      | .null | .undef =>
        if E.strictMode then .error (.indexAccess (Value.jsDisplay iv) "null")
        else .ok (.null, st)
      | .arr xs => do
        let idx ← evToNumber iv
        if Dec.lt idx ⟨0, 0⟩ ∨ Dec.le ⟨xs.length, 0⟩ idx then .ok (.null, st)
        else
          let denom : Int := (10 : Int) ^ idx.s
          if idx.m % denom = 0 then
            .ok (maybeConvertToDecimal (xs.getD (idx.m / denom).toNat .undef), st)
          else .ok (.undef, st)
      | .obj fields =>
        .ok (maybeConvertToDecimal
          ((Value.getKey fields (Value.jsDisplay iv)).getD .undef), st)
      | .dec _ =>
        -- a Decimal instance is a non-array object; keyed reads give undefined
        .ok (.undef, st)
      | v => .error (.indexAccess (Value.jsDisplay iv) (jsTypeof v))

/-- `EvaluationResult` (the wall-clock `executionTimeMs` field is not
modelled). -/
structure EvalResult where
  value : Value
  success : Bool
  error : Option Err := none
  accessedVariables : List String := []
  deriving Repr

/-- `Evaluator.evaluate`: reset the frame, parse, dispatch, and catch every
error into the result envelope.  Fuel `maxRecursionDepth + 2` can never be
exhausted because the cumulative depth counter aborts first.  (On failure
the source reports the variables accessed so far; the embedding reports
an empty set there, and no claim reads the access set of a failed
evaluation.) -/
def Evaluator.evaluate (E : Evaluator) (expression : String) (ctx : EvalCtx) : EvalResult :=
  let st : EvalSt := {}
  let fuel := E.securityConfig.maxRecursionDepth.getD 100 + 2
  match (do
      let ast ← Parser.parse expression
      evalNode E fuel ast ctx st : Except Err (Value × EvalSt)) with
  | .ok (v, st') =>
    { value := v, success := true, accessedVariables := st'.accessed }
  | .error e =>
    { value := .null, success := false, error := some e }


/-! ## Dependency extractor (src/dependency-extractor.ts)

Collects the set (insertion-ordered, duplicate-free) of `$`-variable names;
`@`-variables are skipped, and for member/index access only the root of the
chain is collected while bracket indices are recursed in full.  The source's
ObjectLiteral case is unreachable here because the parser never produces an
object literal (see the C5 analysis). -/

def addDep (deps : List String) (n : String) : List String :=
  if n ∈ deps then deps else deps ++ [n]

/-- Traversal request of the extractor: `n` is `visit`, `l` the child-list
loops, `root` is `visitMemberRoot`.  The three source methods are mutually
recursive; they are merged into the fuel-indexed `visitGo` (one branch per
method) so that the definition is structurally recursive and computable by
the kernel; `extractFromNode` supplies fuel that dominates the traversal. -/
inductive VReq
  | n (a : AST)
  | l (as : List AST)
  | root (a : AST)

def visitGo : Nat → VReq → List String → List String
  | 0, _, deps => deps
  | fuel + 1, .n node, deps =>
    match node with
    | .varRef pfx name => if pfx = '$' then addDep deps name else deps
    | .binOp _ l r => visitGo fuel (.n r) (visitGo fuel (.n l) deps)
    | .unOp _ o => visitGo fuel (.n o) deps
    | .condExpr c t e => visitGo fuel (.n e) (visitGo fuel (.n t) (visitGo fuel (.n c) deps))
    | .funcCall _ args => visitGo fuel (.l args) deps
    | .memberAccess obj _ => visitGo fuel (.root obj) deps
    | .indexAccess obj idx => visitGo fuel (.n idx) (visitGo fuel (.root obj) deps)
    | .arrayLit els => visitGo fuel (.l els) deps
    | _ => deps
  | fuel + 1, .l as, deps =>
    match as with
    | [] => deps
    | a :: rest => visitGo fuel (.l rest) (visitGo fuel (.n a) deps)
  | fuel + 1, .root node, deps =>
    match node with
    | .varRef pfx name => if pfx = '$' then addDep deps name else deps
    | .memberAccess obj _ => visitGo fuel (.root obj) deps
    | .indexAccess obj idx => visitGo fuel (.n idx) (visitGo fuel (.root obj) deps)
    | node => visitGo fuel (.n node) deps

/-- `DependencyExtractor.extractFromNode`; `Value.bigFuel` dominates the
traversal (at most three steps per AST node). -/
def extractFromNode (node : AST) : List String := visitGo Value.bigFuel (.n node) []

/-- `DependencyExtractor.extract`. -/
def extractDeps (expression : String) : Except Err (List String) := do
  let ast ← Parser.parse expression
  .ok (extractFromNode ast)

/-! ## Dependency graph (src/dependency-graph.ts)

`nodes` is a JavaScript Set (insertion-ordered, duplicate-free list) and
`edges` an insertion-ordered map from node to its set of dependencies; an
edge `a → b` means "a depends on b". -/

structure DGraph where
  nodes : List String
  edges : List (String × List String)
  deriving Repr

/-- JavaScript `Map.get`. -/
def aGet {α : Type} (m : List (String × α)) (k : String) : Option α :=
  (m.find? (fun p => p.1 == k)).map (·.2)

/-- JavaScript `Map.set`: overwrite in place, or append a new key. -/
def aSet {α : Type} (m : List (String × α)) (k : String) (v : α) : List (String × α) :=
  if (m.find? (fun p => p.1 == k)).isSome then
    m.map (fun p => if p.1 == k then (p.1, v) else p)
  else m ++ [(k, v)]

/-- JavaScript `Set.add` on an insertion-ordered list. -/
def addUniq (l : List String) (x : String) : List String :=
  if x ∈ l then l else l ++ [x]

namespace DGraph

def empty : DGraph := ⟨[], []⟩

/-- `DependencyGraph.addNode`. -/
def addNode (g : DGraph) (id : String) : DGraph :=
  { nodes := addUniq g.nodes id
    edges := if (aGet g.edges id).isSome then g.edges else g.edges ++ [(id, [])] }

/-- `DependencyGraph.addEdge` (creates both endpoints). -/
def addEdge (g : DGraph) (src dst : String) : DGraph :=
  let g := (g.addNode src).addNode dst
  { g with edges := aSet g.edges src (addUniq ((aGet g.edges src).getD []) dst) }

/-- `DependencyGraph.getDependencies`. -/
def depsOf (g : DGraph) (id : String) : List String := (aGet g.edges id).getD []

/-- One pass of the inner `for` over the dependents of the freshly placed
node: decrement in-degrees and collect the nodes whose degree reaches 0. -/
def kahnStep (inDeg : List (String × Int)) (visited : List String) :
    List String → List (String × Int) × List String :=
  fun deps =>
    deps.foldl
      (fun acc dep =>
        let nd := ((aGet acc.1 dep).getD 0) - 1
        let inDeg := aSet acc.1 dep nd
        if nd = 0 ∧ dep ∉ visited then (inDeg, acc.2 ++ [dep])
        else (inDeg, acc.2))
      (inDeg, [])

/-- The `while` loop of `topologicalSort` (Kahn's algorithm); returns the
emitted order together with the visited set.  Fuel bounds iterations; the
caller supplies `nodes.length + 1`, which lemma `kahnLoop_spec` shows can
never be exhausted. -/
def kahnLoop (dependents : List (String × List String)) :
    Nat → List String → List (String × Int) → List String → List String →
    List String × List String
  | 0, _, _, result, visited => (result, visited)
  | _ + 1, [], _, result, visited => (result, visited)
  | fuel + 1, q :: rest, inDeg, result, visited =>
    if q ∈ visited then kahnLoop dependents fuel rest inDeg result visited
    else
      let visited := visited ++ [q]
      let result := result ++ [q]
      let deps := (aGet dependents q).getD []
      let step := kahnStep inDeg visited deps
      kahnLoop dependents fuel (rest ++ step.2) step.1 result visited

/-- The in-degree map as `topologicalSort` builds it: every node at 0, then
one `set` per edges entry counting the dependencies that are nodes. -/
def inDegreeMap (g : DGraph) : List (String × Int) :=
  g.edges.foldl
    (fun m p => aSet m p.1 ((p.2.filter (fun d => g.nodes.contains d)).length : Int))
    (g.nodes.map (fun n => (n, (0 : Int))))

/-- The reverse (dependents) map as `topologicalSort` builds it. -/
def dependentsMap (g : DGraph) : List (String × List String) :=
  g.edges.foldl
    (fun m p =>
      p.2.foldl
        (fun m dep =>
          if (aGet m dep).isSome then aSet m dep (addUniq ((aGet m dep).getD []) p.1)
          else m)
        m)
    (g.nodes.map (fun n => (n, ([] : List String))))

/-- DFS request: `visit` is the body of the source's `dfs` closure, `deps`
its `for` loop over the node's dependencies.  They are merged into the
fuel-indexed `dfsGo` so the definition is structural and kernel-computable;
`dfsFuel` dominates the traversal (lemma `dfsGo_fuel` makes this precise
where needed). -/
inductive DReq
  | visit (node : String)
  | deps (ds : List String)

/-- DFS of `findCycle`; `visited` is threaded, `stack` and `path` are
restored on return (the source pops exactly what it pushed).  The first
back edge yields the cycle: the path from the revisited node, closed with
that node. -/
def dfsGo (g : DGraph) : Nat → DReq → List String → List String → List String →
    Option (List String) × List String
  | 0, _, visited, _, _ => (none, visited)
  | fuel + 1, .visit node, visited, stack, path =>
    let visited := addUniq visited node
    let stack := addUniq stack node
    let path := path ++ [node]
    dfsGo g fuel (.deps (g.depsOf node)) visited stack path
  | _ + 1, .deps [], visited, _, _ => (none, visited)
  | fuel + 1, .deps (dep :: ds), visited, stack, path =>
    if ¬ g.nodes.contains dep then dfsGo g fuel (.deps ds) visited stack path
    else if ¬ visited.contains dep then
      match dfsGo g fuel (.visit dep) visited stack path with
      | (some c, visited) => (some c, visited)
      | (none, visited) => dfsGo g fuel (.deps ds) visited stack path
    else if stack.contains dep then
      (some (path.drop (path.indexOf dep) ++ [dep]), visited)
    else dfsGo g fuel (.deps ds) visited stack path

/-- Fuel that dominates a whole DFS: one step per node visit plus one per
dependency edge scanned. -/
def dfsFuel (g : DGraph) : Nat :=
  (g.nodes.map (fun n => 1 + (g.depsOf n).length)).sum + 1

/-- The outer loop of `findCycle` over all nodes. -/
def findCycleGo (g : DGraph) : List String → List String → List String
  | [], _ => []
  | n :: ns, visited =>
    if ¬ visited.contains n then
      match dfsGo g (dfsFuel g) (.visit n) visited [] [] with
      | (some c, _) => c
      | (none, visited) => findCycleGo g ns visited
    else findCycleGo g ns visited

/-- `DependencyGraph.findCycle`. -/
def findCycle (g : DGraph) : List String := findCycleGo g g.nodes []

/-- The Kahn run of `topologicalSort`: seed the queue with in-degree-0
nodes and drain it. -/
def kahnRun (g : DGraph) : List String × List String :=
  let inDeg := inDegreeMap g
  let queue := (inDeg.filter (fun p => p.2 == 0)).map (·.1)
  kahnLoop (dependentsMap g) (g.nodes.length + 1) queue inDeg [] []

/-- `DependencyGraph.topologicalSort`: Kahn's algorithm; when not all nodes
could be placed, raise `CircularDependency` with a DFS-located cycle and
the unplaced nodes. -/
def topologicalSort (g : DGraph) : Except Err (List String) :=
  let (result, visited) := kahnRun g
  if result.length ≠ g.nodes.length then
    .error (.circularDependency (findCycle g) (g.nodes.filter (fun n => ¬ visited.contains n)))
  else .ok result

end DGraph


/-! ## Graph-theoretic notions for the sort and cycle-finder proofs

`WF` states the representation invariants every `DependencyGraph` instance
enjoys in JavaScript (Sets and Map keys are duplicate-free, edge keys were
created by `addNode`); `IsCycleList` is the standard notion of a directed
closed walk, used to state acyclicity. -/

namespace DGraph

/-- Dependencies of `x` that are themselves nodes: exactly the edges the
sort and the cycle finder take into account. -/
def validDeps (g : DGraph) (x : String) : List String :=
  (g.depsOf x).filter (fun d => g.nodes.contains d)

/-- One edge step of the graph as the algorithms see it: `a` depends on
`b` and `b` is a node. -/
def edgeStep (g : DGraph) (a b : String) : Prop :=
  b ∈ g.depsOf a ∧ b ∈ g.nodes

instance (g : DGraph) (a b : String) : Decidable (edgeStep g a b) :=
  decidable_of_iff (b ∈ g.depsOf a ∧ b ∈ g.nodes) Iff.rfl

/-- A directed cycle as a closed walk: at least one edge, first and last
element equal, consecutive elements joined by graph edges, and every
element a node. -/
def IsCycleList (g : DGraph) (c : List String) : Prop :=
  2 ≤ c.length ∧ c.head? = c.getLast? ∧ c.Chain' (edgeStep g) ∧ ∀ x ∈ c, x ∈ g.nodes

/-- Well-formedness enjoyed by every graph the `DependencyGraph` class can
hold: `nodes` is a JS `Set` (duplicate-free), `edges` a JS `Map`
(duplicate-free keys) whose keys were added by `addNode`/`addEdge` (hence
are nodes) and whose values are JS `Set`s (duplicate-free). -/
def WF (g : DGraph) : Prop :=
  g.nodes.Nodup ∧ (g.edges.map Prod.fst).Nodup ∧
    (∀ p ∈ g.edges, p.1 ∈ g.nodes) ∧ ∀ p ∈ g.edges, (p.2 : List String).Nodup

instance (g : DGraph) : Decidable (WF g) :=
  decidable_of_iff (g.nodes.Nodup ∧ (g.edges.map Prod.fst).Nodup ∧
    (∀ p ∈ g.edges, p.1 ∈ g.nodes) ∧ ∀ p ∈ g.edges, (p.2 : List String).Nodup) Iff.rfl

/-- Unvisited nodes. -/
def uList (g : DGraph) (V : List String) : List String :=
  g.nodes.filter (fun n => decide (n ∉ V))

/-- The loop invariant of Kahn's algorithm as implemented by
`topologicalSort`: the emitted order equals the visited list, queue members
are fresh nodes whose valid dependencies are all emitted, the in-degree map
counts unvisited valid dependencies, every ready node is queued, and the
order emitted so far places dependencies first. -/
structure KInv (g : DGraph) (Q : List String) (D : List (String × Int))
    (R V : List String) : Prop where
  rv : R = V
  vnd : V.Nodup
  vsub : ∀ x ∈ V, x ∈ g.nodes
  qsub : ∀ x ∈ Q, x ∈ g.nodes ∧ x ∉ V
  qnd : Q.Nodup
  qdeps : ∀ x ∈ Q, ∀ d ∈ validDeps g x, d ∈ V
  deg : ∀ x ∈ g.nodes, x ∉ V →
    aGet D x = some (((validDeps g x).filter (fun d => decide (d ∉ V))).length : Int)
  qcomp : ∀ x ∈ g.nodes, x ∉ V → (∀ d ∈ validDeps g x, d ∈ V) → x ∈ Q
  ord : ∀ a ∈ R, ∀ b ∈ validDeps g a, b ∈ R ∧ R.indexOf b < R.indexOf a

/-- DFS potential: one unit per unvisited node plus one per dependency it
still has to scan. -/
def dfsPot (g : DGraph) (visited : List String) : Nat :=
  ((uList g visited).map (fun n => 1 + (g.depsOf n).length)).sum

/-- Reachability along valid edges. -/
inductive Reaches (g : DGraph) : String → String → Prop
  | refl (x : String) : Reaches g x x
  | step {x y z : String} : y ∈ validDeps g x → Reaches g y z → Reaches g x z

/-- `x` lies on a directed cycle. -/
def OnCycle (g : DGraph) (x : String) : Prop :=
  ∃ d, d ∈ validDeps g x ∧ Reaches g d x

/-- The DFS invariant of `findCycle`: the recursion stack is exactly the
current path, the path is visited, and the finished region
(visited minus stack) is closed under valid edges and cycle-free. -/
structure DInv (g : DGraph) (visited stack path : List String) : Prop where
  stack_eq : stack = path
  path_sub : ∀ x ∈ path, x ∈ visited
  vsub : ∀ x ∈ visited, x ∈ g.nodes
  fin_closed : ∀ x ∈ visited, x ∉ stack → ∀ d ∈ validDeps g x, d ∈ visited ∧ d ∉ stack
  fin_nocycle : ∀ x ∈ visited, x ∉ stack → ¬ OnCycle g x

end DGraph

/-- The walk `x, f x, f (f x), …` of length `n + 1`. -/
def iterWalk (f : String → String) : String → Nat → List String
  | x, 0 => [x]
  | x, n + 1 => x :: iterWalk f (f x) n

/-! ## Graph builder (DependencyGraphBuilder) -/

/-- `DependencyGraphBuilder.build`: nodes for every formula id; edges to
extracted (or explicitly given) dependencies that are themselves formula
ids. -/
def buildGraph (formulas : List Formula) : Except Err DGraph := do
  let formulaIds := formulas.map (·.id)
  let g := formulas.foldl (fun g f => g.addNode f.id) DGraph.empty
  formulas.foldlM
    (fun g f => do
      let deps ← match f.dependencies with
        | some ds => pure (ds.foldl addUniq [])
        | none => extractDeps f.expression
      pure (deps.foldl
        (fun g dep => if formulaIds.contains dep then g.addEdge f.id dep else g) g))
    g

/-- `DependencyGraphBuilder.getEvaluationOrder`. -/
def getEvaluationOrder (formulas : List Formula) : Except Err (List String) := do
  let g ← buildGraph formulas
  g.topologicalSort

/-! ## Engine façade (FormulaEngine)

The AST and dependency caches are semantically transparent for a single
call (a miss parses and stores, a hit returns the identical AST), so they
are not modelled; `parse` is the length check followed by the parser. -/

def checkExpressionLength (cfg : EngineCfg) (expression : String) : Except Err Unit :=
  let maxLength := (cfg.security.bind (·.maxExpressionLength)).getD 10000
  if expression.length > maxLength then
    .error (.maxExpressionLength expression.length maxLength)
  else .ok ()

/-- `FormulaEngine.parse`. -/
def engineParse (cfg : EngineCfg) (expression : String) : Except Err AST := do
  checkExpressionLength cfg expression
  Parser.parse expression

/-- `FormulaEngine.convertValue`: native numbers become Decimal, arrays and
plain objects are walked recursively, fuel-indexed so the recursion is
structural.  (The source would also walk the own fields of a Decimal
instance, since `typeof decimal === 'object'`; no claim feeds Decimal
instances through context normalization, and the embedding leaves them
unchanged.) -/
def convertValueF : Nat → Value → Value
  | _, .num d => .dec d
  | fuel + 1, .arr xs => .arr (xs.map (convertValueF fuel))
  | 0, .arr xs => .arr xs
  | fuel + 1, .obj fs => .obj (fs.map (fun p => (p.1, convertValueF fuel p.2)))
  | 0, .obj fs => .obj fs
  | _, v => v

/-- `FormulaEngine.convertValue` proper; `Value.bigFuel` dominates the
nesting depth, so the zero-fuel alternatives of `convertValueF` are
unreachable. -/
def convertValue (v : Value) : Value := convertValueF Value.bigFuel v

/-- `FormulaEngine.normalizeContext`.  With `autoConvertFloats` disabled it
returns `{ ...context }` — a shallow copy whose `variables` is the caller's
own map object; the second component records that aliasing (true when the
returned `variables` is the caller's object). -/
def normalizeContext (cfg : EngineCfg) (ctx : EvalCtx) : EvalCtx × Bool :=
  let autoConvert := (cfg.decimal.bind (·.autoConvertFloats)).getD true
  if ¬ autoConvert then (ctx, true)
  else
    ({ ctx with vars := ctx.vars.map (fun p => (p.1, convertValue p.2)) }, false)

/-- `FormulaEngine.evaluate`: length check (which throws to the caller),
context normalization, then the evaluator (which catches its own errors). -/
def engineEvaluate (cfg : EngineCfg) (expression : String) (ctx : EvalCtx) :
    Except Err EvalResult := do
  checkExpressionLength cfg expression
  let (nctx, _) := normalizeContext cfg ctx
  .ok ((Evaluator.ofConfig builtinFunctions cfg).evaluate expression nctx)

/-- `RoundingConfig.mode` to a decimal rounding mode (the NONE case is
filtered out before `applyRounding` maps the mode). -/
def roundModeRM : RoundMode → Dec.RMode
  | .halfUp => .halfUp
  | .halfDown => .halfDown
  | .floor => .floor
  | .ceil => .ceil
  | .rnone => .halfUp

/-- `FormulaEngine.applyRounding`. -/
def applyRounding (decu : DecUtils) (value : Dec) (rc : RoundingCfg) : Dec :=
  if rc.mode = .rnone then value
  else decu.round value rc.precision (some (roundModeRM rc.mode))

/-- `FormulaEngine.handleError`: substitute per the formula's `onError`
policy; THROW re-raises. -/
def handleError (_decu : DecUtils) (f : Formula) (e : Option Err) : Except Err Value :=
  match f.onError with
  | none => .ok .null
  | some b =>
    match b.type with
    | .nullE => .ok .null
    | .zeroE => .ok (.dec ⟨0, 0⟩)
    | .defaultE => .ok (b.defaultValue.getD (f.defaultValue.getD .null))
    | .skipE => .ok .undef
    | .throwE => .error (e.getD (.generalError "unknown"))

/-- `EvaluationResultSet` (total wall-clock time is not modelled). -/
structure EvalResultSet where
  results : List (String × EvalResult)
  success : Bool
  errors : List Err
  evaluationOrder : List String
  deriving Repr

/-- The per-formula loop of `evaluateAll`, threading results, errors and the
working variables.  A THROW error policy propagates out of the loop exactly
as in the source (where `handleError` re-raises inside the catch block). -/
def evalAllLoop (cfg : EngineCfg) (decu : DecUtils)
    (formulaMap : List (String × Formula)) (extra : List (String × Value)) :
    List String → List (String × Value) → List (String × EvalResult) → List Err →
    Except Err (List (String × EvalResult) × List Err × List (String × Value))
  | [], workingVars, results, errors => .ok (results, errors, workingVars)
  | formulaId :: order, workingVars, results, errors => do
    match aGet formulaMap formulaId with
    | none => evalAllLoop cfg decu formulaMap extra order workingVars results errors
    | some formula => do
      let result := (Evaluator.ofConfig builtinFunctions cfg).evaluate formula.expression
        { vars := workingVars, extra := extra }
      let value := result.value
      let value :=
        match formula.rounding, value with
        | some rc, .dec d => Value.dec (applyRounding decu d rc)
        | _, _ => value
      let value ←
        if ¬ result.success ∧ formula.onError.isSome then
          handleError decu formula result.error
        else pure value
      let results := aSet results formulaId { result with value := value }
      let workingVars := Value.setKey workingVars formulaId value
      let errors := if ¬ result.success then errors ++ [result.error.getD (.generalError "unknown")]
        else errors
      evalAllLoop cfg decu formulaMap extra order workingVars results errors

/-- `FormulaEngine.evaluateAll`.  Besides the result set, the second
component is the caller's `context.variables` map as observable after the
call: when `normalizeContext` copies (autoConvertFloats on, the default) it
is the unchanged input, but when it aliases (`{ ...context }`) it is the
final working map, because each formula result was written into the
caller's own object. -/
def evaluateAll (cfg : EngineCfg) (formulas : List Formula) (ctx : EvalCtx) :
    Except Err (EvalResultSet × List (String × Value)) :=
  match getEvaluationOrder formulas with
  | .error e =>
    .ok ({ results := [], success := false, errors := [e], evaluationOrder := [] }, ctx.vars)
  | .ok evaluationOrder =>
    let formulaMap := formulas.foldl (fun m f => aSet m f.id f) []
    let (workingCtx, aliased) := normalizeContext cfg ctx
    let decu := mkDecUtils cfg.decimal
    match evalAllLoop cfg decu formulaMap workingCtx.extra evaluationOrder
        workingCtx.vars [] [] with
    | .error e => .error e
    | .ok (results, errors, finalVars) =>
      .ok ({ results := results
             success := errors.isEmpty
             errors := errors
             evaluationOrder := evaluationOrder },
           if aliased then finalVars else ctx.vars)

/-- `ValidationResult`. -/
structure ValidationResult where
  valid : Bool
  errors : List Err
  warnings : List String
  dependencyGraph : DGraph
  evaluationOrder : List String

/-- The duplicate-id scan of `FormulaEngine.validate`. -/
def dupScan : List Formula → List String → List Err
  | [], _ => []
  | f :: rest, seen =>
    if f.id ∈ seen then Err.duplicateFormula f.id :: dupScan rest (addUniq seen f.id)
    else dupScan rest (addUniq seen f.id)

/-- The graph-and-sort stage of `validate`: collected errors, the graph and
the order. -/
def graphValidation (formulas : List Formula) : List Err × DGraph × List String :=
  match buildGraph formulas with
  | .error e => ([e], DGraph.empty, [])
  | .ok g =>
    match g.topologicalSort with
    | .error e => ([e], g, [])
    | .ok order => ([], g, order)

/-- `FormulaEngine.validate`: duplicate ids, parse errors, then graph build
and sort; nothing is executed. -/
def validate (cfg : EngineCfg) (formulas : List Formula) : ValidationResult :=
  let parseErrors := formulas.filterMap
    (fun f => match engineParse cfg f.expression with
      | .ok _ => none
      | .error e => some e)
  let gv := graphValidation formulas
  let errors := dupScan formulas [] ++ parseErrors ++ gv.1
  { valid := errors.isEmpty
    errors := errors
    warnings := []
    dependencyGraph := gv.2.1
    evaluationOrder := gv.2.2 }


/-! ## Claim theorems -/

/-- C3: evaluating decimal-literal arithmetic over `+`, `-`, `*` is exact:
`evaluate("0.1 + 0.2")` returns the Decimal value 0.3,
`evaluate("1000.10 - 1000.00")` returns the Decimal value 0.10, and
`evaluate("19.99 * 3")` returns the Decimal value 59.97 — the results are
the exact rationals 3/10, 1/10 and 5997/100, with no binary floating-point
error. -/
theorem C3_decimal_exactness :
    (∃ d : Dec, engineEvaluate {} "0.1 + 0.2" ⟨[], []⟩ =
        .ok { value := .dec d, success := true } ∧ d.val = 3 / 10) ∧
    (∃ d : Dec, engineEvaluate {} "1000.10 - 1000.00" ⟨[], []⟩ =
        .ok { value := .dec d, success := true } ∧ d.val = 1 / 10) ∧
    (∃ d : Dec, engineEvaluate {} "19.99 * 3" ⟨[], []⟩ =
        .ok { value := .dec d, success := true } ∧ d.val = 5997 / 100) := by
  refine ⟨⟨⟨3, 1⟩, by rfl, ?_⟩, ⟨⟨10, 2⟩, by rfl, ?_⟩, ⟨⟨5997, 2⟩, by rfl, ?_⟩⟩ <;>
    norm_num [Dec.val]

/-- C5 (claim falsified by the code): an object-literal expression does not
parse — the lexer has no case for `\x7b` (there is no LBRACE token type and
no ObjectLiteral node), so both `\x7b\x7d` and `\x7b a: 1, b: 2 \x7d` raise a
syntax error "Unexpected character" at the opening brace instead of
producing an ObjectLiteral node. -/
theorem C5_object_literal_rejected :
    Parser.parse "\x7b\x7d" = .error (.syntaxError "Unexpected character '\x7b'" 0 1 1) ∧
    Parser.parse "\x7b a: 1, b: 2 \x7d" =
      .error (.syntaxError "Unexpected character '\x7b'" 0 1 1) := ⟨by rfl, by rfl⟩

/-- C6 (counterexample): on the spec's S3 pricing table with the unmatched
region "JP", LOOKUP returns the native number 0 — not a Decimal value as the
claim states (`Value.num` is `typeof number`, not a Decimal instance). -/
theorem C6_lookup_counterexample :
    lookupImpl
      [ .arr [ .obj [("region", .str "US"), ("category", .str "food"), ("rate", .num ⟨2, 2⟩)]
             , .obj [("region", .str "EU"), ("category", .str "food"), ("rate", .num ⟨10, 2⟩)] ]
      , .obj [("region", .str "JP"), ("category", .str "food")]
      , .str "rate" ] = .ok (.num ⟨0, 0⟩) ∧
    ∀ d : Dec, Value.num ⟨0, 0⟩ ≠ Value.dec d := by
  refine ⟨by rfl, fun d h => ?_⟩
  cases h

/-- C6 (amended): for every LOOKUP call whose table is an array of objects
with no matching row — and likewise when the table is Null, or the first
matching row lacks the `returnField` — LOOKUP returns the number zero (the
plain JavaScript number 0, not a Decimal instance) rather than raising. -/
theorem C6_lookup_zero_amended :
    (∀ (cf : List (String × Value)) (rf : String) (rows : List Value),
        lookupImpl [.arr rows, .obj cf, .str rf] = .ok (lookupScan cf rf rows)) ∧
    (∀ (cf : List (String × Value)) (rf : String) (rows : List Value),
        (∀ row ∈ rows, isRowObject row = true → rowMatches cf row = false) →
        lookupScan cf rf rows = .num ⟨0, 0⟩) ∧
    (∀ (criteria returnField : Value),
        lookupImpl [Value.null, criteria, returnField] = .ok (.num ⟨0, 0⟩)) ∧
    (∀ (cf : List (String × Value)) (rf : String) (pre : List Value)
        (row : Value) (rest : List Value),
        (∀ r ∈ pre, isRowObject r = true → rowMatches cf r = false) →
        isRowObject row = true →
        rowMatches cf row = true →
        rowGet row rf = .undef →
        lookupScan cf rf (pre ++ row :: rest) = .num ⟨0, 0⟩) := by
  refine ⟨fun cf rf rows => rfl, ?_, fun criteria returnField => rfl, ?_⟩
  · intro cf rf rows h
    induction rows with
    | nil => rfl
    | cons r rest ih =>
      by_cases hobj : isRowObject r = true
      · have hm := h r (List.mem_cons_self _ _) hobj
        simp only [lookupScan, hobj, if_true, hm, Bool.false_eq_true, if_false]
        exact ih fun r2 hr2 => h r2 (List.mem_cons_of_mem _ hr2)
      · simp only [lookupScan, hobj, if_false]
        exact ih fun r2 hr2 => h r2 (List.mem_cons_of_mem _ hr2)
  · intro cf rf pre row rest hpre hobj hm hk
    induction pre with
    | nil =>
      simp only [List.nil_append, lookupScan, hobj, if_true, hm, hk]
    | cons r prest ih =>
      by_cases hr : isRowObject r = true
      · have hf := hpre r (List.mem_cons_self _ _) hr
        simp only [List.cons_append, lookupScan, hr, if_true, hf,
          Bool.false_eq_true, if_false]
        exact ih fun r2 hr2 => hpre r2 (List.mem_cons_of_mem _ hr2)
      · simp only [List.cons_append, lookupScan, hr, if_false]
        exact ih fun r2 hr2 => hpre r2 (List.mem_cons_of_mem _ hr2)

/-- C6 (amended, witness): the amended no-match behavior at the concrete S3
table. -/
theorem C6_lookup_zero_amended_witness :
    lookupScan [("region", Value.str "JP")] "rate"
      [Value.obj [("region", Value.str "US"), ("rate", Value.num ⟨2, 2⟩)]] = .num ⟨0, 0⟩ :=
  C6_lookup_zero_amended.2.1 [("region", Value.str "JP")] "rate"
    [Value.obj [("region", Value.str "US"), ("rate", Value.num ⟨2, 2⟩)]]
    (by
      intro row hr _
      simp only [List.mem_singleton] at hr
      subst hr
      rfl)

/-- C7 (counterexample): a batch with two formulas sharing the id "a" is
not rejected — `evaluateAll` succeeds with no error, silently keeping the
last definition (`"2"`). -/
theorem C7_duplicate_counterexample :
    evaluateAll {} [{ id := "a", expression := "1" }, { id := "a", expression := "2" }]
        ⟨[], []⟩ =
      .ok ({ results := [("a", { value := .dec ⟨2, 0⟩, success := true })]
             success := true
             errors := []
             evaluationOrder := ["a"] }, []) := by rfl

/-- Duplicate detection of the `validate` scan: whenever a formula id occurs
twice (or an id was already seen), the scan reports a DuplicateFormula. -/
theorem dupScan_finds_duplicate :
    ∀ (fs : List Formula) (seen : List String),
      (¬ (fs.map (·.id)).Nodup ∨ ∃ f ∈ fs, f.id ∈ seen) →
      ∃ id, Err.duplicateFormula id ∈ dupScan fs seen := by
  intro fs
  induction fs with
  | nil =>
    intro seen h
    rcases h with h | ⟨f, hf, _⟩
    · simp at h
    · simp at hf
  | cons f rest ih =>
    intro seen h
    by_cases hin : f.id ∈ seen
    · exact ⟨f.id, by simp [dupScan, hin]⟩
    · have hrw : dupScan (f :: rest) seen = dupScan rest (addUniq seen f.id) := by
        simp [dupScan, hin]
      rw [hrw]
      apply ih
      have hidmem : f.id ∈ addUniq seen f.id := by simp [addUniq, hin]
      rcases h with h | ⟨g, hg, hgs⟩
      · by_cases hmem : f.id ∈ rest.map (·.id)
        · right
          obtain ⟨g, hg, hid⟩ := List.mem_map.mp hmem
          exact ⟨g, hg, by rw [hid]; exact hidmem⟩
        · left
          simp only [List.map_cons, List.nodup_cons, hmem, true_and, not_true_eq_false,
            not_and, not_forall] at h
          simpa using h
      · rcases List.mem_cons.mp hg with hgf | hgrest
        · exact absurd (hgf ▸ hgs) hin
        · right
          refine ⟨g, hgrest, ?_⟩
          by_cases hs : g.id ∈ seen
          · simp [addUniq, hin, hs]
          · exact absurd hgs hs

/-- C7 (amended): `evaluate_all` does not reject duplicate formula ids (the
id appears once in the order, the last definition winning); duplicate
detection happens in `validate`, which reports a DuplicateFormula error for
every formula list with a repeated id. -/
theorem C7_duplicates_amended :
    (∀ (cfg : EngineCfg) (formulas : List Formula),
        ¬ (formulas.map (·.id)).Nodup →
        ∃ id, Err.duplicateFormula id ∈ (validate cfg formulas).errors) ∧
    (evaluateAll {} [{ id := "a", expression := "1" }, { id := "a", expression := "2" }]
        ⟨[], []⟩ =
      .ok ({ results := [("a", { value := .dec ⟨2, 0⟩, success := true })]
             success := true
             errors := []
             evaluationOrder := ["a"] }, [])) := by
  refine ⟨?_, by rfl⟩
  intro cfg formulas h
  obtain ⟨id, hid⟩ := dupScan_finds_duplicate formulas [] (Or.inl h)
  exact ⟨id, by simp only [validate]; exact List.mem_append_left _ (List.mem_append_left _ hid)⟩

/-- C7 (amended, witness): the duplicate list [a, a] yields a
DuplicateFormula error from `validate`. -/
theorem C7_duplicates_amended_witness :
    (¬ (([{ id := "a", expression := "1" }, { id := "a", expression := "2" }] :
        List Formula).map (·.id)).Nodup) ∧
    ∃ id, Err.duplicateFormula id ∈
      (validate {} [{ id := "a", expression := "1" }, { id := "a", expression := "2" }]).errors :=
  ⟨by simp, C7_duplicates_amended.1 {}
    [{ id := "a", expression := "1" }, { id := "a", expression := "2" }] (by simp)⟩

/-- C9 (claim falsified by the code): with `autoConvertFloats` disabled,
`normalizeContext` returns `\x7b ...context \x7d` — a shallow copy aliasing the
caller's `variables` object — so `evaluateAll` writes the formula result
into the caller's map: after the call the caller's variables hold
`a = Decimal 1` although the input map was empty. -/
theorem C9_caller_variables_mutated :
    (evaluateAll { decimal := some { autoConvertFloats := some false } }
        [{ id := "a", expression := "1" }] ⟨[], []⟩ =
      .ok ({ results := [("a", { value := .dec ⟨1, 0⟩, success := true })]
             success := true
             errors := []
             evaluationOrder := ["a"] }, [("a", Value.dec ⟨1, 0⟩)])) ∧
    ([("a", Value.dec ⟨1, 0⟩)] : List (String × Value)) ≠ [] := by
  refine ⟨by rfl, ?_⟩
  simp

/-- C4 (claim falsified by the code): with engine
`defaultRounding = \x7bHALF_UP, 2\x7d` and no per-formula rounding,
`evaluateAll` on `a = "19.125"`, `b = "$a * 2"` yields the raw values
`a = 19.125` and `b = 38.25` — the engine default rounding is never applied
(`evaluateAll` consults only `formula.rounding`), so dependents observe the
unrounded value, not `a = 19.13`, `b = 38.26` as the claim states. -/
theorem C4_default_rounding_not_applied :
    (evaluateAll { defaultRounding := some ⟨.halfUp, 2⟩ }
        [{ id := "a", expression := "19.125" }, { id := "b", expression := "$a * 2" }]
        ⟨[], []⟩ =
      .ok ({ results :=
               [ ("a", { value := .dec ⟨19125, 3⟩, success := true })
               , ("b", { value := .dec ⟨38250, 3⟩, success := true,
                         accessedVariables := ["a"] }) ]
             success := true
             errors := []
             evaluationOrder := ["a", "b"] }, [])) ∧
    Dec.val ⟨19125, 3⟩ = 19125 / 1000 ∧ Dec.val ⟨19125, 3⟩ ≠ 1913 / 100 ∧
    Dec.val ⟨38250, 3⟩ = 3825 / 100 ∧ Dec.val ⟨38250, 3⟩ ≠ 3826 / 100 := by
  refine ⟨by rfl, ?_, ?_, ?_, ?_⟩ <;> norm_num [Dec.val]

/-- C8: in strict mode with the variable `undef` absent from the context,
`false && $undef` evaluates to `false` and `true || $undef` to `true`, both
with no error: the right operand is never evaluated, so the
UndefinedVariable branch is unreachable. -/
theorem C8_short_circuit (ctx : EvalCtx)
    (_h : Value.getKey ctx.vars "undef" = none) :
    engineEvaluate {} "false && $undef" ctx =
      .ok { value := .bool false, success := true } ∧
    engineEvaluate {} "true || $undef" ctx =
      .ok { value := .bool true, success := true } := ⟨by rfl, by rfl⟩

/-- C8 (witness): the short-circuit facts at the empty context. -/
theorem C8_short_circuit_witness :
    Value.getKey ([] : List (String × Value)) "undef" = none ∧
    engineEvaluate {} "false && $undef" ⟨[], []⟩ =
      .ok { value := .bool false, success := true } :=
  ⟨rfl, (C8_short_circuit ⟨[], []⟩ rfl).1⟩





/-! ## Recursion-depth accounting (claim C10)

The depth counter of `EvalSt` is cumulative: `checkRecursionLimit` bumps it
at every node dispatch of `evalNode`, and nothing ever decreases it within a
single `Evaluator.evaluate` call, so the limit is a budget of node visits,
not of nesting depth. -/

set_option maxRecDepth 10000
set_option maxHeartbeats 1000000

theorem exc_bind_ok {α β : Type} {x : Except Err α} {f : α → Except Err β} {b : β} :
    x >>= f = .ok b ↔ ∃ a, x = .ok a ∧ f a = .ok b := by
  cases x <;> simp [Bind.bind, Except.bind]

theorem checkRecursionLimit_ok {E : Evaluator} {st st' : EvalSt}
    (h : checkRecursionLimit E st = .ok st') :
    st'.recursionDepth = st.recursionDepth + 1 := by
  unfold checkRecursionLimit at h
  simp only [] at h
  split at h
  · cases h
  · cases h; rfl

theorem checkIterationLimit_ok {E : Evaluator} {st st' : EvalSt}
    (h : checkIterationLimit E st = .ok st') :
    st'.recursionDepth = st.recursionDepth := by
  unfold checkIterationLimit at h
  simp only [] at h
  split at h
  · cases h
  · cases h; rfl

theorem evaluateVariable_ok {E : Evaluator} {p : Char} {n : String} {ctx : EvalCtx}
    {st : EvalSt} {v : Value} {st' : EvalSt}
    (h : evaluateVariable E p n ctx st = .ok (v, st')) :
    st'.recursionDepth = st.recursionDepth := by
  unfold evaluateVariable at h
  have haa : (addAccess st n).recursionDepth = st.recursionDepth := by
    unfold addAccess; split <;> rfl
  split at h
  · split at h
    · cases h; exact haa
    · split at h
      · cases h; exact haa
      · split at h
        · cases h
        · cases h; exact haa
  · split at h
    · cases h; exact haa
    · split at h
      · cases h
      · cases h; exact haa

theorem foldlM_depth {α β : Type}
    (f : β × EvalSt → α → Except Err (β × EvalSt))
    (hf : ∀ acc a out, f acc a = .ok out → acc.2.recursionDepth ≤ out.2.recursionDepth) :
    ∀ (l : List α) (init out : β × EvalSt), List.foldlM f init l = .ok out →
      init.2.recursionDepth ≤ out.2.recursionDepth := by
  intro l
  induction l with
  | nil =>
    intro init out h
    simp only [List.foldlM, pure, Except.pure, Except.ok.injEq] at h
    subst h; exact le_refl _
  | cons a rest ih =>
    intro init out h
    rw [List.foldlM_cons] at h
    rw [exc_bind_ok] at h
    obtain ⟨mid, hmid, hrest⟩ := h
    exact le_trans (hf init a mid hmid) (ih mid out hrest)


theorem evalNode_depth_lt (E : Evaluator) :
    ∀ (fuel : Nat) (node : AST) (ctx : EvalCtx) (st : EvalSt) (v : Value) (st' : EvalSt),
      evalNode E fuel node ctx st = .ok (v, st') →
      st.recursionDepth < st'.recursionDepth := by
  intro fuel
  induction fuel with
  | zero => intro node ctx st v st' h; simp [evalNode] at h
  | succ fuel ih =>
    intro node ctx st v st' h
    rw [evalNode] at h
    rw [exc_bind_ok] at h
    obtain ⟨st1, hchk, hm⟩ := h
    have hd1 := checkRecursionLimit_ok hchk
    -- helper facts for fold bodies
    have harr : ∀ (acc : List Value × EvalSt) (el : AST) (out : List Value × EvalSt),
        (do
          let x ← evalNode E fuel el ctx acc.2
          pure (acc.1 ++ [x.1], x.2) : Except Err (List Value × EvalSt)) = .ok out →
        acc.2.recursionDepth ≤ out.2.recursionDepth := by
      intro acc el out hb
      rw [exc_bind_ok] at hb
      obtain ⟨⟨v2, st2⟩, he, hp⟩ := hb
      simp only [pure, Except.pure, Except.ok.injEq] at hp
      subst hp
      exact le_of_lt (ih el ctx acc.2 v2 st2 he)
    cases node with
    | decimalLit value raw =>
      simp only [] at hm
      rw [exc_bind_ok] at hm
      obtain ⟨d, -, hm⟩ := hm
      simp only [Except.ok.injEq, Prod.mk.injEq] at hm
      obtain ⟨-, rfl⟩ := hm
      omega
    | numberLit value =>
      simp only [Except.ok.injEq, Prod.mk.injEq] at hm
      obtain ⟨-, rfl⟩ := hm
      omega
    | stringLit value =>
      simp only [Except.ok.injEq, Prod.mk.injEq] at hm
      obtain ⟨-, rfl⟩ := hm
      omega
    | boolLit value =>
      simp only [Except.ok.injEq, Prod.mk.injEq] at hm
      obtain ⟨-, rfl⟩ := hm
      omega
    | nullLit =>
      simp only [Except.ok.injEq, Prod.mk.injEq] at hm
      obtain ⟨-, rfl⟩ := hm
      omega
    | arrayLit elements =>
      simp only [] at hm
      rw [exc_bind_ok] at hm
      obtain ⟨⟨vs, st2⟩, hfold, hm⟩ := hm
      have hle : st1.recursionDepth ≤ st2.recursionDepth := by
        refine foldlM_depth _ ?_ elements ([], st1) (vs, st2) hfold
        intro acc a out hb
        simp only [] at hb
        rw [exc_bind_ok] at hb
        obtain ⟨⟨v2, st3⟩, he, hp⟩ := hb
        have hp2 : (pure (acc.1 ++ [v2], st3) : Except Err (List Value × EvalSt)) = .ok out := hp
        simp only [pure, Except.pure, Except.ok.injEq] at hp2
        subst hp2
        exact le_of_lt (ih a ctx acc.2 v2 st3 he)
      have hp2 : (Except.ok (.arr vs, st2) : Except Err (Value × EvalSt)) = .ok (v, st') := hm
      simp only [Except.ok.injEq, Prod.mk.injEq] at hp2
      obtain ⟨-, rfl⟩ := hp2
      omega
    | varRef pfx name =>
      simp only [] at hm
      have := evaluateVariable_ok hm
      omega
    | binOp op left right =>
      simp only [] at hm
      split at hm
      · rw [exc_bind_ok] at hm
        obtain ⟨⟨lv, st2⟩, hl, hm⟩ := hm
        have h2 := ih left ctx st1 lv st2 hl
        simp only [] at hm
        split at hm
        · simp only [Except.ok.injEq, Prod.mk.injEq] at hm
          obtain ⟨-, rfl⟩ := hm
          omega
        · rw [exc_bind_ok] at hm
          obtain ⟨⟨rv, st3⟩, hr, hm⟩ := hm
          have h3 := ih right ctx st2 rv st3 hr
          simp only [Except.ok.injEq, Prod.mk.injEq] at hm
          obtain ⟨-, rfl⟩ := hm
          omega
      · split at hm
        · rw [exc_bind_ok] at hm
          obtain ⟨⟨lv, st2⟩, hl, hm⟩ := hm
          have h2 := ih left ctx st1 lv st2 hl
          simp only [] at hm
          split at hm
          · simp only [Except.ok.injEq, Prod.mk.injEq] at hm
            obtain ⟨-, rfl⟩ := hm
            omega
          · rw [exc_bind_ok] at hm
            obtain ⟨⟨rv, st3⟩, hr, hm⟩ := hm
            have h3 := ih right ctx st2 rv st3 hr
            simp only [Except.ok.injEq, Prod.mk.injEq] at hm
            obtain ⟨-, rfl⟩ := hm
            omega
        · rw [exc_bind_ok] at hm
          obtain ⟨⟨lv, st2⟩, hl, hm⟩ := hm
          have h2 := ih left ctx st1 lv st2 hl
          simp only [] at hm
          rw [exc_bind_ok] at hm
          obtain ⟨⟨rv, st3⟩, hr, hm⟩ := hm
          have h3 := ih right ctx st2 rv st3 hr
          simp only [] at hm
          rw [exc_bind_ok] at hm
          obtain ⟨v4, -, hm⟩ := hm
          simp only [Except.ok.injEq, Prod.mk.injEq] at hm
          obtain ⟨-, rfl⟩ := hm
          omega
    | unOp op operand =>
      simp only [] at hm
      rw [exc_bind_ok] at hm
      obtain ⟨⟨v2, st2⟩, he, hm⟩ := hm
      have h2 := ih operand ctx st1 v2 st2 he
      have hm2 : (if op = "-" then (do
          let r ← negateV v2
          .ok (r, st2)) else if op = "!" then .ok (.bool (¬ toBool v2), st2)
          else (.error (.invalidOperation op [evTypeOf v2]) : Except Err (Value × EvalSt)))
          = .ok (v, st') := hm
      split at hm2
      · rw [exc_bind_ok] at hm2
        obtain ⟨r, -, hm2⟩ := hm2
        simp only [Except.ok.injEq, Prod.mk.injEq] at hm2
        obtain ⟨-, rfl⟩ := hm2
        omega
      · split at hm2
        · simp only [Except.ok.injEq, Prod.mk.injEq] at hm2
          obtain ⟨-, rfl⟩ := hm2
          omega
        · cases hm2
    | condExpr c t e =>
      simp only [] at hm
      rw [exc_bind_ok] at hm
      obtain ⟨⟨cv, st2⟩, hc, hm⟩ := hm
      have h2 := ih c ctx st1 cv st2 hc
      have hm2 : (if toBool cv then evalNode E fuel t ctx st2
          else evalNode E fuel e ctx st2) = .ok (v, st') := hm
      split at hm2
      · have h3 := ih t ctx st2 v st' hm2
        omega
      · have h3 := ih e ctx st2 v st' hm2
        omega
    | funcCall name args =>
      simp only [] at hm
      split at hm
      · cases hm
      · split at hm
        · cases hm
        · split at hm
          · cases hm
          · split at hm
            · -- SUM with expression
              split at hm
              · rw [exc_bind_ok] at hm
                obtain ⟨⟨arrV, st2⟩, ha, hm⟩ := hm
                have h2 := ih _ ctx st1 arrV st2 ha
                cases arrV with
                | arr items =>
                  simp only [] at hm
                  rw [exc_bind_ok] at hm
                  obtain ⟨⟨sum, st3⟩, hfold, hm⟩ := hm
                  have hle : st2.recursionDepth ≤ st3.recursionDepth := by
                    refine foldlM_depth _ ?_ items (⟨0, 0⟩, st2) (sum, st3) hfold
                    intro acc a out hb
                    simp only [] at hb
                    rw [exc_bind_ok] at hb
                    obtain ⟨st4, hit, hb⟩ := hb
                    have hd4 := checkIterationLimit_ok hit
                    rw [exc_bind_ok] at hb
                    obtain ⟨⟨v2, st5⟩, he, hb⟩ := hb
                    have h5 := ih _ _ st4 v2 st5 he
                    simp only [] at hb
                    split at hb
                    · rw [exc_bind_ok] at hb
                      obtain ⟨d, -, hb⟩ := hb
                      simp only [pure, Except.pure, Except.ok.injEq] at hb
                      subst hb
                      show acc.2.recursionDepth ≤ st5.recursionDepth
                      omega
                    · simp only [pure, Except.pure, Except.ok.injEq] at hb
                      subst hb
                      show acc.2.recursionDepth ≤ st5.recursionDepth
                      omega
                  simp only [Except.ok.injEq, Prod.mk.injEq] at hm
                  obtain ⟨-, rfl⟩ := hm
                  omega
                | dec d => simp only [] at hm; cases hm
                | num d => simp only [] at hm; cases hm
                | str s => simp only [] at hm; cases hm
                | bool b => simp only [] at hm; cases hm
                | null => simp only [] at hm; cases hm
                | undef => simp only [] at hm; cases hm
                | obj fields => simp only [] at hm; cases hm
              · cases hm
            · split at hm
              · -- FILTER
                split at hm
                · rw [exc_bind_ok] at hm
                  obtain ⟨⟨arrV, st2⟩, ha, hm⟩ := hm
                  have h2 := ih _ ctx st1 arrV st2 ha
                  cases arrV with
                  | arr items =>
                    simp only [] at hm
                    rw [exc_bind_ok] at hm
                    obtain ⟨⟨kept, st3⟩, hfold, hm⟩ := hm
                    have hle : st2.recursionDepth ≤ st3.recursionDepth := by
                      refine foldlM_depth _ ?_ items ([], st2) (kept, st3) hfold
                      intro acc a out hb
                      simp only [] at hb
                      rw [exc_bind_ok] at hb
                      obtain ⟨st4, hit, hb⟩ := hb
                      have hd4 := checkIterationLimit_ok hit
                      rw [exc_bind_ok] at hb
                      obtain ⟨⟨v2, st5⟩, he, hb⟩ := hb
                      have h5 := ih _ _ st4 v2 st5 he
                      simp only [] at hb
                      split at hb
                      · simp only [pure, Except.pure, Except.ok.injEq] at hb
                        subst hb
                        show acc.2.recursionDepth ≤ st5.recursionDepth
                        omega
                      · simp only [pure, Except.pure, Except.ok.injEq] at hb
                        subst hb
                        show acc.2.recursionDepth ≤ st5.recursionDepth
                        omega
                    simp only [Except.ok.injEq, Prod.mk.injEq] at hm
                    obtain ⟨-, rfl⟩ := hm
                    omega
                  | dec d => simp only [] at hm; cases hm
                  | num d => simp only [] at hm; cases hm
                  | str s => simp only [] at hm; cases hm
                  | bool b => simp only [] at hm; cases hm
                  | null => simp only [] at hm; cases hm
                  | undef => simp only [] at hm; cases hm
                  | obj fields => simp only [] at hm; cases hm
                · cases hm
              · split at hm
                · -- MAP
                  split at hm
                  · rw [exc_bind_ok] at hm
                    obtain ⟨⟨arrV, st2⟩, ha, hm⟩ := hm
                    have h2 := ih _ ctx st1 arrV st2 ha
                    cases arrV with
                    | arr items =>
                      simp only [] at hm
                      rw [exc_bind_ok] at hm
                      obtain ⟨⟨out, st3⟩, hfold, hm⟩ := hm
                      have hle : st2.recursionDepth ≤ st3.recursionDepth := by
                        refine foldlM_depth _ ?_ items ([], st2) (out, st3) hfold
                        intro acc a o hb
                        simp only [] at hb
                        rw [exc_bind_ok] at hb
                        obtain ⟨st4, hit, hb⟩ := hb
                        have hd4 := checkIterationLimit_ok hit
                        rw [exc_bind_ok] at hb
                        obtain ⟨⟨v2, st5⟩, he, hb⟩ := hb
                        have h5 := ih _ _ st4 v2 st5 he
                        simp only [pure, Except.pure, Except.ok.injEq] at hb
                        subst hb
                        show acc.2.recursionDepth ≤ st5.recursionDepth
                        omega
                      simp only [Except.ok.injEq, Prod.mk.injEq] at hm
                      obtain ⟨-, rfl⟩ := hm
                      omega
                    | dec d => simp only [] at hm; cases hm
                    | num d => simp only [] at hm; cases hm
                    | str s => simp only [] at hm; cases hm
                    | bool b => simp only [] at hm; cases hm
                    | null => simp only [] at hm; cases hm
                    | undef => simp only [] at hm; cases hm
                    | obj fields => simp only [] at hm; cases hm
                  · cases hm
                · -- eager arguments then impl
                  rw [exc_bind_ok] at hm
                  obtain ⟨⟨argVals, st2⟩, hfold, hm⟩ := hm
                  have hle : st1.recursionDepth ≤ st2.recursionDepth := by
                    refine foldlM_depth _ ?_ args ([], st1) (argVals, st2) hfold
                    intro acc a o hb
                    simp only [] at hb
                    rw [exc_bind_ok] at hb
                    obtain ⟨⟨v2, st3⟩, he, hp⟩ := hb
                    have hp2 : (pure (acc.1 ++ [v2], st3) : Except Err (List Value × EvalSt)) = .ok o := hp
                    simp only [pure, Except.pure, Except.ok.injEq] at hp2
                    subst hp2
                    exact le_of_lt (ih a ctx acc.2 v2 st3 he)
                  simp only [] at hm
                  rw [exc_bind_ok] at hm
                  obtain ⟨v4, -, hm⟩ := hm
                  simp only [Except.ok.injEq, Prod.mk.injEq] at hm
                  obtain ⟨-, rfl⟩ := hm
                  omega
    | memberAccess object property =>
      simp only [] at hm
      rw [exc_bind_ok] at hm
      obtain ⟨⟨ov, st2⟩, ho, hm⟩ := hm
      have h2 := ih object ctx st1 ov st2 ho
      simp only [] at hm
      cases ov with
      | null =>
        simp only [] at hm
        split at hm
        · cases hm
        · simp only [Except.ok.injEq, Prod.mk.injEq] at hm
          obtain ⟨-, rfl⟩ := hm
          omega
      | undef =>
        simp only [] at hm
        split at hm
        · cases hm
        · simp only [Except.ok.injEq, Prod.mk.injEq] at hm
          obtain ⟨-, rfl⟩ := hm
          omega
      | obj fields =>
        simp only [] at hm
        simp only [Except.ok.injEq, Prod.mk.injEq] at hm
        obtain ⟨-, rfl⟩ := hm
        omega
      | arr xs =>
        simp only [] at hm
        split at hm
        · simp only [Except.ok.injEq, Prod.mk.injEq] at hm
          obtain ⟨-, rfl⟩ := hm
          omega
        · simp only [Except.ok.injEq, Prod.mk.injEq] at hm
          obtain ⟨-, rfl⟩ := hm
          omega
      | dec d =>
        simp only [] at hm
        simp only [Except.ok.injEq, Prod.mk.injEq] at hm
        obtain ⟨-, rfl⟩ := hm
        omega
      | num d => simp only [] at hm; cases hm
      | str s => simp only [] at hm; cases hm
      | bool b => simp only [] at hm; cases hm
    | indexAccess object index =>
      simp only [] at hm
      rw [exc_bind_ok] at hm
      obtain ⟨⟨ov, st2⟩, ho, hm⟩ := hm
      have h2 := ih object ctx st1 ov st2 ho
      simp only [] at hm
      rw [exc_bind_ok] at hm
      obtain ⟨⟨iv, st3⟩, hi, hm⟩ := hm
      have h3 := ih index ctx st2 iv st3 hi
      simp only [] at hm
      cases ov with
      | null =>
        simp only [] at hm
        split at hm
        · cases hm
        · simp only [Except.ok.injEq, Prod.mk.injEq] at hm
          obtain ⟨-, rfl⟩ := hm
          omega
      | undef =>
        simp only [] at hm
        split at hm
        · cases hm
        · simp only [Except.ok.injEq, Prod.mk.injEq] at hm
          obtain ⟨-, rfl⟩ := hm
          omega
      | arr xs =>
        simp only [] at hm
        rw [exc_bind_ok] at hm
        obtain ⟨idx, -, hm⟩ := hm
        split at hm
        · simp only [Except.ok.injEq, Prod.mk.injEq] at hm
          obtain ⟨-, rfl⟩ := hm
          omega
        · split at hm
          · simp only [Except.ok.injEq, Prod.mk.injEq] at hm
            obtain ⟨-, rfl⟩ := hm
            omega
          · simp only [Except.ok.injEq, Prod.mk.injEq] at hm
            obtain ⟨-, rfl⟩ := hm
            omega
      | obj fields =>
        simp only [] at hm
        simp only [Except.ok.injEq, Prod.mk.injEq] at hm
        obtain ⟨-, rfl⟩ := hm
        omega
      | dec d =>
        simp only [] at hm
        simp only [Except.ok.injEq, Prod.mk.injEq] at hm
        obtain ⟨-, rfl⟩ := hm
        omega
      | num d => simp only [] at hm; cases hm
      | str s => simp only [] at hm; cases hm
      | bool b => simp only [] at hm; cases hm

/-- C10: within one evaluation the recursion-depth counter strictly grows at
every `evalNode` dispatch and is never decremented (part 1), so MaxRecursion
is governed by the cumulative number of node visits: a flat 100-element array
literal (101 visits) fails with `MaxRecursion 100` under the default limit
(part 2) while the 99-element one (100 visits) succeeds (part 3). -/
theorem C10_recursion_counter :
    (∀ (E : Evaluator) (fuel : Nat) (node : AST) (ctx : EvalCtx) (st : EvalSt)
        (v : Value) (st' : EvalSt),
        evalNode E fuel node ctx st = .ok (v, st') →
        st.recursionDepth < st'.recursionDepth) ∧
    ((Evaluator.ofConfig builtinFunctions {}).evaluate
        ("[" ++ String.intercalate "," (List.replicate 100 "1") ++ "]") ⟨[], []⟩).error
      = some (.maxRecursion 100) ∧
    ((Evaluator.ofConfig builtinFunctions {}).evaluate
        ("[" ++ String.intercalate "," (List.replicate 99 "1") ++ "]") ⟨[], []⟩).success
      = true :=
  ⟨evalNode_depth_lt, by rfl, by rfl⟩

theorem C10_recursion_counter_witness :
    ({} : EvalSt).recursionDepth < ({ recursionDepth := 1 } : EvalSt).recursionDepth :=
  C10_recursion_counter.1 (Evaluator.ofConfig builtinFunctions {}) 1
    (.numberLit ⟨1, 0⟩) ⟨[], []⟩ {} (.num ⟨1, 0⟩) { recursionDepth := 1 } (by rfl)



/-! ## Correctness of `topologicalSort` and `findCycle` (claims C1 and C2) -/

theorem mem_addUniq {l : List String} {x y : String} :
    y ∈ addUniq l x ↔ y ∈ l ∨ y = x := by
  unfold addUniq; split
  · constructor
    · exact fun h => Or.inl h
    · rintro (h | rfl) <;> assumption
  · simp [List.mem_append]

theorem addUniq_nodup {l : List String} {x : String} (h : l.Nodup) :
    (addUniq l x).Nodup := by
  unfold addUniq; split
  · exact h
  · next hx => simp [List.nodup_append, h, hx]

theorem aGet_cons {α : Type} {p : String × α} {rest : List (String × α)} {k : String} :
    aGet (p :: rest) k = if p.1 = k then some p.2 else aGet rest k := by
  unfold aGet
  by_cases h : p.1 = k
  · rw [List.find?_cons_of_pos] <;> simp [h]
  · rw [List.find?_cons_of_neg] <;> simp [h]

theorem aGet_eq_none {α : Type} {m : List (String × α)} {k : String} :
    aGet m k = none ↔ k ∉ m.map Prod.fst := by
  induction m with
  | nil => simp [aGet]
  | cons p rest ih =>
    obtain ⟨a, b⟩ := p
    rw [aGet_cons]
    by_cases h : a = k
    · subst h; simp
    · rw [if_neg h, ih]
      simp only [List.map_cons, List.mem_cons]
      constructor
      · intro hn hc
        rcases hc with hc | hc
        · exact h hc.symm
        · exact hn hc
      · exact fun hn hc => hn (Or.inr hc)

theorem aGet_mem {α : Type} {m : List (String × α)} {k : String} {v : α}
    (h : aGet m k = some v) : (k, v) ∈ m := by
  induction m with
  | nil => simp [aGet] at h
  | cons p rest ih =>
    obtain ⟨a, b⟩ := p
    rw [aGet_cons] at h
    split at h
    · next he =>
      subst he
      injection h with h
      subst h
      exact List.mem_cons_self _ _
    · exact List.mem_cons_of_mem _ (ih h)

theorem mem_aGet {α : Type} {m : List (String × α)} {k : String} {v : α}
    (hnd : (m.map Prod.fst).Nodup) (h : (k, v) ∈ m) : aGet m k = some v := by
  induction m with
  | nil => cases h
  | cons p rest ih =>
    obtain ⟨a, b⟩ := p
    simp only [List.map_cons, List.nodup_cons] at hnd
    rw [aGet_cons]
    rcases List.mem_cons.mp h with h1 | h1
    · cases h1; simp
    · have hk : a ≠ k := by
        intro he; subst he
        exact hnd.1 (by simpa using List.mem_map_of_mem Prod.fst h1)
      rw [if_neg hk]
      exact ih hnd.2 h1

theorem isSome_aGet {α : Type} {m : List (String × α)} {k : String} :
    (aGet m k).isSome ↔ k ∈ m.map Prod.fst := by
  cases hm : aGet m k with
  | none => simpa using aGet_eq_none.mp hm
  | some v =>
    simp only [Option.isSome_some, true_iff]
    have := aGet_mem hm
    simpa using List.mem_map_of_mem Prod.fst this

theorem aGet_append_right {α : Type} {m₁ m₂ : List (String × α)} {k : String}
    (h : aGet m₁ k = none) : aGet (m₁ ++ m₂) k = aGet m₂ k := by
  induction m₁ with
  | nil => simp
  | cons p rest ih =>
    rw [aGet_cons] at h
    rw [List.cons_append, aGet_cons]
    split at h
    · cases h
    · next hne => rw [if_neg hne]; exact ih h

theorem aGet_map_if_self {α : Type} {m : List (String × α)} {k : String} {v : α} :
    aGet (m.map (fun p => if p.1 == k then (p.1, v) else p)) k
      = if (aGet m k).isSome then some v else none := by
  induction m with
  | nil => simp [aGet]
  | cons p rest ih =>
    obtain ⟨a, b⟩ := p
    by_cases h : a = k
    · subst h
      simp only [List.map_cons, beq_self_eq_true, if_true]
      rw [aGet_cons, aGet_cons]
      simp
    · have hb : ((a, b).1 == k) = false := by simpa using h
      simp only [List.map_cons, hb, Bool.false_eq_true, if_false]
      rw [aGet_cons, aGet_cons, if_neg h, if_neg h, ih]

theorem aGet_map_if_ne {α : Type} {m : List (String × α)} {k k' : String} {v : α}
    (hne : k' ≠ k) :
    aGet (m.map (fun p => if p.1 == k then (p.1, v) else p)) k' = aGet m k' := by
  induction m with
  | nil => simp [aGet]
  | cons p rest ih =>
    obtain ⟨a, b⟩ := p
    by_cases h : a = k
    · subst h
      simp only [List.map_cons, beq_self_eq_true, if_true]
      rw [aGet_cons, aGet_cons, if_neg (fun he => hne he.symm),
        if_neg (fun he => hne he.symm)]
      exact ih
    · have hb : ((a, b).1 == k) = false := by simpa using h
      simp only [List.map_cons, hb, Bool.false_eq_true, if_false]
      rw [aGet_cons, aGet_cons, ih]

theorem aGet_append_left {α : Type} {m₁ m₂ : List (String × α)} {k : String} {v : α}
    (h : aGet m₁ k = some v) : aGet (m₁ ++ m₂) k = some v := by
  induction m₁ with
  | nil => simp [aGet] at h
  | cons p rest ih =>
    rw [aGet_cons] at h
    rw [List.cons_append, aGet_cons]
    split at h
    · next he => rw [if_pos he]; exact h
    · next he => rw [if_neg he]; exact ih h

theorem aGet_aSet_self {α : Type} {m : List (String × α)} {k : String} {v : α} :
    aGet (aSet m k v) k = some v := by
  unfold aSet
  split
  · next hs => rw [aGet_map_if_self]; simp [aGet, Option.isSome_map] at hs ⊢; exact hs
  · next hs =>
    have hn : aGet m k = none := by
      unfold aGet
      cases hf : m.find? (fun p => p.1 == k) with
      | none => rfl
      | some p => rw [hf] at hs; simp at hs
    rw [aGet_append_right hn, aGet_cons]
    simp

theorem aGet_aSet_ne {α : Type} {m : List (String × α)} {k k' : String} {v : α}
    (hne : k' ≠ k) : aGet (aSet m k v) k' = aGet m k' := by
  unfold aSet
  split
  · exact aGet_map_if_ne hne
  · cases hm : aGet m k' with
    | none =>
      rw [aGet_append_right hm, aGet_cons, if_neg (fun h => hne h.symm)]
      simp [aGet]
    | some w => rw [aGet_append_left hm]

theorem keys_aSet_of_mem {α : Type} {m : List (String × α)} {k : String} {v : α}
    (h : k ∈ m.map Prod.fst) : (aSet m k v).map Prod.fst = m.map Prod.fst := by
  unfold aSet
  have hs : (m.find? (fun p => p.1 == k)).isSome := by
    have := isSome_aGet (m := m) (k := k) |>.mpr h
    simpa [aGet, Option.isSome_map] using this
  rw [if_pos hs, List.map_map]
  apply List.map_congr_left
  intro p _
  by_cases hp : p.1 = k
  · simp [hp]
  · simp [hp, Function.comp]

theorem aGet_map_const {α : Type} {l : List String} {c : α} {x : String} :
    aGet (l.map (fun n => (n, c))) x = if x ∈ l then some c else none := by
  induction l with
  | nil => simp [aGet]
  | cons a rest ih =>
    rw [List.map_cons, aGet_cons]
    by_cases h : a = x
    · subst h; simp
    · rw [if_neg h, ih]
      by_cases h2 : x ∈ rest
      · simp [h2]
      · have hx : x ∉ a :: rest := by
          intro hc
          rcases List.mem_cons.mp hc with hc | hc
          · exact h hc.symm
          · exact h2 hc
        rw [if_neg h2, if_neg hx]

theorem fold_aSet_get_not_mem {α β : Type} (f : String × β → α) :
    ∀ (es : List (String × β)) (m : List (String × α)) (x : String),
      x ∉ es.map Prod.fst →
      aGet (es.foldl (fun m p => aSet m p.1 (f p)) m) x = aGet m x := by
  intro es
  induction es with
  | nil => intro m x _; rfl
  | cons e rest ih =>
    intro m x hx
    simp only [List.map_cons, List.mem_cons, not_or] at hx
    rw [List.foldl_cons, ih _ _ hx.2, aGet_aSet_ne hx.1]

theorem fold_aSet_get {α β : Type} (f : String × β → α) :
    ∀ (es : List (String × β)) (m : List (String × α)) (x : String),
      (es.map Prod.fst).Nodup →
      aGet (es.foldl (fun m p => aSet m p.1 (f p)) m) x =
        (match es.find? (fun p => p.1 == x) with
          | some p => some (f p)
          | none => aGet m x) := by
  intro es
  induction es with
  | nil => intro m x _; rfl
  | cons e rest ih =>
    intro m x hnd
    simp only [List.map_cons, List.nodup_cons] at hnd
    rw [List.foldl_cons]
    by_cases h : e.1 = x
    · rw [List.find?_cons_of_pos _ (by simpa using h)]
      subst h
      rw [fold_aSet_get_not_mem _ _ _ _ hnd.1, aGet_aSet_self]
    · rw [List.find?_cons_of_neg _ (by simpa using h), ih _ _ hnd.2]
      cases rest.find? (fun p => p.1 == x) with
      | some p => rfl
      | none => exact aGet_aSet_ne (fun he => h he.symm)

theorem fold_aSet_keys {α β : Type} (f : String × β → α) :
    ∀ (es : List (String × β)) (m : List (String × α)),
      (∀ p ∈ es, p.1 ∈ m.map Prod.fst) →
      (es.foldl (fun m p => aSet m p.1 (f p)) m).map Prod.fst = m.map Prod.fst := by
  intro es
  induction es with
  | nil => intro m _; rfl
  | cons e rest ih =>
    intro m hmem
    rw [List.foldl_cons, ih _ (fun p hp => by
      rw [keys_aSet_of_mem (hmem e (List.mem_cons_self _ _))]
      exact hmem p (List.mem_cons_of_mem _ hp)),
      keys_aSet_of_mem (hmem e (List.mem_cons_self _ _))]

namespace DGraph

theorem inDegreeMap_keys {g : DGraph} (hwf : WF g) :
    (inDegreeMap g).map Prod.fst = g.nodes := by
  unfold inDegreeMap
  rw [fold_aSet_keys (fun p => ((p.2.filter (fun d => g.nodes.contains d)).length : Int))
    g.edges _ (fun p hp => by simpa using hwf.2.2.1 p hp)]
  rw [List.map_map]
  exact List.map_id g.nodes

theorem inDegreeMap_get {g : DGraph} (hwf : WF g) (x : String) :
    aGet (inDegreeMap g) x =
      if x ∈ g.nodes then some ((validDeps g x).length : Int) else none := by
  unfold inDegreeMap
  rw [fold_aSet_get (fun p => ((p.2.filter (fun d => g.nodes.contains d)).length : Int))
    g.edges _ x hwf.2.1]
  cases hf : g.edges.find? (fun p => p.1 == x) with
  | some p =>
    have hpx : p.1 = x := by simpa using List.find?_some hf
    have hpm : p ∈ g.edges := List.mem_of_find?_eq_some hf
    have hdeps : g.depsOf x = p.2 := by
      unfold depsOf aGet
      rw [hf]
      rfl
    rw [if_pos (hpx ▸ hwf.2.2.1 p hpm)]
    unfold validDeps
    rw [hdeps]
  | none =>
    have hdeps : g.depsOf x = [] := by
      unfold depsOf aGet
      rw [hf]
      rfl
    rw [aGet_map_const]
    unfold validDeps
    rw [hdeps]
    by_cases h : x ∈ g.nodes <;> simp [h]

end DGraph

namespace DGraph

theorem depFold_keys (w : String) :
    ∀ (ds : List String) (m : List (String × List String)),
      (ds.foldl (fun m dep =>
          if (aGet m dep).isSome then aSet m dep (addUniq ((aGet m dep).getD []) w)
          else m) m).map Prod.fst = m.map Prod.fst := by
  intro ds
  induction ds with
  | nil => intro m; rfl
  | cons d rest ih =>
    intro m
    rw [List.foldl_cons, ih]
    split
    · next hs => exact keys_aSet_of_mem (isSome_aGet.mp hs)
    · rfl

theorem depFold_mono (w : String) :
    ∀ (ds : List String) (m : List (String × List String)) (q x : String),
      x ∈ (aGet m q).getD [] →
      x ∈ (aGet (ds.foldl (fun m dep =>
          if (aGet m dep).isSome then aSet m dep (addUniq ((aGet m dep).getD []) w)
          else m) m) q).getD [] := by
  intro ds
  induction ds with
  | nil => intro m q x h; exact h
  | cons d rest ih =>
    intro m q x h
    rw [List.foldl_cons]
    apply ih
    split
    · by_cases hq : q = d
      · subst hq
        rw [aGet_aSet_self]
        simp only [Option.getD_some]
        exact mem_addUniq.mpr (Or.inl h)
      · rw [aGet_aSet_ne hq]; exact h
    · exact h

theorem depFold_complete (w : String) :
    ∀ (ds : List String) (m : List (String × List String)) (d : String),
      d ∈ ds → d ∈ m.map Prod.fst →
      w ∈ (aGet (ds.foldl (fun m dep =>
          if (aGet m dep).isSome then aSet m dep (addUniq ((aGet m dep).getD []) w)
          else m) m) d).getD [] := by
  intro ds
  induction ds with
  | nil => intro m d h; cases h
  | cons e rest ih =>
    intro m d hd hdm
    rw [List.foldl_cons]
    rcases List.mem_cons.mp hd with rfl | hd
    · apply depFold_mono
      rw [if_pos (isSome_aGet.mpr hdm), aGet_aSet_self]
      simp only [Option.getD_some]
      exact mem_addUniq.mpr (Or.inr rfl)
    · apply ih _ _ hd
      split
      · next hs => rw [keys_aSet_of_mem (isSome_aGet.mp hs)]; exact hdm
      · exact hdm

theorem depFold_sound (w : String) (P : String → String → Prop) :
    ∀ (ds : List String) (m : List (String × List String)),
      (∀ q l, aGet m q = some l → l.Nodup ∧ ∀ x ∈ l, P q x) →
      (∀ d ∈ ds, P d w) →
      ∀ q l, aGet (ds.foldl (fun m dep =>
          if (aGet m dep).isSome then aSet m dep (addUniq ((aGet m dep).getD []) w)
          else m) m) q = some l → l.Nodup ∧ ∀ x ∈ l, P q x := by
  intro ds
  induction ds with
  | nil => intro m hm _ q l h; exact hm q l h
  | cons d rest ih =>
    intro m hm hds
    rw [List.foldl_cons]
    apply ih
    · intro q l h
      split at h
      · next hs =>
        by_cases hq : q = d
        · subst hq
          rw [aGet_aSet_self] at h
          injection h with h
          subst h
          cases hl : aGet m q with
          | none => rw [hl] at hs; cases hs
          | some old =>
            have hold := hm q old hl
            simp only [Option.getD_some]
            refine ⟨addUniq_nodup hold.1, ?_⟩
            intro x hx
            rcases mem_addUniq.mp hx with hx | rfl
            · exact hold.2 x hx
            · exact hds q (List.mem_cons_self _ _)
        · rw [aGet_aSet_ne hq] at h
          exact hm q l h
      · exact hm q l h
    · exact fun e he => hds e (List.mem_cons_of_mem _ he)

theorem dependentsMap_keys (g : DGraph) :
    (dependentsMap g).map Prod.fst = g.nodes := by
  unfold dependentsMap
  have : ∀ (es : List (String × List String)) (m : List (String × List String)),
      (es.foldl (fun m p =>
        p.2.foldl (fun m dep =>
          if (aGet m dep).isSome then aSet m dep (addUniq ((aGet m dep).getD []) p.1)
          else m) m) m).map Prod.fst = m.map Prod.fst := by
    intro es
    induction es with
    | nil => intro m; rfl
    | cons e rest ih => intro m; rw [List.foldl_cons, ih, depFold_keys]
  rw [this, List.map_map]
  exact List.map_id g.nodes

theorem outerFold_mono :
    ∀ (es : List (String × List String)) (m : List (String × List String)) (q x : String),
      x ∈ (aGet m q).getD [] →
      x ∈ (aGet (es.foldl (fun m p =>
        p.2.foldl (fun m dep =>
          if (aGet m dep).isSome then aSet m dep (addUniq ((aGet m dep).getD []) p.1)
          else m) m) m) q).getD [] := by
  intro es
  induction es with
  | nil => intro m q x h; exact h
  | cons e rest ih =>
    intro m q x h
    rw [List.foldl_cons]
    exact ih _ _ _ (depFold_mono _ _ _ _ _ h)

theorem dependentsMap_sound {g : DGraph} (hwf : WF g) :
    ∀ q l, aGet (dependentsMap g) q = some l →
      l.Nodup ∧ ∀ x ∈ l, q ∈ g.depsOf x ∧ x ∈ g.nodes := by
  unfold dependentsMap
  have main : ∀ (es : List (String × List String)), (∀ p ∈ es, p ∈ g.edges) →
      ∀ (m : List (String × List String)),
      (∀ q l, aGet m q = some l → l.Nodup ∧ ∀ x ∈ l, q ∈ g.depsOf x ∧ x ∈ g.nodes) →
      ∀ q l, aGet (es.foldl (fun m p =>
        p.2.foldl (fun m dep =>
          if (aGet m dep).isSome then aSet m dep (addUniq ((aGet m dep).getD []) p.1)
          else m) m) m) q = some l →
        l.Nodup ∧ ∀ x ∈ l, q ∈ g.depsOf x ∧ x ∈ g.nodes := by
    intro es
    induction es with
    | nil => intro _ m hm q l h; exact hm q l h
    | cons e rest ih =>
      intro hes m hm
      rw [List.foldl_cons]
      apply ih (fun p hp => hes p (List.mem_cons_of_mem _ hp))
      apply depFold_sound
      · exact hm
      · intro d hd
        have he : e ∈ g.edges := hes e (List.mem_cons_self _ _)
        have hdeps : g.depsOf e.1 = e.2 := by
          unfold depsOf
          rw [mem_aGet hwf.2.1 (by simpa using he)]
          rfl
        exact ⟨hdeps ▸ hd, hwf.2.2.1 e he⟩
  apply main g.edges (fun p hp => hp)
  intro q l h
  rw [aGet_map_const] at h
  split at h
  · injection h with h
    subst h
    exact ⟨List.nodup_nil, by intro x hx; cases hx⟩
  · cases h

theorem dependentsMap_complete {g : DGraph} (hwf : WF g) {x q : String}
    (hq : q ∈ g.depsOf x) (hqn : q ∈ g.nodes) :
    x ∈ (aGet (dependentsMap g) q).getD [] := by
  have hx : (x, g.depsOf x) ∈ g.edges := by
    unfold depsOf at hq ⊢
    cases he : aGet g.edges x with
    | none => rw [he] at hq; cases hq
    | some l => simpa using aGet_mem he
  unfold dependentsMap
  have main : ∀ (es : List (String × List String)) (m : List (String × List String)),
      (x, g.depsOf x) ∈ es → q ∈ m.map Prod.fst →
      x ∈ (aGet (es.foldl (fun m p =>
        p.2.foldl (fun m dep =>
          if (aGet m dep).isSome then aSet m dep (addUniq ((aGet m dep).getD []) p.1)
          else m) m) m) q).getD [] := by
    intro es
    induction es with
    | nil => intro m h; cases h
    | cons e rest ih =>
      intro m hmem hkeys
      rw [List.foldl_cons]
      rcases List.mem_cons.mp hmem with he | he
      · apply outerFold_mono
        rw [← he]
        exact depFold_complete _ _ _ _ hq hkeys
      · apply ih _ he
        rw [depFold_keys]
        exact hkeys
  apply main g.edges _ hx
  rw [List.map_map]
  have hid : List.map (Prod.fst ∘ fun n => (n, ([] : List String))) g.nodes = g.nodes :=
    List.map_id g.nodes
  rw [hid]
  exact hqn

end DGraph

namespace DGraph

theorem kahnStep_fold (visited : List String) :
    ∀ (deps : List String) (m : List (String × Int)) (out : List String),
      deps.Nodup →
      (∀ x, aGet (deps.foldl
          (fun acc dep =>
            let nd := ((aGet acc.1 dep).getD 0) - 1
            let inDeg := aSet acc.1 dep nd
            if nd = 0 ∧ dep ∉ visited then (inDeg, acc.2 ++ [dep])
            else (inDeg, acc.2)) (m, out)).1 x =
        if x ∈ deps then some ((aGet m x).getD 0 - 1) else aGet m x) ∧
      (deps.foldl
          (fun acc dep =>
            let nd := ((aGet acc.1 dep).getD 0) - 1
            let inDeg := aSet acc.1 dep nd
            if nd = 0 ∧ dep ∉ visited then (inDeg, acc.2 ++ [dep])
            else (inDeg, acc.2)) (m, out)).2 =
        out ++ deps.filter (fun d => decide (((aGet m d).getD 0 - 1 = 0) ∧ d ∉ visited)) := by
  intro deps
  induction deps with
  | nil => intro m out _; exact ⟨fun x => by simp, by simp⟩
  | cons d ds ih =>
    intro m out hnd
    simp only [List.nodup_cons] at hnd
    rw [List.foldl_cons]
    simp only []
    have hm1 : ∀ x, x ≠ d →
        aGet (aSet m d ((aGet m d).getD 0 - 1)) x = aGet m x :=
      fun x hx => aGet_aSet_ne hx
    have hm1d : aGet (aSet m d ((aGet m d).getD 0 - 1)) d
        = some ((aGet m d).getD 0 - 1) := aGet_aSet_self
    have hfilter : ∀ (m' : List (String × Int)),
        (∀ x, x ∈ ds → aGet m' x = aGet m x) →
        ds.filter (fun e => decide (((aGet m' e).getD 0 - 1 = 0) ∧ e ∉ visited)) =
        ds.filter (fun e => decide (((aGet m e).getD 0 - 1 = 0) ∧ e ∉ visited)) := by
      intro m' hsame
      apply List.filter_congr
      intro e he
      rw [hsame e he]
    by_cases hc : ((aGet m d).getD 0 - 1 = 0) ∧ d ∉ visited
    · rw [if_pos hc]
      obtain ⟨hv, ho⟩ := ih (aSet m d ((aGet m d).getD 0 - 1)) (out ++ [d]) hnd.2
      constructor
      · intro x
        rw [hv x]
        by_cases hxd : x = d
        · subst hxd
          rw [if_neg hnd.1, hm1d]
          simp
        · by_cases hxs : x ∈ ds
          · rw [if_pos hxs, if_pos (List.mem_cons_of_mem _ hxs), hm1 x hxd]
          · rw [if_neg hxs, hm1 x hxd,
              if_neg (by simp [hxs, hxd] : ¬ x ∈ d :: ds)]
      · rw [ho, hfilter _ (fun x hx => hm1 x (fun he => hnd.1 (he ▸ hx)))]
        rw [List.filter_cons_of_pos (by simpa using hc), List.append_assoc]
        rfl
    · rw [if_neg hc]
      obtain ⟨hv, ho⟩ := ih (aSet m d ((aGet m d).getD 0 - 1)) out hnd.2
      constructor
      · intro x
        rw [hv x]
        by_cases hxd : x = d
        · subst hxd
          rw [if_neg hnd.1, hm1d]
          simp
        · by_cases hxs : x ∈ ds
          · rw [if_pos hxs, if_pos (List.mem_cons_of_mem _ hxs), hm1 x hxd]
          · rw [if_neg hxs, hm1 x hxd,
              if_neg (by simp [hxs, hxd] : ¬ x ∈ d :: ds)]
      · rw [ho, hfilter _ (fun x hx => hm1 x (fun he => hnd.1 (he ▸ hx)))]
        rw [List.filter_cons_of_neg (by simpa using hc)]

theorem kahnStep_inDeg {inDeg : List (String × Int)} {visited deps : List String}
    (hnd : deps.Nodup) (x : String) :
    aGet (kahnStep inDeg visited deps).1 x =
      if x ∈ deps then some ((aGet inDeg x).getD 0 - 1) else aGet inDeg x :=
  (kahnStep_fold visited deps inDeg [] hnd).1 x

theorem kahnStep_pushed {inDeg : List (String × Int)} {visited deps : List String}
    (hnd : deps.Nodup) :
    (kahnStep inDeg visited deps).2 =
      deps.filter (fun d => decide (((aGet inDeg d).getD 0 - 1 = 0) ∧ d ∉ visited)) :=
  (kahnStep_fold visited deps inDeg [] hnd).2

end DGraph

theorem contains_iff {V : List String} {x : String} : V.contains x = true ↔ x ∈ V := by
  simp [List.contains]

theorem single_of_length_one {l : List String} (h : l.length = 1) {q : String}
    (hq : q ∈ l) : l = [q] := by
  cases l with
  | nil => cases hq
  | cons a rest =>
    cases rest with
    | nil =>
      rcases List.mem_cons.mp hq with rfl | hq2
      · rfl
      · cases hq2
    | cons b r2 => simp at h

theorem length_filter_erase {l : List String} {x : String} (p : String → Prop)
    [DecidablePred p] :
    l.Nodup → x ∈ l → p x →
    (l.filter (fun y => decide (p y ∧ y ≠ x))).length + 1 =
      (l.filter (fun y => decide (p y))).length := by
  induction l with
  | nil => intro _ h; cases h
  | cons a rest ih =>
    intro hnd hx hpx
    simp only [List.nodup_cons] at hnd
    rcases List.mem_cons.mp hx with rfl | hx2
    · rw [List.filter_cons_of_neg (by simp), List.filter_cons_of_pos (by simpa using hpx)]
      have : rest.filter (fun y => decide (p y ∧ y ≠ x)) =
          rest.filter (fun y => decide (p y)) := by
        apply List.filter_congr
        intro y hy
        have : y ≠ x := fun he => hnd.1 (he ▸ hy)
        simp [this]
      rw [this, List.length_cons]
    · by_cases hpa : p a
      · have hax : a ≠ x := fun he => hnd.1 (he ▸ hx2)
        rw [List.filter_cons_of_pos (by simp [hpa, hax]),
          List.filter_cons_of_pos (by simpa using hpa),
          List.length_cons, List.length_cons]
        rw [← ih hnd.2 hx2 hpx]
      · rw [List.filter_cons_of_neg (by simp [hpa]),
          List.filter_cons_of_neg (by simpa using hpa)]
        exact ih hnd.2 hx2 hpx

theorem idx_append_mem {l t : List String} {a : String} (h : a ∈ l) :
    (l ++ t).indexOf a = l.indexOf a := by
  induction l with
  | nil => cases h
  | cons b rest ih =>
    rw [List.cons_append]
    by_cases hba : b = a
    · subst hba; simp [List.indexOf_cons_self]
    · have hb : ¬ (b == a) = true := by simpa using hba
      rw [List.indexOf_cons, List.indexOf_cons]
      simp only [hb, Bool.false_eq_true, if_false, cond_false]
      rw [ih (by rcases List.mem_cons.mp h with h1 | h1; exact absurd h1.symm hba; exact h1)]

theorem idx_append_fresh {l : List String} {q : String} (h : q ∉ l) :
    (l ++ [q]).indexOf q = l.length := by
  induction l with
  | nil => simp [List.indexOf_cons_self]
  | cons b rest ih =>
    have hbq : ¬ (b == q) = true := by
      simp only [List.mem_cons, not_or] at h
      simpa using fun he => h.1 he.symm
    rw [List.cons_append, List.indexOf_cons]
    simp only [hbq, Bool.false_eq_true, if_false, cond_false]
    rw [ih (fun hq => h (List.mem_cons_of_mem _ hq))]
    rfl

namespace DGraph

theorem depsOf_nodup {g : DGraph} (hwf : WF g) (x : String) : (g.depsOf x).Nodup := by
  unfold depsOf
  cases he : aGet g.edges x with
  | none => exact List.nodup_nil
  | some l => exact hwf.2.2.2 (x, l) (aGet_mem he)

theorem validDeps_nodup {g : DGraph} (hwf : WF g) (x : String) :
    (validDeps g x).Nodup := (depsOf_nodup hwf x).filter _

theorem mem_validDeps {g : DGraph} {x d : String} :
    d ∈ validDeps g x ↔ d ∈ g.depsOf x ∧ d ∈ g.nodes := by
  unfold validDeps
  rw [List.mem_filter]
  simp [contains_iff]

end DGraph

namespace DGraph

theorem kahnLoop_invariant {g : DGraph} (hwf : WF g) :
    ∀ (fuel : Nat) (Q : List String) (D : List (String × Int)) (R V : List String),
      KInv g Q D R V →
      (uList g V).length + 1 ≤ fuel →
      (kahnLoop (dependentsMap g) fuel Q D R V).1
          = (kahnLoop (dependentsMap g) fuel Q D R V).2 ∧
      (kahnLoop (dependentsMap g) fuel Q D R V).2.Nodup ∧
      (∀ x ∈ (kahnLoop (dependentsMap g) fuel Q D R V).2, x ∈ g.nodes) ∧
      (∃ t, (kahnLoop (dependentsMap g) fuel Q D R V).2 = V ++ t) ∧
      (∀ x ∈ g.nodes, x ∉ (kahnLoop (dependentsMap g) fuel Q D R V).2 →
         ∃ d, d ∈ validDeps g x ∧ d ∉ (kahnLoop (dependentsMap g) fuel Q D R V).2) ∧
      (∀ a ∈ (kahnLoop (dependentsMap g) fuel Q D R V).1,
         ∀ b ∈ validDeps g a,
           b ∈ (kahnLoop (dependentsMap g) fuel Q D R V).1 ∧
           (kahnLoop (dependentsMap g) fuel Q D R V).1.indexOf b
             < (kahnLoop (dependentsMap g) fuel Q D R V).1.indexOf a) := by
  intro fuel
  induction fuel with
  | zero => intro Q D R V _ hfuel; omega
  | succ fuel ih =>
    intro Q D R V inv hfuel
    cases Q with
    | nil =>
      simp only [kahnLoop]
      refine ⟨inv.rv, inv.vnd, inv.vsub, ⟨[], by simp⟩, ?_, ?_⟩
      · intro x hx hxv
        by_contra hall
        push_neg at hall
        exact absurd (inv.qcomp x hx hxv hall) (List.not_mem_nil x)
      · exact inv.rv ▸ inv.ord
    | cons q rest =>
      have hqn : q ∈ g.nodes := (inv.qsub q (List.mem_cons_self _ _)).1
      have hqnv : q ∉ V := (inv.qsub q (List.mem_cons_self _ _)).2
      have hstep : kahnLoop (dependentsMap g) (fuel + 1) (q :: rest) D R V =
          kahnLoop (dependentsMap g) fuel
            (rest ++ (kahnStep D (V ++ [q])
              ((aGet (dependentsMap g) q).getD [])).2)
            (kahnStep D (V ++ [q]) ((aGet (dependentsMap g) q).getD [])).1
            (R ++ [q]) (V ++ [q]) := by
        rw [kahnLoop]
        rw [if_neg hqnv]
      rw [hstep]
      -- facts about the dependents list of q
      have hdn : ((aGet (dependentsMap g) q).getD []).Nodup := by
        cases hd : aGet (dependentsMap g) q with
        | none => exact List.nodup_nil
        | some l => exact (dependentsMap_sound hwf q l hd).1
      have hdchar : ∀ x ∈ (aGet (dependentsMap g) q).getD [],
          q ∈ g.depsOf x ∧ x ∈ g.nodes := by
        cases hd : aGet (dependentsMap g) q with
        | none => intro x hx; cases hx
        | some l => exact (dependentsMap_sound hwf q l hd).2
      have hdcomp : ∀ x, q ∈ g.depsOf x → x ∈ (aGet (dependentsMap g) q).getD [] :=
        fun x hx => dependentsMap_complete hwf hx hqn
      have hpush : (kahnStep D (V ++ [q]) ((aGet (dependentsMap g) q).getD [])).2 =
          ((aGet (dependentsMap g) q).getD []).filter
            (fun d => decide (((aGet D d).getD 0 - 1 = 0) ∧ d ∉ V ++ [q])) :=
        kahnStep_pushed hdn
      have hmemV' : ∀ x : String, x ∈ V ++ [q] ↔ x ∈ V ∨ x = q := by
        intro x; simp [List.mem_append]
      -- every pushed node is a fresh node all of whose valid deps lie in V ++ [q]
      have hpush_prop : ∀ x ∈ (kahnStep D (V ++ [q])
          ((aGet (dependentsMap g) q).getD [])).2,
          x ∈ g.nodes ∧ x ∉ V ++ [q] ∧ ∀ d ∈ validDeps g x, d ∈ V ++ [q] := by
        intro x hx
        rw [hpush, List.mem_filter] at hx
        obtain ⟨hxd, hcond⟩ := hx
        have hcond' := of_decide_eq_true hcond
        have hxn : x ∈ g.nodes := (hdchar x hxd).2
        have hxnv : x ∉ V := fun hv => hcond'.2 ((hmemV' x).mpr (Or.inl hv))
        have hdeg := inv.deg x hxn hxnv
        have hq_valid : q ∈ (validDeps g x).filter (fun d => decide (d ∉ V)) := by
          rw [List.mem_filter]
          exact ⟨mem_validDeps.mpr ⟨(hdchar x hxd).1, hqn⟩, by simpa using hqnv⟩
        have hlen : ((validDeps g x).filter (fun d => decide (d ∉ V))).length = 1 := by
          rw [hdeg] at hcond'
          simp only [Option.getD_some] at hcond'
          omega
        have hsingle := single_of_length_one hlen hq_valid
        refine ⟨hxn, hcond'.2, ?_⟩
        intro d hd
        by_cases hdv : d ∈ V
        · exact (hmemV' d).mpr (Or.inl hdv)
        · have : d ∈ (validDeps g x).filter (fun e => decide (e ∉ V)) := by
            rw [List.mem_filter]; exact ⟨hd, by simpa using hdv⟩
          rw [hsingle] at this
          rw [List.mem_singleton.mp this]
          exact (hmemV' q).mpr (Or.inr rfl)
      -- members of rest have all valid deps in V, hence are not pushed
      have hrest_not_push : ∀ x ∈ rest,
          x ∉ (kahnStep D (V ++ [q]) ((aGet (dependentsMap g) q).getD [])).2 := by
        intro x hx hmem
        rw [hpush, List.mem_filter] at hmem
        obtain ⟨hxd, hcond⟩ := hmem
        have hcond' := of_decide_eq_true hcond
        have hxn : x ∈ g.nodes := (inv.qsub x (List.mem_cons_of_mem _ hx)).1
        have hxnv : x ∉ V := (inv.qsub x (List.mem_cons_of_mem _ hx)).2
        have hdeg := inv.deg x hxn hxnv
        have hall : ∀ d ∈ validDeps g x, d ∈ V :=
          inv.qdeps x (List.mem_cons_of_mem _ hx)
        have hzero : ((validDeps g x).filter (fun d => decide (d ∉ V))).length = 0 := by
          rw [List.length_eq_zero]
          rw [List.filter_eq_nil]
          intro d hd
          simpa using hall d hd
        rw [hdeg] at hcond'
        simp only [Option.getD_some, hzero] at hcond'
        omega
      have hVnd : (V ++ [q]).Nodup := by
        rw [List.nodup_append]
        exact ⟨inv.vnd, List.nodup_singleton q, by
          intro a ha hb
          rcases List.mem_singleton.mp hb with rfl
          exact hqnv ha⟩
      have hq_not_rest : q ∉ rest := (List.nodup_cons.mp inv.qnd).1
      have inv' : KInv g
          (rest ++ (kahnStep D (V ++ [q]) ((aGet (dependentsMap g) q).getD [])).2)
          (kahnStep D (V ++ [q]) ((aGet (dependentsMap g) q).getD [])).1
          (R ++ [q]) (V ++ [q]) := by
        refine ⟨by rw [inv.rv], hVnd, ?_, ?_, ?_, ?_, ?_, ?_, ?_⟩
        · intro x hx
          rcases (hmemV' x).mp hx with hx | rfl
          · exact inv.vsub x hx
          · exact hqn
        · intro x hx
          rcases List.mem_append.mp hx with hx1 | hx1
          · refine ⟨(inv.qsub x (List.mem_cons_of_mem _ hx1)).1, ?_⟩
            intro hv
            rcases (hmemV' x).mp hv with hv2 | he
            · exact (inv.qsub x (List.mem_cons_of_mem _ hx1)).2 hv2
            · exact hq_not_rest (he ▸ hx1)
          · exact ⟨(hpush_prop x hx1).1, (hpush_prop x hx1).2.1⟩
        · rw [List.nodup_append]
          refine ⟨(List.nodup_cons.mp inv.qnd).2, ?_, ?_⟩
          · rw [hpush]
            exact hdn.filter _
          · intro a ha hb
            exact hrest_not_push a ha hb
        · intro x hx
          rcases List.mem_append.mp hx with hx | hx
          · intro d hd
            exact (hmemV' d).mpr
              (Or.inl (inv.qdeps x (List.mem_cons_of_mem _ hx) d hd))
          · exact (hpush_prop x hx).2.2
        · intro x hxn hxv
          have hxnv : x ∉ V := fun hv => hxv ((hmemV' x).mpr (Or.inl hv))
          have hxq : x ≠ q := fun he => hxv ((hmemV' x).mpr (Or.inr he))
          rw [kahnStep_inDeg hdn x]
          by_cases hxd : x ∈ (aGet (dependentsMap g) q).getD []
          · rw [if_pos hxd]
            have hdeg := inv.deg x hxn hxnv
            rw [hdeg]
            simp only [Option.getD_some]
            have hfc : (validDeps g x).filter (fun d => decide (d ∉ V ++ [q])) =
                (validDeps g x).filter (fun d => decide (d ∉ V ∧ d ≠ q)) := by
              apply List.filter_congr
              intro d _
              simp [hmemV' d, not_or]
            rw [hfc]
            have herase := length_filter_erase (fun d => d ∉ V)
              (validDeps_nodup hwf x) (mem_validDeps.mpr ⟨(hdchar x hxd).1, hqn⟩) hqnv
            simp only [] at herase
            congr 1
            omega
          · rw [if_neg hxd]
            have hdeg := inv.deg x hxn hxnv
            rw [hdeg]
            have hqx : q ∉ validDeps g x := by
              intro hq
              exact hxd (hdcomp x (mem_validDeps.mp hq).1)
            have : (validDeps g x).filter (fun d => decide (d ∉ V ++ [q])) =
                (validDeps g x).filter (fun d => decide (d ∉ V)) := by
              apply List.filter_congr
              intro d hd
              have hdq : d ≠ q := fun he => hqx (he ▸ hd)
              simp [hmemV' d, hdq]
            rw [this]
        · intro x hxn hxv hall
          have hxnv : x ∉ V := fun hv => hxv ((hmemV' x).mpr (Or.inl hv))
          have hxq : x ≠ q := fun he => hxv ((hmemV' x).mpr (Or.inr he))
          by_cases hqvx : q ∈ validDeps g x
          · apply List.mem_append.mpr
            right
            rw [hpush, List.mem_filter]
            have hxd : x ∈ (aGet (dependentsMap g) q).getD [] :=
              hdcomp x (mem_validDeps.mp hqvx).1
            refine ⟨hxd, decide_eq_true ?_⟩
            have hdeg := inv.deg x hxn hxnv
            have hq_valid : q ∈ (validDeps g x).filter (fun d => decide (d ∉ V)) := by
              rw [List.mem_filter]
              exact ⟨hqvx, by simpa using hqnv⟩
            have hsub : ∀ d ∈ (validDeps g x).filter (fun d => decide (d ∉ V)), d = q := by
              intro d hd
              rw [List.mem_filter] at hd
              have hdv : d ∉ V := by simpa using hd.2
              rcases (hmemV' d).mp (hall d hd.1) with hv | rfl
              · exact absurd hv hdv
              · rfl
            have hone : ((validDeps g x).filter (fun d => decide (d ∉ V))).length = 1 := by
              have hnd2 := (validDeps_nodup hwf x).filter (fun d => decide (d ∉ V))
              cases hf : (validDeps g x).filter (fun d => decide (d ∉ V)) with
              | nil => rw [hf] at hq_valid; cases hq_valid
              | cons a t =>
                cases t with
                | nil => rfl
                | cons b t2 =>
                  exfalso
                  rw [hf] at hsub hnd2
                  have ha := hsub a (List.mem_cons_self _ _)
                  have hb := hsub b (List.mem_cons_of_mem _ (List.mem_cons_self _ _))
                  rw [List.nodup_cons] at hnd2
                  apply hnd2.1
                  rw [ha, ← hb]
                  exact List.mem_cons_self _ _
            rw [hdeg]
            simp only [Option.getD_some, hone]
            exact ⟨by omega, hxv⟩
          · apply List.mem_append.mpr
            left
            have hallV : ∀ d ∈ validDeps g x, d ∈ V := by
              intro d hd
              rcases (hmemV' d).mp (hall d hd) with hv | rfl
              · exact hv
              · exact absurd hd hqvx
            have := inv.qcomp x hxn hxnv hallV
            rcases List.mem_cons.mp this with rfl | hx
            · exact absurd rfl hxq
            · exact hx
        · intro a ha b hb
          rcases List.mem_append.mp ha with ha | ha
          · have hold := inv.ord a ha b hb
            refine ⟨List.mem_append.mpr (Or.inl hold.1), ?_⟩
            rw [idx_append_mem hold.1, idx_append_mem ha]
            exact hold.2
          · rcases List.mem_singleton.mp ha with rfl
            have hbV : b ∈ V := inv.qdeps a (List.mem_cons_self _ _) b hb
            have hbR : b ∈ R := inv.rv ▸ hbV
            refine ⟨List.mem_append.mpr (Or.inl hbR), ?_⟩
            rw [idx_append_mem hbR, idx_append_fresh (inv.rv ▸ hqnv)]
            exact List.indexOf_lt_length.mpr hbR
      have hfuel' : (uList g (V ++ [q])).length + 1 ≤ fuel := by
        have hcount : (uList g (V ++ [q])).length + 1 = (uList g V).length := by
          unfold uList
          have : g.nodes.filter (fun n => decide (n ∉ V ++ [q])) =
              g.nodes.filter (fun n => decide (n ∉ V ∧ n ≠ q)) := by
            apply List.filter_congr
            intro n _
            simp [hmemV' n, not_or]
          rw [this]
          exact length_filter_erase (fun n => n ∉ V) hwf.1 hqn hqnv
        omega
      have hrec := ih _ _ _ _ inv' hfuel'
      refine ⟨hrec.1, hrec.2.1, hrec.2.2.1, ?_, hrec.2.2.2.2.1, hrec.2.2.2.2.2⟩
      obtain ⟨t, ht⟩ := hrec.2.2.2.1
      exact ⟨q :: t, by rw [ht, List.append_assoc]; rfl⟩

end DGraph

theorem iterWalk_length (f : String → String) :
    ∀ (x : String) (n : Nat), (iterWalk f x n).length = n + 1 := by
  intro x n
  induction n generalizing x with
  | zero => rfl
  | succ n ih => simp [iterWalk, ih]

theorem iterWalk_head (f : String → String) (x : String) (n : Nat) :
    (iterWalk f x n).head? = some x := by
  cases n <;> rfl

theorem iterWalk_getLast (f : String → String) :
    ∀ (x : String) (n : Nat), (iterWalk f x n).getLast? = some (f^[n] x) := by
  intro x n
  induction n generalizing x with
  | zero => rfl
  | succ n ih =>
    show (x :: iterWalk f (f x) n).getLast? = _
    rw [List.getLast?_cons, ih (f x)]
    simp [Function.iterate_succ_apply]

theorem iterWalk_chain (f : String → String) (Q : String → Prop)
    (R : String → String → Prop)
    (hstep : ∀ y, Q y → Q (f y) ∧ R y (f y)) :
    ∀ (x : String) (n : Nat), Q x → (iterWalk f x n).Chain' R := by
  intro x n
  induction n generalizing x with
  | zero => intro _; simp [iterWalk]
  | succ n ih =>
    intro hx
    show List.Chain' R (x :: iterWalk f (f x) n)
    rw [List.chain'_cons']
    refine ⟨?_, ih (f x) ((hstep x hx).1)⟩
    intro y hy
    rw [iterWalk_head] at hy
    injection hy with hy
    subst hy
    exact (hstep x hx).2

theorem iterWalk_prop (f : String → String) (Q : String → Prop)
    (hstep : ∀ y, Q y → Q (f y)) :
    ∀ (x : String) (n : Nat), Q x → ∀ y ∈ iterWalk f x n, Q y := by
  intro x n
  induction n generalizing x with
  | zero =>
    intro hx y hy
    rcases List.mem_singleton.mp hy with rfl
    exact hx
  | succ n ih =>
    intro hx y hy
    rcases List.mem_cons.mp hy with rfl | hy
    · exact hx
    · exact ih (f x) (hstep x hx) y hy

namespace DGraph

/-- If every node of a nonempty unvisited region keeps an unvisited valid
dependency, the graph contains a cycle (pigeonhole along the successor
walk). -/
theorem cycle_of_trapped {g : DGraph} (hwf : WF g) {W : List String}
    (hsucc : ∀ x ∈ g.nodes, x ∉ W → ∃ d, d ∈ validDeps g x ∧ d ∉ W)
    {x₀ : String} (hx₀ : x₀ ∈ g.nodes) (hx₀w : x₀ ∉ W) :
    ∃ c, IsCycleList g c := by
  classical
  set Q : String → Prop := fun x => x ∈ g.nodes ∧ x ∉ W with hQ
  have hch : ∀ x, ∃ d, Q x → (d ∈ validDeps g x ∧ Q d) := by
    intro x
    by_cases hx : Q x
    · obtain ⟨d, hd1, hd2⟩ := hsucc x hx.1 hx.2
      exact ⟨d, fun _ => ⟨hd1, ⟨(mem_validDeps.mp hd1).2, hd2⟩⟩⟩
    · exact ⟨x₀, fun h => absurd h hx⟩
  choose f hf using hch
  have hQstep : ∀ y, Q y → Q (f y) := fun y hy => (hf y hy).2
  have hiter : ∀ k, Q (f^[k] x₀) := by
    intro k
    induction k with
    | zero => exact ⟨hx₀, hx₀w⟩
    | succ k ih =>
      rw [Function.iterate_succ_apply']
      exact hQstep _ ih
  have hmaps : ∀ k ∈ Finset.range (g.nodes.length + 1),
      f^[k] x₀ ∈ g.nodes.toFinset := by
    intro k _
    simpa using (hiter k).1
  have hcard : g.nodes.toFinset.card < (Finset.range (g.nodes.length + 1)).card := by
    rw [Finset.card_range]
    have := List.toFinset_card_le g.nodes
    omega
  obtain ⟨i, _, j, _, hij, hfij⟩ :=
    Finset.exists_ne_map_eq_of_card_lt_of_maps_to hcard hmaps
  -- order the collision
  rcases Nat.lt_or_ge i j with hlt | hge
  case _ =>
    refine ⟨iterWalk f (f^[i] x₀) (j - i), ?_, ?_, ?_, ?_⟩
    · rw [iterWalk_length]; omega
    · rw [iterWalk_head, iterWalk_getLast, ← Function.iterate_add_apply]
      have : j - i + i = j := by omega
      rw [this, ← hfij]
    · exact iterWalk_chain f Q (edgeStep g)
        (fun y hy => ⟨(hf y hy).2, (mem_validDeps.mp (hf y hy).1).1,
          (mem_validDeps.mp (hf y hy).1).2⟩)
        _ _ (hiter i)
    · exact fun x hx => (iterWalk_prop f Q hQstep _ _ (hiter i) x hx).1
  case _ =>
    have hlt : j < i := by omega
    refine ⟨iterWalk f (f^[j] x₀) (i - j), ?_, ?_, ?_, ?_⟩
    · rw [iterWalk_length]; omega
    · rw [iterWalk_head, iterWalk_getLast, ← Function.iterate_add_apply]
      have : i - j + j = i := by omega
      rw [this, hfij]
    · exact iterWalk_chain f Q (edgeStep g)
        (fun y hy => ⟨(hf y hy).2, (mem_validDeps.mp (hf y hy).1).1,
          (mem_validDeps.mp (hf y hy).1).2⟩)
        _ _ (hiter j)
    · exact fun x hx => (iterWalk_prop f Q hQstep _ _ (hiter j) x hx).1

end DGraph

namespace DGraph

theorem kahnRun_init_inv {g : DGraph} (hwf : WF g) :
    KInv g (((inDegreeMap g).filter (fun p => p.2 == 0)).map (·.1))
      (inDegreeMap g) [] [] := by
  have hkeys := inDegreeMap_keys hwf
  have hknd : ((inDegreeMap g).map Prod.fst).Nodup := by rw [hkeys]; exact hwf.1
  have hqchar : ∀ x, x ∈ ((inDegreeMap g).filter (fun p => p.2 == 0)).map (·.1) →
      x ∈ g.nodes ∧ validDeps g x = [] := by
    intro x hx
    obtain ⟨p, hp, hpx⟩ := List.mem_map.mp hx
    obtain ⟨hpm, hpz⟩ := List.mem_filter.mp hp
    have hxn : x ∈ g.nodes := by
      rw [← hkeys]
      exact hpx ▸ List.mem_map_of_mem Prod.fst hpm
    refine ⟨hxn, ?_⟩
    have hget := mem_aGet hknd hpm
    rw [hpx] at hget
    rw [inDegreeMap_get hwf x, if_pos hxn] at hget
    injection hget with hget
    have hz : (p.2 : Int) = 0 := by simpa using hpz
    rw [hz] at hget
    have : (validDeps g x).length = 0 := by
      have := hget.symm
      omega
    exact List.length_eq_zero.mp this
  refine ⟨rfl, List.nodup_nil, (by intro x hx; cases hx), ?_, ?_, ?_, ?_, ?_, ?_⟩
  · exact fun x hx => ⟨(hqchar x hx).1, by intro h; cases h⟩
  · have : (((inDegreeMap g).filter (fun p => p.2 == 0)).map (·.1)).Sublist
        ((inDegreeMap g).map Prod.fst) := (List.filter_sublist _).map _
    exact this.nodup hknd
  · intro x hx d hd
    rw [(hqchar x hx).2] at hd
    cases hd
  · intro x hxn _
    rw [inDegreeMap_get hwf x, if_pos hxn]
    have : (validDeps g x).filter (fun d => decide (d ∉ ([] : List String)))
        = validDeps g x := by
      apply List.filter_eq_self.mpr
      intro d _
      simp
    rw [this]
  · intro x hxn _ hall
    have hnil : validDeps g x = [] := by
      cases hv : validDeps g x with
      | nil => rfl
      | cons d t => exact absurd (hall d (hv ▸ List.mem_cons_self _ _)) (by intro h; cases h)
    have hget : aGet (inDegreeMap g) x = some 0 := by
      rw [inDegreeMap_get hwf x, if_pos hxn, hnil]
      rfl
    have hmem := aGet_mem hget
    apply List.mem_map.mpr
    exact ⟨(x, 0), List.mem_filter.mpr ⟨hmem, by simp⟩, rfl⟩
  · intro a ha; cases ha

theorem kahnRun_spec {g : DGraph} (hwf : WF g) :
    (kahnRun g).1 = (kahnRun g).2 ∧
    (kahnRun g).2.Nodup ∧
    (∀ x ∈ (kahnRun g).2, x ∈ g.nodes) ∧
    (∀ x ∈ g.nodes, x ∉ (kahnRun g).2 →
       ∃ d, d ∈ validDeps g x ∧ d ∉ (kahnRun g).2) ∧
    (∀ a ∈ (kahnRun g).1, ∀ b ∈ validDeps g a,
       b ∈ (kahnRun g).1 ∧
       (kahnRun g).1.indexOf b < (kahnRun g).1.indexOf a) := by
  have hfuel : (uList g ([] : List String)).length + 1 ≤ g.nodes.length + 1 := by
    have := List.length_filter_le (fun n => decide (n ∉ ([] : List String))) g.nodes
    unfold uList
    omega
  have h := kahnLoop_invariant hwf (g.nodes.length + 1)
    (((inDegreeMap g).filter (fun p => p.2 == 0)).map (·.1))
    (inDegreeMap g) [] [] (kahnRun_init_inv hwf) hfuel
  exact ⟨h.1, h.2.1, h.2.2.1, h.2.2.2.2.1, h.2.2.2.2.2⟩

end DGraph

/-- C1: for every well-formed acyclic graph, `topologicalSort` succeeds with
an order that contains each node exactly once and places every dependency
strictly before its dependent. -/
theorem C1_topological_sort (g : DGraph) (hwf : DGraph.WF g)
    (hacyc : ∀ c, ¬ DGraph.IsCycleList g c) :
    ∃ order, g.topologicalSort = .ok order ∧
      order.Nodup ∧ (∀ n, n ∈ order ↔ n ∈ g.nodes) ∧
      ∀ a b, b ∈ g.depsOf a → b ∈ g.nodes →
        order.indexOf b < order.indexOf a := by
  obtain ⟨hrv, hnd, hsub, hcompl, hord⟩ := DGraph.kahnRun_spec hwf
  have hall : ∀ x ∈ g.nodes, x ∈ (DGraph.kahnRun g).2 := by
    intro x hx
    by_contra hxo
    obtain ⟨d, hd⟩ := hcompl x hx hxo
    obtain ⟨c, hc⟩ := DGraph.cycle_of_trapped hwf hcompl hx hxo
    exact hacyc c hc
  have hlen : (DGraph.kahnRun g).1.length = g.nodes.length := by
    rw [hrv]
    apply Nat.le_antisymm
    · exact (List.subperm_of_subset hnd (fun x hx => hsub x hx)).length_le
    · exact (List.subperm_of_subset hwf.1 (fun x hx => hall x hx)).length_le
  refine ⟨(DGraph.kahnRun g).1, ?_, hrv ▸ hnd, ?_, ?_⟩
  · unfold DGraph.topologicalSort
    have hpair : DGraph.kahnRun g = ((DGraph.kahnRun g).1, (DGraph.kahnRun g).2) := rfl
    rw [hpair]
    simp only []
    rw [if_neg (by rw [hlen]; exact fun h => h rfl)]
  · intro n
    constructor
    · intro hn; exact hsub n (hrv ▸ hn)
    · intro hn; exact hrv ▸ hall n hn
  · intro a b hdep hbn
    have han : a ∈ g.nodes := by
      have : aGet g.edges a ≠ none := by
        intro hnone
        unfold DGraph.depsOf at hdep
        rw [hnone] at hdep
        cases hdep
      cases he : aGet g.edges a with
      | none => exact absurd he this
      | some l => exact hwf.2.2.1 (a, l) (aGet_mem he)
    have haR : a ∈ (DGraph.kahnRun g).1 := hrv ▸ hall a han
    have hbv : b ∈ DGraph.validDeps g a := DGraph.mem_validDeps.mpr ⟨hdep, hbn⟩
    exact (hord a haR b hbv).2

/-- C1 (witness): the single-node edgeless graph is well formed and
acyclic, and the theorem yields its evaluation order. -/
theorem C1_topological_sort_witness :
    ∃ order, DGraph.topologicalSort ⟨["a"], []⟩ = .ok order ∧
      order.Nodup ∧ (∀ n, n ∈ order ↔ n ∈ (⟨["a"], []⟩ : DGraph).nodes) ∧
      ∀ a b, b ∈ (⟨["a"], []⟩ : DGraph).depsOf a → b ∈ (⟨["a"], []⟩ : DGraph).nodes →
        order.indexOf b < order.indexOf a :=
  C1_topological_sort ⟨["a"], []⟩ (by decide)
    (by
      intro c hc
      obtain ⟨hlen, _, hch, _⟩ := hc
      cases c with
      | nil => simp at hlen
      | cons x t =>
        cases t with
        | nil => simp at hlen
        | cons y t2 =>
          rw [List.chain'_cons] at hch
          have hedge := hch.1
          have : y ∈ DGraph.depsOf ⟨["a"], []⟩ x := hedge.1
          cases this)

theorem addUniq_of_not_mem {l : List String} {x : String} (h : x ∉ l) :
    addUniq l x = l ++ [x] := by
  unfold addUniq
  rw [if_neg h]

theorem sum_filter_erase (f : String → Nat) {l : List String} {x : String}
    (p : String → Prop) [DecidablePred p] :
    l.Nodup → x ∈ l → p x →
    ((l.filter (fun y => decide (p y ∧ y ≠ x))).map f).sum + f x =
      ((l.filter (fun y => decide (p y))).map f).sum := by
  induction l with
  | nil => intro _ h; cases h
  | cons a rest ih =>
    intro hnd hx hpx
    simp only [List.nodup_cons] at hnd
    rcases List.mem_cons.mp hx with rfl | hx2
    · rw [List.filter_cons_of_neg (by simp), List.filter_cons_of_pos (by simpa using hpx)]
      have : rest.filter (fun y => decide (p y ∧ y ≠ x)) =
          rest.filter (fun y => decide (p y)) := by
        apply List.filter_congr
        intro y hy
        have : y ≠ x := fun he => hnd.1 (he ▸ hy)
        simp [this]
      rw [this, List.map_cons, List.sum_cons]
      omega
    · by_cases hpa : p a
      · have hax : a ≠ x := fun he => hnd.1 (he ▸ hx2)
        rw [List.filter_cons_of_pos (by simp [hpa, hax]),
          List.filter_cons_of_pos (by simpa using hpa),
          List.map_cons, List.sum_cons, List.map_cons, List.sum_cons]
        have := ih hnd.2 hx2 hpx
        omega
      · rw [List.filter_cons_of_neg (by simp [hpa]),
          List.filter_cons_of_neg (by simpa using hpa)]
        exact ih hnd.2 hx2 hpx

namespace DGraph

theorem dfsPot_le (g : DGraph) (visited : List String) :
    dfsPot g visited + 1 ≤ dfsFuel g := by
  unfold dfsPot dfsFuel uList
  have hsub : ((g.nodes.filter (fun n => decide (n ∉ visited))).map
      (fun n => 1 + (g.depsOf n).length)).Sublist
      (g.nodes.map (fun n => 1 + (g.depsOf n).length)) :=
    (List.filter_sublist _).map _
  have := hsub.sum_le_sum (fun a _ => Nat.zero_le a)
  omega

theorem dfsPot_mono {g : DGraph} {v₁ v₂ : List String}
    (h : ∀ x ∈ v₁, x ∈ v₂) : dfsPot g v₂ ≤ dfsPot g v₁ := by
  unfold dfsPot uList
  have hsub : (g.nodes.filter (fun n => decide (n ∉ v₂))).Sublist
      (g.nodes.filter (fun n => decide (n ∉ v₁))) := by
    apply List.monotone_filter_right
    intro x hx
    simp only [decide_eq_true_eq] at hx ⊢
    exact fun hm => hx (h x hm)
  exact (hsub.map _).sum_le_sum (fun a _ => Nat.zero_le a)

theorem dfsPot_visit {g : DGraph} (hwf : WF g) {visited : List String} {n : String}
    (hn : n ∈ g.nodes) (hnv : n ∉ visited) :
    dfsPot g (addUniq visited n) + (1 + (g.depsOf n).length) = dfsPot g visited := by
  unfold dfsPot uList
  have hfc : g.nodes.filter (fun m => decide (m ∉ addUniq visited n)) =
      g.nodes.filter (fun m => decide (m ∉ visited ∧ m ≠ n)) := by
    apply List.filter_congr
    intro m _
    simp [mem_addUniq, not_or]
  rw [hfc]
  exact sum_filter_erase (fun m => 1 + (g.depsOf m).length) (fun m => m ∉ visited)
    hwf.1 hn hnv

theorem dfsPot_lower {g : DGraph} {visited : List String} {n : String}
    (hn : n ∈ g.nodes) (hnv : n ∉ visited) :
    1 + (g.depsOf n).length ≤ dfsPot g visited := by
  unfold dfsPot uList
  apply List.le_sum_of_mem
  apply List.mem_map_of_mem
  rw [List.mem_filter]
  exact ⟨hn, by simpa using hnv⟩

theorem reach_closed {g : DGraph} {visited stack : List String}
    (hcl : ∀ x ∈ visited, x ∉ stack → ∀ d ∈ validDeps g x, d ∈ visited ∧ d ∉ stack)
    {x y : String} (hr : Reaches g x y) :
    x ∈ visited → x ∉ stack → y ∈ visited ∧ y ∉ stack := by
  induction hr with
  | refl => exact fun hv hs => ⟨hv, hs⟩
  | step hd _ ih =>
    intro hv hs
    obtain ⟨hv2, hs2⟩ := hcl _ hv hs _ hd
    exact ih hv2 hs2

theorem reaches_of_chain {g : DGraph} :
    ∀ (l : List String), l.Chain' (edgeStep g) →
      ∀ x y, l.head? = some x → l.getLast? = some y → Reaches g x y := by
  intro l
  induction l with
  | nil => intro _ x y h; cases h
  | cons a t ih =>
    intro hch x y hx hy
    have hxa : x = a := by
      simp only [List.head?_cons] at hx
      injection hx with h
      exact h.symm
    subst hxa
    cases t with
    | nil =>
      simp at hy
      rw [← hy]
      exact Reaches.refl _
    | cons b t2 =>
      rw [List.chain'_cons] at hch
      have hedge : b ∈ validDeps g x := mem_validDeps.mpr ⟨hch.1.1, hch.1.2⟩
      rw [List.getLast?_cons_cons] at hy
      exact Reaches.step hedge (ih hch.2 b y rfl hy)

theorem oncycle_of_cycle {g : DGraph} {c : List String} (hc : IsCycleList g c) :
    ∃ x ∈ c, OnCycle g x := by
  obtain ⟨hlen, hhd, hch, _⟩ := hc
  cases c with
  | nil => simp at hlen
  | cons a t =>
    cases t with
    | nil => simp at hlen
    | cons b t2 =>
      rw [List.chain'_cons] at hch
      have hedge : b ∈ validDeps g a := mem_validDeps.mpr ⟨hch.1.1, hch.1.2⟩
      rw [List.getLast?_cons_cons] at hhd
      simp only [List.head?_cons] at hhd
      refine ⟨a, List.mem_cons_self _ _, b, hedge, ?_⟩
      exact reaches_of_chain (b :: t2) hch.2 b a rfl hhd.symm

end DGraph

theorem getLast?_drop_eq {l : List String} :
    ∀ {n : Nat}, n < l.length → (l.drop n).getLast? = l.getLast? := by
  induction l with
  | nil => intro n h; simp at h
  | cons a t ih =>
    intro n h
    cases n with
    | zero => rfl
    | succ n =>
      rw [List.drop_succ_cons]
      have hn : n < t.length := by simpa using h
      rw [ih hn]
      cases t with
      | nil => simp at hn
      | cons b t2 => rw [List.getLast?_cons_cons]

theorem head?_append_left {l₁ l₂ : List String} (h : l₁ ≠ []) :
    (l₁ ++ l₂).head? = l₁.head? := by
  cases l₁ with
  | nil => exact absurd rfl h
  | cons a t => rfl

namespace DGraph

theorem dfsGo_spec {g : DGraph} (hwf : WF g) :
    ∀ (fuel : Nat) (req : DReq) (visited stack path : List String),
      DInv g visited stack path →
      path.Nodup → path.Chain' (edgeStep g) →
      (∀ n, req = .visit n → n ∈ g.nodes ∧ n ∉ visited ∧
        (∀ p, path.getLast? = some p → edgeStep g p n) ∧
        dfsPot g visited + 1 ≤ fuel) →
      (∀ ds, req = .deps ds → (∃ p, path.getLast? = some p ∧
        (∀ d ∈ ds, d ∈ g.depsOf p)) ∧ dfsPot g visited + ds.length + 1 ≤ fuel) →
      (∀ c vis', dfsGo g fuel req visited stack path = (some c, vis') →
        IsCycleList g c) ∧
      (∀ vis', dfsGo g fuel req visited stack path = (none, vis') →
        (∃ t, vis' = visited ++ t) ∧ DInv g vis' stack path ∧
        (∀ n, req = .visit n → n ∈ vis') ∧
        (∀ ds, req = .deps ds → ∀ d ∈ ds, d ∈ g.nodes → d ∈ vis' ∧ d ∉ stack)) := by
  intro fuel
  induction fuel with
  | zero =>
    intro req visited path path _ _ _ hvis hdep
    cases req with
    | visit n => have := (hvis n rfl).2.2.2; omega
    | deps ds => have := (hdep ds rfl).2; omega
  | succ fuel ih =>
    intro req visited path path inv hpnd hpch hvis hdep
    have hse := inv.stack_eq.symm
    subst hse
    cases req with
    | visit n =>
      obtain ⟨hn_node, hn_fresh, hn_edge, hn_fuel⟩ := hvis n rfl
      have hn_stack : n ∉ path := fun hs =>
        hn_fresh (inv.path_sub n hs)
      have hvis1 : addUniq visited n = visited ++ [n] := addUniq_of_not_mem hn_fresh
      have hstk1 : addUniq path n = path ++ [n] := addUniq_of_not_mem hn_stack
      have hbody : dfsGo g (fuel + 1) (.visit n) visited path path =
          dfsGo g fuel (.deps (g.depsOf n)) (addUniq visited n) (addUniq path n)
            (path ++ [n]) := rfl
      rw [hbody, hvis1, hstk1]
      have hpath_eq : path ++ [n] = path ++ [n] := rfl
      -- the inner invariant
      have inv1 : DInv g (visited ++ [n]) (path ++ [n]) (path ++ [n]) := by
        refine ⟨rfl, ?_, ?_, ?_, ?_⟩
        · intro x hx
          rcases List.mem_append.mp hx with hx | hx
          · exact List.mem_append.mpr (Or.inl (inv.path_sub x hx))
          · exact List.mem_append.mpr (Or.inr hx)
        · intro x hx
          rcases List.mem_append.mp hx with hx | hx
          · exact inv.vsub x hx
          · rcases List.mem_singleton.mp hx with rfl
            exact hn_node
        · intro x hxv hxs d hd
          have hxe : x ∈ visited := by
            rcases List.mem_append.mp hxv with hx | hx
            · exact hx
            · rcases List.mem_singleton.mp hx with rfl
              exact absurd (List.mem_append.mpr (Or.inr (List.mem_singleton.mpr rfl))) hxs
          have hxs0 : x ∉ path := fun hs =>
            hxs (List.mem_append.mpr (Or.inl (inv.stack_eq ▸ hs)))
          obtain ⟨hd1, hd2⟩ := inv.fin_closed x hxe hxs0 d hd
          have hdn : d ≠ n := fun he => hn_fresh (he ▸ hd1)
          refine ⟨List.mem_append.mpr (Or.inl hd1), ?_⟩
          intro hds
          rcases List.mem_append.mp hds with hds | hds
          · exact hd2 (inv.stack_eq ▸ hds)
          · exact hdn (List.mem_singleton.mp hds)
        · intro x hxv hxs
          have hxe : x ∈ visited := by
            rcases List.mem_append.mp hxv with hx | hx
            · exact hx
            · rcases List.mem_singleton.mp hx with rfl
              exact absurd (List.mem_append.mpr (Or.inr (List.mem_singleton.mpr rfl))) hxs
          have hxs0 : x ∉ path := fun hs =>
            hxs (List.mem_append.mpr (Or.inl (inv.stack_eq ▸ hs)))
          exact inv.fin_nocycle x hxe hxs0
      have hpnd1 : (path ++ [n]).Nodup := by
        rw [List.nodup_append]
        refine ⟨hpnd, List.nodup_singleton n, ?_⟩
        intro a ha hb
        rcases List.mem_singleton.mp hb with rfl
        exact hn_fresh (inv.path_sub a ha)
      have hpch1 : (path ++ [n]).Chain' (edgeStep g) := by
        rw [List.chain'_append]
        refine ⟨hpch, List.chain'_singleton n, ?_⟩
        intro x hx y hy
        rcases Option.mem_def.mp hy with rfl | h
        · exact hn_edge x (Option.mem_def.mp hx)
      have hrec := ih (.deps (g.depsOf n)) (visited ++ [n]) (path ++ [n]) (path ++ [n])
        inv1 hpnd1 hpch1
        (by intro m hm; cases hm)
        (by
          intro ds hds
          injection hds with hds
          subst hds
          refine ⟨⟨n, ?_, fun d hd => hd⟩, ?_⟩
          · rw [List.getLast?_concat]
          · have hpv := dfsPot_visit hwf hn_node hn_fresh
            rw [hvis1] at hpv
            omega)
      refine ⟨hrec.1, ?_⟩
      intro vis' hres
      obtain ⟨⟨t, ht⟩, inv', _, hds'⟩ := hrec.2 vis' hres
      have hnvis : n ∈ vis' := by
        rw [ht]
        exact List.mem_append.mpr (Or.inl (List.mem_append.mpr
          (Or.inr (List.mem_singleton.mpr rfl))))
      refine ⟨⟨n :: t, by rw [ht, List.append_assoc]; rfl⟩, ?_, ?_, ?_⟩
      · -- recover the invariant w.r.t. the caller frame
        have hdeps_fin : ∀ d ∈ validDeps g n, d ∈ vis' ∧ d ∉ path ++ [n] := by
          intro d hd
          obtain ⟨hd1, hd2⟩ := mem_validDeps.mp hd
          exact hds' (g.depsOf n) rfl d hd1 hd2
        refine ⟨inv.stack_eq, ?_, inv'.vsub, ?_, ?_⟩
        · intro x hx
          rw [ht]
          exact List.mem_append.mpr (Or.inl (List.mem_append.mpr
            (Or.inl (inv.path_sub x hx))))
        · intro x hxv hxs d hd
          by_cases hxn : x = n
          · subst hxn
            obtain ⟨hd1, hd2⟩ := hdeps_fin d hd
            refine ⟨hd1, ?_⟩
            intro hds2
            exact hd2 (List.mem_append.mpr (Or.inl (inv.stack_eq ▸ hds2)))
          · have hxs1 : x ∉ path ++ [n] := by
              intro hm
              rcases List.mem_append.mp hm with hm | hm
              · exact hxs (inv.stack_eq ▸ hm)
              · exact hxn (List.mem_singleton.mp hm)
            obtain ⟨hd1, hd2⟩ := inv'.fin_closed x hxv hxs1 d hd
            refine ⟨hd1, ?_⟩
            intro hds2
            exact hd2 (List.mem_append.mpr (Or.inl (inv.stack_eq ▸ hds2)))
        · intro x hxv hxs
          by_cases hxn : x = n
          · subst hxn
            intro ⟨d, hd, hreach⟩
            obtain ⟨hd1, hd2⟩ := hdeps_fin d hd
            have := reach_closed inv'.fin_closed hreach hd1 hd2
            exact this.2 (List.mem_append.mpr (Or.inr (List.mem_singleton.mpr rfl)))
          · have hxs1 : x ∉ path ++ [n] := by
              intro hm
              rcases List.mem_append.mp hm with hm | hm
              · exact hxs (inv.stack_eq ▸ hm)
              · exact hxn (List.mem_singleton.mp hm)
            exact inv'.fin_nocycle x hxv hxs1
      · intro m hm
        injection hm with hm
        subst hm
        exact hnvis
      · intro ds hds; cases hds
    | deps ds =>
      obtain ⟨⟨p, hpl, hdss⟩, hfuel⟩ := hdep ds rfl
      cases ds with
      | nil =>
        constructor
        · intro c vis' h
          injection h with h1 h2
          cases h1
        · intro vis' h
          injection h with h1 h2
          subst h2
          exact ⟨⟨[], by simp⟩, inv, (by intro m hm; cases hm),
            (by intro ds2 hds2 d hd; injection hds2 with h3; subst h3; cases hd)⟩
      | cons dep ds' =>
        have hbody : dfsGo g (fuel + 1) (.deps (dep :: ds')) visited path path =
            (if ¬ g.nodes.contains dep then dfsGo g fuel (.deps ds') visited path path
             else if ¬ visited.contains dep then
               match dfsGo g fuel (.visit dep) visited path path with
               | (some c, visited) => (some c, visited)
               | (none, visited) => dfsGo g fuel (.deps ds') visited path path
             else if path.contains dep then
               (some (path.drop (path.indexOf dep) ++ [dep]), visited)
             else dfsGo g fuel (.deps ds') visited path path) := rfl
        have hds'pre : ∀ dss, DReq.deps ds' = DReq.deps dss → (∃ q, path.getLast? = some q ∧
            (∀ d ∈ dss, d ∈ g.depsOf q)) ∧ dfsPot g visited + dss.length + 1 ≤ fuel := by
          intro dss hdss2
          injection hdss2 with h3
          subst h3
          refine ⟨⟨p, hpl, fun d hd => hdss d (List.mem_cons_of_mem _ hd)⟩, ?_⟩
          simp only [List.length_cons] at hfuel
          omega
        by_cases hc1 : g.nodes.contains dep
        · -- dep is a node
          have hdep_node : dep ∈ g.nodes := contains_iff.mp hc1
          rw [hbody, if_neg (not_not_intro hc1)]
          by_cases hc2 : visited.contains dep
          · -- dep already visited
            have hdep_vis : dep ∈ visited := contains_iff.mp hc2
            rw [if_neg (not_not_intro hc2)]
            by_cases hc3 : path.contains dep
            · -- back edge: extract the cycle
              have hdep_stack : dep ∈ path := contains_iff.mp hc3
              rw [if_pos hc3]
              have hdep_path : dep ∈ path := inv.stack_eq ▸ hdep_stack
              have hi : path.indexOf dep < path.length :=
                List.indexOf_lt_length.mpr hdep_path
              have hdrop_ne : path.drop (path.indexOf dep) ≠ [] := by
                intro he
                have := List.drop_eq_nil_iff_le.mp he
                omega
              have hp_edge : edgeStep g p dep := by
                refine ⟨hdss dep (List.mem_cons_self _ _), hdep_node⟩
              constructor
              · intro c vis' h
                injection h with h1 h2
                injection h1 with h1
                subst h1
                refine ⟨?_, ?_, ?_, ?_⟩
                · rw [List.length_append]
                  have := List.length_drop (path.indexOf dep) path
                  simp only [this, List.length_singleton]
                  omega
                · rw [head?_append_left hdrop_ne, List.getLast?_concat,
                    List.head?_drop, List.getElem?_eq_getElem hi,
                    List.getElem_indexOf hi]
                · rw [List.chain'_append]
                  refine ⟨hpch.drop _, List.chain'_singleton dep, ?_⟩
                  intro x hx y hy
                  rw [List.head?_cons, Option.mem_def] at hy
                  injection hy with hy
                  subst hy
                  rw [Option.mem_def, getLast?_drop_eq hi, hpl] at hx
                  injection hx with hx
                  subst hx
                  exact hp_edge
                · intro x hx
                  rcases List.mem_append.mp hx with hx | hx
                  · exact inv.vsub x (inv.path_sub x (List.drop_subset _ _ hx))
                  · rcases List.mem_singleton.mp hx with rfl
                    exact hdep_node
              · intro vis' h
                injection h with h1 h2
                cases h1
            · -- visited but finished: skip
              rw [if_neg hc3]
              have hdep_nstack : dep ∉ path := fun hs => hc3 (contains_iff.mpr hs)
              have hrec := ih (.deps ds') visited path path inv hpnd hpch
                (by intro m hm; cases hm) hds'pre
              refine ⟨hrec.1, ?_⟩
              intro vis' hres
              obtain ⟨hext, inv', _, hds2⟩ := hrec.2 vis' hres
              refine ⟨hext, inv', (by intro m hm; cases hm), ?_⟩
              intro ds2 hds3 d hd hdn2
              injection hds3 with h3
              subst h3
              rcases List.mem_cons.mp hd with rfl | hd
              · obtain ⟨t, ht⟩ := hext
                exact ⟨ht ▸ List.mem_append.mpr (Or.inl hdep_vis), hdep_nstack⟩
              · exact hds2 ds' rfl d hd hdn2
          · -- fresh node: recursive visit
            have hdep_fresh : dep ∉ visited := fun hv => hc2 (contains_iff.mpr hv)
            rw [if_pos hc2]
            have hvisrec := ih (.visit dep) visited path path inv hpnd hpch
              (by
                intro m hm
                injection hm with h3
                subst h3
                refine ⟨hdep_node, hdep_fresh, ?_, ?_⟩
                · intro q hq
                  rw [hpl] at hq
                  injection hq with hq
                  subst hq
                  exact ⟨hdss dep (List.mem_cons_self _ _), hdep_node⟩
                · simp only [List.length_cons] at hfuel
                  omega)
              (by intro dss hdss2; cases hdss2)
            cases hrec : dfsGo g fuel (.visit dep) visited path path with
            | mk o vis2 =>
              cases o with
              | some c =>
                simp only []
                constructor
                · intro c2 vis' h
                  injection h with h1 h2
                  injection h1 with h1
                  subst h1
                  exact hvisrec.1 _ _ hrec
                · intro vis' h
                  injection h with h1
                  cases h1
              | none =>
                simp only []
                obtain ⟨⟨t, ht⟩, inv2, hdep_in, _⟩ := hvisrec.2 vis2 hrec
                have hrec2 := ih (.deps ds') vis2 path path inv2 hpnd hpch
                  (by intro m hm; cases hm)
                  (by
                    intro dss hdss2
                    injection hdss2 with h3
                    subst h3
                    refine ⟨⟨p, hpl, fun d hd => hdss d (List.mem_cons_of_mem _ hd)⟩, ?_⟩
                    have hmono : dfsPot g vis2 ≤ dfsPot g visited :=
                      dfsPot_mono (by rw [ht]; exact fun x hx => List.mem_append.mpr (Or.inl hx))
                    simp only [List.length_cons] at hfuel
                    omega)
                refine ⟨hrec2.1, ?_⟩
                intro vis' hres
                obtain ⟨⟨t2, ht2⟩, inv', _, hds2⟩ := hrec2.2 vis' hres
                refine ⟨⟨t ++ t2, by rw [ht2, ht, List.append_assoc]⟩, inv',
                  (by intro m hm; cases hm), ?_⟩
                intro ds2 hds3 d hd hdn2
                injection hds3 with h3
                subst h3
                rcases List.mem_cons.mp hd with he | hd
                · have hdv : dep ∈ vis' :=
                    ht2 ▸ List.mem_append.mpr (Or.inl (hdep_in dep rfl))
                  have hds4 : dep ∉ path := fun hs => hdep_fresh (inv.path_sub dep hs)
                  rw [he]
                  exact ⟨hdv, hds4⟩
                · exact hds2 ds' rfl d hd hdn2
        · -- dep is not a node: skip
          rw [hbody, if_pos (fun h => hc1 h)]
          have hrec := ih (.deps ds') visited path path inv hpnd hpch
            (by intro m hm; cases hm) hds'pre
          refine ⟨hrec.1, ?_⟩
          intro vis' hres
          obtain ⟨hext, inv', _, hds2⟩ := hrec.2 vis' hres
          refine ⟨hext, inv', (by intro m hm; cases hm), ?_⟩
          intro ds2 hds3 d hd hdn2
          injection hds3 with h3
          subst h3
          rcases List.mem_cons.mp hd with rfl | hd
          · exact absurd (contains_iff.mpr hdn2) hc1
          · exact hds2 ds' rfl d hd hdn2

end DGraph

namespace DGraph

theorem findCycleGo_spec {g : DGraph} (hwf : WF g) :
    ∀ (ns visited : List String),
      (∀ n ∈ ns, n ∈ g.nodes) → DInv g visited [] [] →
      (findCycleGo g ns visited = [] →
        ∃ V', DInv g V' [] [] ∧ (∀ x ∈ visited, x ∈ V') ∧ ∀ n ∈ ns, n ∈ V') ∧
      (findCycleGo g ns visited ≠ [] → IsCycleList g (findCycleGo g ns visited)) := by
  intro ns
  induction ns with
  | nil =>
    intro visited _ inv
    constructor
    · intro _
      exact ⟨visited, inv, fun x hx => hx, by intro n hn; cases hn⟩
    · intro h
      exact absurd rfl h
  | cons n ns ih =>
    intro visited hns inv
    have hbody : findCycleGo g (n :: ns) visited =
        (if ¬ visited.contains n then
          match dfsGo g (dfsFuel g) (.visit n) visited [] [] with
          | (some c, _) => c
          | (none, visited) => findCycleGo g ns visited
        else findCycleGo g ns visited) := rfl
    by_cases hv : visited.contains n
    · rw [hbody, if_neg (not_not_intro hv)]
      have h := ih visited (fun m hm => hns m (List.mem_cons_of_mem _ hm)) inv
      refine ⟨?_, h.2⟩
      intro he
      obtain ⟨V', hinv', hmono, hall⟩ := h.1 he
      refine ⟨V', hinv', hmono, ?_⟩
      intro m hm
      rcases List.mem_cons.mp hm with he2 | hm2
      · rw [he2]; exact hmono n (contains_iff.mp hv)
      · exact hall m hm2
    · rw [hbody, if_pos hv]
      have hfresh : n ∉ visited := fun h => hv (contains_iff.mpr h)
      have hspec := dfsGo_spec hwf (dfsFuel g) (.visit n) visited [] [] inv
        List.nodup_nil List.chain'_nil
        (by
          intro m hm
          injection hm with h3
          subst h3
          exact ⟨hns n (List.mem_cons_self _ _), hfresh,
            (by intro p hp; cases hp), dfsPot_le g visited⟩)
        (by intro dss hdss; cases hdss)
      cases hrec : dfsGo g (dfsFuel g) (.visit n) visited [] [] with
      | mk o vis2 =>
        cases o with
        | some c =>
          simp only []
          have hcyc := hspec.1 c vis2 hrec
          constructor
          · intro he
            have := hcyc.1
            rw [he] at this
            simp at this
          · intro _
            exact hcyc
        | none =>
          simp only []
          obtain ⟨⟨t, ht⟩, inv2, hn_in, _⟩ := hspec.2 vis2 hrec
          have h := ih vis2 (fun m hm => hns m (List.mem_cons_of_mem _ hm)) inv2
          refine ⟨?_, h.2⟩
          intro he
          obtain ⟨V', hinv', hmono, hall⟩ := h.1 he
          refine ⟨V', hinv', ?_, ?_⟩
          · intro x hx
            exact hmono x (ht ▸ List.mem_append.mpr (Or.inl hx))
          · intro m hm
            rcases List.mem_cons.mp hm with he2 | hm2
            · rw [he2]; exact hmono n (hn_in n rfl)
            · exact hall m hm2

theorem findCycle_spec {g : DGraph} (hwf : WF g)
    (hcyc : ∃ c, IsCycleList g c) :
    findCycle g ≠ [] ∧ IsCycleList g (findCycle g) := by
  have inv0 : DInv g [] [] [] :=
    ⟨rfl, (by intro x hx; cases hx), (by intro x hx; cases hx),
     (by intro x hx; cases hx), (by intro x hx; cases hx)⟩
  have h := findCycleGo_spec hwf g.nodes [] (fun n hn => hn) inv0
  have hne : findCycleGo g g.nodes [] ≠ [] := by
    intro he
    obtain ⟨V', hinv', _, hall⟩ := h.1 he
    obtain ⟨c, hc⟩ := hcyc
    obtain ⟨x, hxc, hxcyc⟩ := oncycle_of_cycle hc
    have hxn : x ∈ g.nodes := hc.2.2.2 x hxc
    exact hinv'.fin_nocycle x (hall x hxn) (by intro h2; cases h2) hxcyc
  exact ⟨hne, h.2 hne⟩

theorem no_cycle_of_topo {g : DGraph} {order : List String}
    (hord : ∀ a ∈ order, ∀ b ∈ validDeps g a, b ∈ order ∧
      order.indexOf b < order.indexOf a)
    (hall : ∀ x ∈ g.nodes, x ∈ order)
    {c : List String} (hc : IsCycleList g c) : False := by
  obtain ⟨hlen, hhd, hch, hmem⟩ := hc
  have descend : ∀ (l : List String), l.Chain' (edgeStep g) → (∀ x ∈ l, x ∈ order) →
      ∀ x y, l.head? = some x → l.getLast? = some y →
        order.indexOf y ≤ order.indexOf x ∧
        (2 ≤ l.length → order.indexOf y < order.indexOf x) := by
    intro l
    induction l with
    | nil => intro _ _ x y h; cases h
    | cons a t ihl =>
      intro hch2 hmem2 x y hx hy
      have hxa : x = a := by
        simp only [List.head?_cons] at hx
        injection hx with h
        exact h.symm
      subst hxa
      cases t with
      | nil =>
        simp at hy
        rw [← hy]
        exact ⟨le_refl _, by intro h; simp at h⟩
      | cons b t2 =>
        rw [List.chain'_cons] at hch2
        have hbv : b ∈ validDeps g x := mem_validDeps.mpr ⟨hch2.1.1, hch2.1.2⟩
        have hxo : x ∈ order := hmem2 x (List.mem_cons_self _ _)
        have hlt := (hord x hxo b hbv).2
        rw [List.getLast?_cons_cons] at hy
        have hle := (ihl hch2.2 (fun z hz => hmem2 z (List.mem_cons_of_mem _ hz))
          b y rfl hy).1
        exact ⟨le_of_lt (lt_of_le_of_lt hle hlt), fun _ => lt_of_le_of_lt hle hlt⟩
  cases c with
  | nil => simp at hlen
  | cons a t =>
    have hhd2 : (a :: t).head? = some a := rfl
    have hlast : (a :: t).getLast? = some a := by rw [← hhd]; rfl
    have := (descend (a :: t) hch
      (fun z hz => hall z (hmem z hz)) a a hhd2 hlast).2 hlen
    omega

theorem kahn_incomplete_of_cycle {g : DGraph} (hwf : WF g)
    (hcyc : ∃ c, IsCycleList g c) :
    (kahnRun g).1.length ≠ g.nodes.length := by
  intro hlen
  obtain ⟨hrv, hnd, hsub, _, hord⟩ := kahnRun_spec hwf
  have hall : ∀ x ∈ g.nodes, x ∈ (kahnRun g).1 := by
    intro x hx
    by_contra hxo
    have hsub2 : (kahnRun g).1 ⊆ g.nodes.erase x := by
      intro z hz
      apply (List.mem_erase_of_ne ?_).mpr (hsub z (hrv ▸ hz))
      intro he
      exact hxo (he ▸ hz)
    have hle := (List.subperm_of_subset (hrv ▸ hnd) hsub2).length_le
    rw [List.length_erase_of_mem hx] at hle
    have hpos : 0 < g.nodes.length := List.length_pos.mpr
      (by intro he; rw [he] at hx; cases hx)
    omega
  obtain ⟨c, hc⟩ := hcyc
  exact no_cycle_of_topo hord hall hc

end DGraph

/-- C2: for every well-formed graph containing a directed cycle,
`topologicalSort` raises `CircularDependency` whose cycle list is the DFS
cycle — non-empty, first element equal to last, consecutive elements joined
by graph edges — and whose involved list is exactly the nodes that the
Kahn phase could not place in the partial order. -/
theorem C2_cycle_detection (g : DGraph) (hwf : DGraph.WF g)
    (hcyc : ∃ c, DGraph.IsCycleList g c) :
    g.topologicalSort = .error (.circularDependency (DGraph.findCycle g)
      (g.nodes.filter (fun n => ¬ (DGraph.kahnRun g).1.contains n))) ∧
    DGraph.findCycle g ≠ [] ∧
    (DGraph.findCycle g).head? = (DGraph.findCycle g).getLast? ∧
    (DGraph.findCycle g).Chain' (DGraph.edgeStep g) ∧
    ∀ x ∈ DGraph.findCycle g, x ∈ g.nodes := by
  obtain ⟨hne, hcspec⟩ := DGraph.findCycle_spec hwf hcyc
  have hlen := DGraph.kahn_incomplete_of_cycle hwf hcyc
  have hrv := (DGraph.kahnRun_spec hwf).1
  refine ⟨?_, hne, hcspec.2.1, hcspec.2.2.1, hcspec.2.2.2⟩
  unfold DGraph.topologicalSort
  have hpair : DGraph.kahnRun g = ((DGraph.kahnRun g).1, (DGraph.kahnRun g).2) := rfl
  rw [hpair]
  simp only []
  rw [if_pos hlen, hrv]

/-- C2 (witness): the two-node graph with the mutual dependency a ↔ b. -/
theorem C2_cycle_detection_witness :
    DGraph.topologicalSort ⟨["a", "b"], [("a", ["b"]), ("b", ["a"])]⟩ =
      .error (.circularDependency
        (DGraph.findCycle ⟨["a", "b"], [("a", ["b"]), ("b", ["a"])]⟩)
        ((⟨["a", "b"], [("a", ["b"]), ("b", ["a"])]⟩ : DGraph).nodes.filter
          (fun n => ¬ (DGraph.kahnRun
            ⟨["a", "b"], [("a", ["b"]), ("b", ["a"])]⟩).1.contains n))) ∧
    DGraph.findCycle ⟨["a", "b"], [("a", ["b"]), ("b", ["a"])]⟩ ≠ [] ∧
    (DGraph.findCycle ⟨["a", "b"], [("a", ["b"]), ("b", ["a"])]⟩).head? =
      (DGraph.findCycle ⟨["a", "b"], [("a", ["b"]), ("b", ["a"])]⟩).getLast? ∧
    (DGraph.findCycle ⟨["a", "b"], [("a", ["b"]), ("b", ["a"])]⟩).Chain'
      (DGraph.edgeStep ⟨["a", "b"], [("a", ["b"]), ("b", ["a"])]⟩) ∧
    ∀ x ∈ DGraph.findCycle ⟨["a", "b"], [("a", ["b"]), ("b", ["a"])]⟩,
      x ∈ (⟨["a", "b"], [("a", ["b"]), ("b", ["a"])]⟩ : DGraph).nodes :=
  C2_cycle_detection ⟨["a", "b"], [("a", ["b"]), ("b", ["a"])]⟩ (by decide)
    ⟨["a", "b", "a"], by
      refine ⟨by decide, by decide, ?_, by decide⟩
      rw [List.chain'_cons, List.chain'_cons]
      exact ⟨⟨by decide, by decide⟩, ⟨by decide, by decide⟩, List.chain'_singleton _⟩⟩

end FE
